import Mathlib

/-!
Verification of the B+ tree implementation (src/include/Node.h, src/include/BPlusTree.h).

The C++ code is embedded shallowly: a node is a sum of a leaf (parallel key/value
arrays, kept as one list of pairs) and an internal node (key array plus child array).
The `numKeys` field of the C++ code always equals the number of live keys, and the
arrays' extra physical capacity (used only as transient headroom during splits) is
not part of the logical state, so a node's key/child lists here hold exactly the
live prefix of the C++ vectors.  Machine `int` indices and counts are embedded as
`Nat`, keys as `Int` (the key type is a template parameter ordered by `<`; `Int`
realizes the order used by the tests), values as an arbitrary type `V`.

The doubly linked leaf chain (`next`/`prev` pointers) is maintained by the code so
that it always threads the leaves in left-to-right tree order: `splitLeaf` inserts
the new right leaf immediately after the split leaf, and `mergeNodes` splices the
absorbed right leaf out.  The chain is therefore embedded as the left-to-right
sequence of leaves of the tree, which is exactly what `rangeQuery`'s forward walk
and the leaf-chain invariant are about.
-/

namespace BPT

/-- A B+ tree node: either a leaf holding key/value entries, or an internal node
holding separator keys and child pointers (LeafNode / InternalNode in Node.h). -/
inductive BNode (V : Type) where
  | leaf (entries : List (Int × V))
  | internal (keys : List Int) (children : List (BNode V))

/-- The tree root: `none` models `root == nullptr` (empty tree). -/
abbrev BTree (V : Type) := Option (BNode V)

variable {V : Type}

/-- Modelled from the spec: src/include/Config.h is not under src/.  The spec
(§6) says a too-small order is "silently raised to a minimum valid value"; the
smallest order with meaningful siblings is 3, so MIN_ORDER is modelled as 3.
All theorems below are parametric in the order, assuming only `3 ≤ m`. -/
def MIN_ORDER : Nat := 3

/-- BPlusTree constructor, clamping: `if (order < MIN_ORDER) order = MIN_ORDER`. -/
def clampOrder (m : Nat) : Nat := if m < MIN_ORDER then MIN_ORDER else m

/-- `maxKeys = order - 1` (BPlusTree constructor). -/
def maxKeysOf (m : Nat) : Nat := m - 1

/-- `minKeys = (order + 1) / 2 - 1` (BPlusTree constructor; C++ integer division). -/
def minKeysOf (m : Nat) : Nat := (m + 1) / 2 - 1

/-- Node.h `findChildIndex`: the C++ loop `while (i < numKeys && key >= keys[i]) i++`
returning `i`, rendered as recursion over the key list. -/
def findChildIndex (keys : List Int) (k : Int) : Nat :=
  match keys with
  | [] => 0
  | x :: rest => if k ≥ x then findChildIndex rest k + 1 else 0

/-- Node.h `findKeyPosition`: a binary search over the (sorted) key array that
returns the index of `key` if present, else the first index whose key exceeds
`key`.  On the sorted arrays the code maintains this is the first index `i`
with `¬ (keys[i] < key)`, which is what this linear rendering computes. -/
def findKeyPosition (keys : List Int) (k : Int) : Nat :=
  match keys with
  | [] => 0
  | x :: rest => if x < k then findKeyPosition rest k + 1 else 0

/-- LeafNode `findValue`: linear scan for the first index with `keys[i] == key`. -/
def findValue (entries : List (Int × V)) (k : Int) : Option V :=
  match entries with
  | [] => none
  | (k', v) :: rest => if k' = k then some v else findValue rest k

/-- The `numKeys` field of a node. -/
def nodeCount : BNode V → Nat
  | .leaf entries => entries.length
  | .internal keys _ => keys.length

/-- The live key array of a node. -/
def nodeKeys : BNode V → List Int
  | .leaf entries => entries.map Prod.fst
  | .internal keys _ => keys

/-- The `isLeaf()` test. -/
def isLeaf : BNode V → Bool
  | .leaf _ => true
  | .internal _ _ => false

/-- BPlusTree `search`/`findLeaf`: descend through internal nodes by
`findChildIndex`, then `findValue` in the leaf.  A missing child (possible only
in malformed trees, where the C++ would dereference a null/garbage pointer) is
rendered as a not-found result. -/
def searchNode (k : Int) (n : BNode V) : Option V :=
  match n with
  | .leaf entries => findValue entries k
  | .internal keys children =>
      match h : children.get? (findChildIndex keys k) with
      | some c => searchNode k c
      | none => none
termination_by sizeOf n
decreasing_by
  have hm := List.sizeOf_lt_of_mem (List.get?_mem h)
  simp only [BNode.internal.sizeOf_spec]
  omega

/-- BPlusTree `search` at the tree level (`if (!root) return false`). -/
def searchTree (t : BTree V) (k : Int) : Option V :=
  match t with
  | none => none
  | some n => searchNode k n

/-- Result of inserting into a subtree: either the updated node, or the two
nodes and separator key produced by a split (the arguments the code passes to
`insertIntoParent(left, key, right)`). -/
inductive InsRes (V : Type) where
  | one (n : BNode V)
  | two (l : BNode V) (s : Int) (r : BNode V)

/-- BPlusTree `splitLeaf`: split point `(maxKeys + 1) / 2` (C++ integer
division); the left leaf keeps entries `[0, splitPoint)`, the new right leaf
takes `[splitPoint, numKeys)`, and a copy of the right leaf's first key
(`newLeaf->keys[0]`) is promoted; the chain is re-linked so the right leaf
directly follows the left one. -/
def splitLeaf (maxK : Nat) (entries : List (Int × V)) : InsRes V :=
  let sp := (maxK + 1) / 2
  let right := entries.drop sp
  .two (.leaf (entries.take sp)) (((right.head?).map Prod.fst).getD 0) (.leaf right)

/-- BPlusTree `splitInternal`: split point `(maxKeys + 1) / 2`; the key at the
split point is promoted (removed, not copied), the left node keeps keys
`[0, splitPoint)` and children `[0, splitPoint]`, the right node takes keys
`[splitPoint + 1, numKeys)` and the remaining children. -/
def splitInternal (maxK : Nat) (keys : List Int) (children : List (BNode V)) : InsRes V :=
  let sp := (maxK + 1) / 2
  .two (.internal (keys.take sp) (children.take (sp + 1)))
       (keys.getD sp 0)
       (.internal (keys.drop (sp + 1)) (children.drop (sp + 1)))

/-- The leaf part of BPlusTree `insert`: `pos = findKeyPosition(key)`; if
`pos < numKeys && keys[pos] == key` the value is overwritten in place (upsert,
no split check); otherwise the entry is inserted at `pos` and the leaf is split
when `numKeys` now exceeds `maxKeys` (`isFull()`). -/
def leafInsert (maxK : Nat) (entries : List (Int × V)) (k : Int) (v : V) : InsRes V :=
  let pos := findKeyPosition (entries.map Prod.fst) k
  match entries.get? pos with
  | some (k', _) =>
      if k' = k then .one (.leaf (entries.set pos (k, v)))
      else
        let es := entries.insertIdx pos (k, v)
        if es.length > maxK then splitLeaf maxK es else .one (.leaf es)
  | none =>
      let es := entries.insertIdx pos (k, v)
      if es.length > maxK then splitLeaf maxK es else .one (.leaf es)

/-- BPlusTree `insert` below the root, with `insertIntoParent`'s non-root
branch fused in: descend to the leaf of `findLeaf(key)`, insert there, and on
the way back up insert each promoted separator into the parent at
`findKeyPosition(separator)` (key at `pos`, right child at `pos + 1`),
splitting the parent in turn when it overflows.  A missing child on the
descent (malformed tree; null dereference in C++) leaves the node unchanged. -/
def insertAux (maxK : Nat) (k : Int) (v : V) (n : BNode V) : InsRes V :=
  match n with
  | .leaf entries => leafInsert maxK entries k v
  | .internal keys children =>
      match h : children.get? (findChildIndex keys k) with
      | none => .one (.internal keys children)
      | some c =>
          match insertAux maxK k v c with
          | .one c' => .one (.internal keys (children.set (findChildIndex keys k) c'))
          | .two l s r =>
              let pos := findKeyPosition keys s
              let keys' := keys.insertIdx pos s
              let children' := ((children.set (findChildIndex keys k) l).insertIdx (pos + 1) r)
              if keys'.length > maxK then splitInternal maxK keys' children'
              else .one (.internal keys' children')
termination_by sizeOf n
decreasing_by
  have hm := List.sizeOf_lt_of_mem (List.get?_mem h)
  simp only [BNode.internal.sizeOf_spec]
  omega

/-- BPlusTree `insert` at the tree level: an empty tree gets a fresh root leaf
with the single entry; a root split (`insertIntoParent` with `parent ==
nullptr`) allocates a new internal root with one separator and two children. -/
def insertTree (maxK : Nat) (t : BTree V) (k : Int) (v : V) : BTree V :=
  match t with
  | none => some (.leaf [(k, v)])
  | some n =>
      match insertAux maxK k v n with
      | .one n' => some n'
      | .two l s r => some (.internal [s] [l, r])

/-- The leaf part of BPlusTree `remove`: linear scan for the key
(`for i ... if (leaf->keys[i] == key)`), then `removeAt(pos)`; returns the
updated entry list and whether the key was found. -/
def leafRemove (entries : List (Int × V)) (k : Int) : List (Int × V) × Bool :=
  match entries with
  | [] => ([], false)
  | (k', v) :: rest =>
      if k' = k then (rest, true)
      else
        let (r, f) := leafRemove rest k
        ((k', v) :: r, f)

/-- BPlusTree `mergeNodes` on the two sibling nodes (left absorbs right):
leaves concatenate their entries (and the chain is spliced past the absorbed
leaf); internal nodes pull the parent separator down between the two key runs
and concatenate the child arrays.  Mismatched shapes cannot occur (both
siblings sit at the same depth); the fallback keeps the left node. -/
def mergeTwo (left right : BNode V) (sep : Int) : BNode V :=
  match left, right with
  | .leaf lE, .leaf rE => .leaf (lE ++ rE)
  | .internal lK lC, .internal rK rC => .internal (lK ++ sep :: rK) (lC ++ rC)
  | l, _ => l

/-- BPlusTree `redistributeNodes` on the underflowed node and its sibling,
given the parent separator `sep` at `parentIndex`; returns the updated node,
the updated sibling and the new parent separator.
Left sibling, leaves: the sibling's last entry becomes the node's first and the
separator becomes the node's new first key.  Right sibling, leaves: the
sibling's first entry is appended to the node and the separator becomes the
sibling's new first key.  Left sibling, internal: the separator rotates down as
the node's first key, the sibling's last child becomes the node's first child,
and the sibling's last key rotates up into the separator slot.  Right sibling,
internal: symmetric with the sibling's first key and child.
Unreachable shapes (empty surplus sibling, mismatched kinds) keep everything
unchanged. -/
def redistribute (node sibling : BNode V) (sep : Int) (fromLeft : Bool) :
    BNode V × BNode V × Int :=
  match node, sibling with
  | .leaf nE, .leaf sE =>
      if fromLeft then
        match sE.getLast? with
        | some p => (.leaf (p :: nE), .leaf sE.dropLast, p.1)
        | none => (.leaf nE, .leaf sE, sep)
      else
        match sE with
        | p :: rest => (.leaf (nE ++ [p]), .leaf rest, ((rest.head?.map Prod.fst).getD p.1))
        | [] => (.leaf nE, .leaf sE, sep)
  | .internal nK nC, .internal sK sC =>
      if fromLeft then
        match sK.getLast?, sC.getLast? with
        | some sk, some sc => (.internal (sep :: nK) (sc :: nC),
                               .internal sK.dropLast sC.dropLast, sk)
        | _, _ => (.internal nK nC, .internal sK sC, sep)
      else
        match sK, sC with
        | sk :: restK, sc :: restC =>
            (.internal (nK ++ [sep]) (nC ++ [sc]), .internal restK restC, sk)
        | _, _ => (.internal nK nC, .internal sK sC, sep)
  | n, s => (n, s, sep)

/-- The default node used to render C++ child-array accesses totally. -/
def dfltNode : BNode V := .leaf []

/-- `numKeys` of `children[i]`. -/
def countAt (children : List (BNode V)) (i : Nat) : Nat :=
  nodeCount (children.getD i dfltNode)

/-- BPlusTree `deleteEntry`, the part executed at the parent of the
underflowed child `children[ci]` (the C++ works through the `parent` pointer
and `getNodeIndex`, which recovers exactly this child index):
1. if a left sibling exists (`ci > 0`) with surplus (`numKeys > minKeys`),
   redistribute from it (`parentIndex = ci - 1`);
2. else if a right sibling exists (`ci < parent->numKeys`) with surplus,
   redistribute from it (`parentIndex = ci`);
3. else merge: with the left sibling if one exists (left absorbs the node,
   `parentIndex = ci - 1`), otherwise with the right sibling (the node absorbs
   it, `parentIndex = ci`); the separator key at `parentIndex` and the child
   at `parentIndex + 1` are removed from the parent. -/
def fixChild (minK : Nat) (keys : List Int) (children : List (BNode V)) (ci : Nat) :
    List Int × List (BNode V) :=
  if 0 < ci ∧ minK < countAt children (ci - 1) then
    let res := redistribute (children.getD ci dfltNode) (children.getD (ci - 1) dfltNode)
                 (keys.getD (ci - 1) 0) true
    (keys.set (ci - 1) res.2.2, (children.set (ci - 1) res.2.1).set ci res.1)
  else if ci < keys.length ∧ minK < countAt children (ci + 1) then
    let res := redistribute (children.getD ci dfltNode) (children.getD (ci + 1) dfltNode)
                 (keys.getD ci 0) false
    (keys.set ci res.2.2, (children.set ci res.1).set (ci + 1) res.2.1)
  else if 0 < ci then
    let merged := mergeTwo (children.getD (ci - 1) dfltNode) (children.getD ci dfltNode)
                    (keys.getD (ci - 1) 0)
    (keys.eraseIdx (ci - 1), (children.set (ci - 1) merged).eraseIdx ci)
  else
    let merged := mergeTwo (children.getD ci dfltNode) (children.getD (ci + 1) dfltNode)
                    (keys.getD ci 0)
    (keys.eraseIdx ci, (children.set ci merged).eraseIdx (ci + 1))

/-- BPlusTree `remove` below the root, with the upward `deleteEntry` cascade
rendered as recursion: descend to the leaf of `findLeaf(key)` and remove the
entry there; on the way back up, whenever the updated child underflows
(`isUnderflow(minKeys)`), run the sibling fix-up at its parent.  If the key is
absent the code returns false before mutating anything, so the tree comes back
unchanged. -/
def removeAux (maxK minK : Nat) (k : Int) (n : BNode V) : BNode V × Bool :=
  match n with
  | .leaf entries =>
      let res := leafRemove entries k
      (.leaf res.1, res.2)
  | .internal keys children =>
      match h : children.get? (findChildIndex keys k) with
      | none => (.internal keys children, false)
      | some c =>
          let res := removeAux maxK minK k c
          if res.2 then
            if nodeCount res.1 < minK then
              let fixres := fixChild minK keys (children.set (findChildIndex keys k) res.1)
                              (findChildIndex keys k)
              (.internal fixres.1 fixres.2, true)
            else (.internal keys (children.set (findChildIndex keys k) res.1), true)
          else (.internal keys children, false)
termination_by sizeOf n
decreasing_by
  have hm := List.sizeOf_lt_of_mem (List.get?_mem h)
  simp only [BNode.internal.sizeOf_spec]
  omega

/-- BPlusTree `remove` at the tree level: an empty tree reports not-found; a
root leaf that becomes empty is deleted (`root = nullptr`); a root internal
node whose key count drops to 0 is collapsed onto its sole remaining child
(`deleteEntry`'s root branch). -/
def removeTree (maxK minK : Nat) (t : BTree V) (k : Int) : BTree V × Bool :=
  match t with
  | none => (none, false)
  | some n =>
      let res := removeAux maxK minK k n
      if res.2 then
        match res.1 with
        | .leaf entries =>
            if entries.length = 0 then (none, true) else (some (.leaf entries), true)
        | .internal keys children =>
            if keys.length = 0 then
              match children.get? 0 with
              | some c => (some c, true)
              | none => (none, true)
            else (some (.internal keys children), true)
      else (t, false)

/-- The entry lists of all leaves of a subtree, in left-to-right order: the
leaf chain of the subtree. -/
def leavesList (n : BNode V) : List (List (Int × V)) :=
  match n with
  | .leaf entries => [entries]
  | .internal _ children => children.attach.flatMap (fun c => leavesList c.1)
termination_by sizeOf n
decreasing_by
  have := List.sizeOf_lt_of_mem c.2
  simp only [BNode.internal.sizeOf_spec]
  omega

/-- The leaf chain as walked by `rangeQuery`: the leaf reached by
`findLeaf(start)` followed, via the `next` links, by every leaf to its right.
A missing child on the descent gives the empty walk (`leaf == nullptr`). -/
def leavesFrom (k : Int) (n : BNode V) : List (List (Int × V)) :=
  match n with
  | .leaf entries => [entries]
  | .internal keys children =>
      match h : children.get? (findChildIndex keys k) with
      | some c =>
          leavesFrom k c ++
            (children.drop (findChildIndex keys k + 1)).attach.flatMap
              (fun d => leavesList d.1)
      | none => []
termination_by sizeOf n
decreasing_by
  have hm := List.sizeOf_lt_of_mem (List.get?_mem h)
  simp only [BNode.internal.sizeOf_spec]
  omega

/-- The inner loop of BPlusTree `rangeQuery` over one leaf: emit entries with
`start ≤ key ≤ end`, and stop the whole query (`return result`) at the first
key exceeding `end`; keys below `start` are skipped.  The Bool reports whether
the early return fired. -/
def scanEntries (a b : Int) (entries : List (Int × V)) : List (Int × V) × Bool :=
  match entries with
  | [] => ([], false)
  | (k, v) :: rest =>
      if a ≤ k ∧ k ≤ b then
        let res := scanEntries a b rest
        ((k, v) :: res.1, res.2)
      else if b < k then ([], true)
      else scanEntries a b rest

/-- The outer loop of BPlusTree `rangeQuery`: walk the leaf chain
(`leaf = leaf->next`) until the scan stops early or the chain ends. -/
def scanLeaves (a b : Int) (ls : List (List (Int × V))) : List (Int × V) :=
  match ls with
  | [] => []
  | es :: rest =>
      let res := scanEntries a b es
      if res.2 then res.1 else res.1 ++ scanLeaves a b rest

/-- BPlusTree `rangeQuery(start, end)`: empty on an empty tree, else descend
to the leaf owning `start` and walk forward. -/
def rangeQueryTree (t : BTree V) (a b : Int) : List (Int × V) :=
  match t with
  | none => []
  | some n => scanLeaves a b (leavesFrom a n)

/-- BPlusTree `height`: 0 on an empty tree, else 1 plus the length of the
leftmost spine (`current = internal->children[0]`).  A missing first child
(malformed tree, null dereference in C++) terminates the walk. -/
def heightNode (n : BNode V) : Nat :=
  match n with
  | .leaf _ => 1
  | .internal _ children =>
      match h : children.get? 0 with
      | some c => heightNode c + 1
      | none => 1
termination_by sizeOf n
decreasing_by
  have hm := List.sizeOf_lt_of_mem (List.get?_mem h)
  simp only [BNode.internal.sizeOf_spec]
  omega

/-- BPlusTree `height` at the tree level. -/
def heightTree (t : BTree V) : Nat :=
  match t with
  | none => 0
  | some n => heightNode n

/-- BPlusTree `isEmpty`: `root == nullptr`. -/
def isEmptyTree (t : BTree V) : Bool :=
  match t with
  | none => true
  | some _ => false

/-- Strictly-ascending check of `validateNode`'s key loop
(`keys[i-1] >= keys[i]` fails the check). -/
def sortedKeysB : List Int → Bool
  | [] => true
  | [_] => true
  | a :: b :: t => decide (a < b) && sortedKeysB (b :: t)

mutual

/-- BPlusTree `validateNode`: checks `minKeys ≤ numKeys ≤ maxKeys` for every
non-root node, strictly increasing keys in every node, `children.size() ==
numKeys + 1` for internal nodes, and that all leaves sit at the same level,
threading the first leaf level through the recursion (the C++ `int& leafLevel`,
`-1` initially, is the `Option Nat` state).  Returns `none` on a violation. -/
def validateNode (maxK minK : Nat) (isRoot : Bool) (n : BNode V) (level : Nat)
    (leafLevel : Option Nat) : Option (Option Nat) :=
  if ¬ isRoot ∧ (nodeCount n < minK ∨ maxK < nodeCount n) then none
  else if ¬ sortedKeysB (nodeKeys n) then none
  else
    match n with
    | .leaf _ =>
        match leafLevel with
        | none => some (some level)
        | some ll => if ll = level then some (some ll) else none
    | .internal keys children =>
        if children.length ≠ keys.length + 1 then none
        else validateChildren maxK minK children level leafLevel
termination_by (sizeOf n, 1)

/-- The child loop of `validateNode`. -/
def validateChildren (maxK minK : Nat) (cs : List (BNode V)) (level : Nat)
    (leafLevel : Option Nat) : Option (Option Nat) :=
  match cs with
  | [] => some leafLevel
  | c :: rest =>
      match validateNode maxK minK false c (level + 1) leafLevel with
      | none => none
      | some ll' => validateChildren maxK minK rest level ll'
termination_by (sizeOf cs, 0)

end

/-- BPlusTree `validate`: vacuously true on the empty tree, else run
`validateNode` from the root with `leafLevel = -1`. -/
def validateTree (maxK minK : Nat) (t : BTree V) : Bool :=
  match t with
  | none => true
  | some n => (validateNode maxK minK true n 0 none).isSome

/-! ### Logical contents and specification-side list operations -/

/-- The stored entries of a subtree: the concatenation of its leaves'
entry lists in left-to-right (leaf chain) order.  Internal keys are
separators, not contents. -/
def contents (n : BNode V) : List (Int × V) :=
  match n with
  | .leaf entries => entries
  | .internal _ children => children.attach.flatMap (fun c => contents c.1)
termination_by sizeOf n
decreasing_by
  have := List.sizeOf_lt_of_mem c.2
  simp only [BNode.internal.sizeOf_spec]
  omega

/-- The stored entries of the whole tree. -/
def contentsTree (t : BTree V) : List (Int × V) :=
  match t with
  | none => []
  | some n => contents n

/-- Upsert into a key-sorted association list: insert `(k, v)` at its sorted
position, overwriting the value if `k` is already present. -/
def upsertSorted (l : List (Int × V)) (k : Int) (v : V) : List (Int × V) :=
  match l with
  | [] => [(k, v)]
  | (k', v') :: rest =>
      if k < k' then (k, v) :: (k', v') :: rest
      else if k = k' then (k, v) :: rest
      else (k', v') :: upsertSorted rest k v

/-- Remove the first entry with key `k` from an association list. -/
def eraseKey (l : List (Int × V)) (k : Int) : List (Int × V) :=
  match l with
  | [] => []
  | (k', v') :: rest => if k' = k then rest else (k', v') :: eraseKey rest k

/-- The structure of a tree with the stored values erased: two trees have the
same shape exactly when they agree on every node, key and entry position. -/
def shapeOf (n : BNode V) : BNode Unit :=
  match n with
  | .leaf entries => .leaf (entries.map (fun p => (p.1, ())))
  | .internal keys children => .internal keys (children.attach.map (fun c => shapeOf c.1))
termination_by sizeOf n
decreasing_by
  have := List.sizeOf_lt_of_mem c.2
  simp only [BNode.internal.sizeOf_spec]
  omega

/-! ### The structural invariants of the specification (C2)

Each item of the spec's invariant list (keys strictly increasing per node,
uniform leaf depth, count bounds with the root exempt from the lower bound,
empty-iff-no-root, and the ascending gap-free leaf chain) gets its own
predicate, stated directly over the embedded tree. -/

/-- Keys strictly increasing within every node of the subtree. -/
def nodesSorted (n : BNode V) : Prop :=
  match n with
  | .leaf entries => List.Pairwise (· < ·) (entries.map Prod.fst)
  | .internal keys children =>
      List.Pairwise (· < ·) keys ∧ ∀ c ∈ children.attach, nodesSorted c.1
termination_by sizeOf n
decreasing_by
  have := List.sizeOf_lt_of_mem c.2
  simp only [BNode.internal.sizeOf_spec]
  omega

/-- All leaves of the subtree at the same depth: `some d` gives that common
depth, `none` reports a violation (or a childless internal node). -/
def uniformDepth (n : BNode V) : Option Nat :=
  match n with
  | .leaf _ => some 0
  | .internal _ children =>
      children.attach.foldl
        (fun acc c =>
          match acc, uniformDepth c.1 with
          | some (some d), some d' => if d = d' then some (some d) else none
          | some none, some d' => some (some d')
          | _, _ => none)
        (some none) |>.bind (fun o => o.map (· + 1))
termination_by sizeOf n
decreasing_by
  have := List.sizeOf_lt_of_mem c.2
  simp only [BNode.internal.sizeOf_spec]
  omega

/-- Count bounds: every non-root node has `minKeys ≤ numKeys ≤ maxKeys`; the
root is exempt from the lower bound only.  Internal nodes have one more child
than keys. -/
def countsOK (maxK minK : Nat) (isRoot : Bool) (n : BNode V) : Prop :=
  match n with
  | .leaf entries =>
      entries.length ≤ maxK ∧ (isRoot = true ∨ minK ≤ entries.length)
  | .internal keys children =>
      keys.length ≤ maxK ∧ (isRoot = true ∨ minK ≤ keys.length) ∧
      children.length = keys.length + 1 ∧
      ∀ c ∈ children.attach, countsOK maxK minK false c.1
termination_by sizeOf n
decreasing_by
  have := List.sizeOf_lt_of_mem c.2
  simp only [BNode.internal.sizeOf_spec]
  omega

/-- The invariant bundle of spec §3 for a whole tree, with the leaf-chain
condition: walking the chain from the leftmost leaf visits all stored entries
in strictly ascending key order (ascending, no duplicates, no gaps — the chain
is exactly the left-to-right leaf sequence, see the header note). -/
def Invariants (maxK minK : Nat) (t : BTree V) : Prop :=
  match t with
  | none => True
  | some n =>
      nodesSorted n ∧ (uniformDepth n).isSome ∧ countsOK maxK minK true n ∧
      contents n ≠ [] ∧ List.Pairwise (· < ·) ((contents n).map Prod.fst)

/-! ### Bulk loader (spec-modelled)

`bulkLoad` is exercised by src/tests/test_bulk_load.cpp but its implementation
is not under src/, so it is modelled from spec §4.6. -/

/-- Modelled from the spec: §4.6 steps 1-2, stable sort by key then
deduplication keeping the last occurrence per key, which the spec states is
"identical semantics to applying repeated upsert in input order" — the form
used here. -/
def bulkPrep (data : List (Int × V)) : List (Int × V) :=
  data.foldl (fun acc p => upsertSorted acc p.1 p.2) []

/-- Modelled from the spec: §4.6 packing with fuel (the fuel is the list
length, which always suffices).  Greedy chunks of `maxC`; when fewer than
`minC` items would remain for the final chunk, the last two chunks are formed
by an even split instead, so that every chunk of a multi-chunk packing has
between `minC` and `maxC` items ("at most maxKeys entries and, where not
forced otherwise by the final remainder, at least minKeys"). -/
def packChunksGo (fuel maxC minC : Nat) (l : List α) : List (List α) :=
  match fuel with
  | 0 => if l.isEmpty then [] else [l]
  | fuel + 1 =>
      if l.isEmpty then []
      else if l.length ≤ maxC then [l]
      else if l.length < maxC + minC then [l.take (l.length / 2), l.drop (l.length / 2)]
      else l.take maxC :: packChunksGo fuel maxC minC (l.drop maxC)

/-- Modelled from the spec: §4.6 step 3/4 grouping. -/
def packChunks (maxC minC : Nat) (l : List α) : List (List α) :=
  packChunksGo l.length maxC minC l

/-- Modelled from the spec: §4.6 step 3, pack the prepared entries into leaves
left to right; each leaf is paired with its minimal key (its first entry's
key) for separator construction one level up. -/
def buildLeaves (maxK minK : Nat) (entries : List (Int × V)) : List (Int × BNode V) :=
  (packChunks maxK minK entries).map
    (fun c => (((c.head?.map Prod.fst).getD 0), .leaf c))

/-- Modelled from the spec: §4.6 step 4, group a level's nodes into parents of
at most `maxKeys + 1` children; within each parent the separator keys are each
group member's (after the first) minimal key; each parent is paired with its
own minimal key. -/
def buildLevel (maxK minK : Nat) (ns : List (Int × BNode V)) : List (Int × BNode V) :=
  (packChunks (maxK + 1) (minK + 1) ns).map
    (fun grp =>
      (((grp.head?.map Prod.fst).getD 0),
       .internal (grp.tail.map Prod.fst) (grp.map Prod.snd)))

/-- Modelled from the spec: §4.6 step 4, repeat level-building until exactly
one node remains, which becomes the root; a single leaf becomes the root
directly.  The fuel (one level per unit) is the level's node count, which
always suffices since each level is strictly smaller. -/
def buildUpGo (fuel : Nat) (maxK minK : Nat) (ns : List (Int × BNode V)) : BTree V :=
  match fuel, ns with
  | _, [] => none
  | _, [(_, n)] => some n
  | 0, (_, n) :: _ => some n
  | fuel + 1, ns => buildUpGo fuel maxK minK (buildLevel maxK minK ns)

/-- Modelled from the spec: `bulkLoad` — discard the existing tree content
(the old tree argument is ignored) and build the new tree from the prepared
entries. -/
def bulkLoadTree (maxK minK : Nat) (_t : BTree V) (data : List (Int × V)) : BTree V :=
  let lvs := buildLeaves maxK minK (bulkPrep data)
  buildUpGo lvs.length maxK minK lvs

/-! ### Reachable tree states -/

/-- The tree states reachable through the public mutators of a tree
constructed with order `m`: the empty tree, and anything obtained from a
reachable state by `insert`, `remove` or `bulkLoad`. -/
inductive Reachable (m : Nat) : BTree V → Prop where
  | empty : Reachable m none
  | insert : ∀ {t} (k : Int) (v : V), Reachable m t →
      Reachable m (insertTree (maxKeysOf m) t k v)
  | remove : ∀ {t} (k : Int), Reachable m t →
      Reachable m (removeTree (maxKeysOf m) (minKeysOf m) t k).1
  | bulk : ∀ {t} (data : List (Int × V)), Reachable m t →
      Reachable m (bulkLoadTree (maxKeysOf m) (minKeysOf m) t data)

/-! ### The separator-order well-formedness invariant

`WFN maxK minK cmin lo hi d n` states that the subtree `n` is a well-formed
B+ subtree of leaf depth `d` whose stored keys all lie in the half-open window
`[lo, hi)` (an absent bound is infinite), whose internal separator keys lie
strictly inside the window, whose node key counts are at most `maxK` and at
least `minK` — except the top node, which only needs `cmin` — and whose
internal nodes route child `i` into the window `[keys[i-1], keys[i])`.
This is the invariant the mutating operations actually maintain; the spec's
invariant list (`Invariants`) follows from it. -/

/-- Lower window bound for stored keys (inclusive). -/
def okLo (lo : Option Int) (k : Int) : Prop := ∀ a ∈ lo, a ≤ k

/-- Strict lower window bound for separator keys. -/
def okLoS (lo : Option Int) (k : Int) : Prop := ∀ a ∈ lo, a < k

/-- Upper window bound (exclusive). -/
def okHi (hi : Option Int) (k : Int) : Prop := ∀ b ∈ hi, k < b

/-- The lower window bound of child `i` of an internal node: `keys[i-1]`, or
the node's own bound for the leftmost child. -/
def childLo (lo : Option Int) (keys : List Int) (i : Nat) : Option Int :=
  match i with
  | 0 => lo
  | j + 1 => some (keys.getD j 0)

/-- The upper window bound of child `i` of an internal node: `keys[i]`, or the
node's own bound for the rightmost child. -/
def childHi (hi : Option Int) (keys : List Int) (i : Nat) : Option Int :=
  if i < keys.length then some (keys.getD i 0) else hi

/-- Well-formedness of a subtree (see the section header). -/
inductive WFN (maxK minK : Nat) : Nat → Option Int → Option Int → Nat → BNode V → Prop where
  | leaf : ∀ (cmin : Nat) (lo hi : Option Int) (entries : List (Int × V)),
      cmin ≤ entries.length → entries.length ≤ maxK →
      List.Pairwise (· < ·) (entries.map Prod.fst) →
      (∀ p ∈ entries, okLo lo p.1 ∧ okHi hi p.1) →
      WFN maxK minK cmin lo hi 0 (.leaf entries)
  | internal : ∀ (cmin : Nat) (lo hi : Option Int) (d : Nat) (keys : List Int)
      (children : List (BNode V)),
      cmin ≤ keys.length → keys.length ≤ maxK →
      List.Pairwise (· < ·) keys →
      (∀ s ∈ keys, okLoS lo s ∧ okHi hi s) →
      children.length = keys.length + 1 →
      (∀ i, i < children.length →
        WFN maxK minK minK (childLo lo keys i) (childHi hi keys i) d
          (children.getD i dfltNode)) →
      WFN maxK minK cmin lo hi (d + 1) (.internal keys children)

/-- Well-formedness of a whole tree: an absent root, or a root whose key count
is at least 1 and whose keys live in the unbounded window. -/
def TreeWF (maxK minK : Nat) (t : BTree V) : Prop :=
  match t with
  | none => True
  | some n => ∃ d, WFN maxK minK 1 none none d n

/-- Well-formedness of one level of the bulk loader: a left-to-right list of
`(minimal key, node)` pairs in the window `[lo, hi)`, each node well-formed
for the window from its own minimal key to the next node's minimal key. -/
def ChainWF (maxK minK d : Nat) : Option Int → Option Int → List (Int × BNode V) → Prop
  | _, _, [] => True
  | lo, hi, [(m, n)] => okLo lo m ∧ okHi hi m ∧ WFN maxK minK minK lo hi d n
  | lo, hi, (m, n) :: (m', n') :: rest =>
      okLo lo m ∧ okHi hi m ∧ m < m' ∧
      WFN maxK minK minK lo (some m') d n ∧
      ChainWF maxK minK d (some m') hi ((m', n') :: rest)

/-- The lower bound `lo₂` is at most as restrictive as `lo`. -/
def loWide (lo₂ lo : Option Int) : Prop := ∀ a₂ ∈ lo₂, ∃ a ∈ lo, a₂ ≤ a

/-- The upper bound `hi₂` is at most as restrictive as `hi`. -/
def hiWide (hi₂ hi : Option Int) : Prop := ∀ b₂ ∈ hi₂, ∃ b ∈ hi, b ≤ b₂

/-- The conditions the WFN constructor imposes on an internal node apart from
its own key-count window. -/
def InternalFields (maxK minK : Nat) (lo hi : Option Int) (d : Nat)
    (keys : List Int) (children : List (BNode V)) : Prop :=
  List.Pairwise (· < ·) keys ∧
  (∀ s ∈ keys, okLoS lo s ∧ okHi hi s) ∧
  children.length = keys.length + 1 ∧
  (∀ i, i < children.length →
    WFN maxK minK minK (childLo lo keys i) (childHi hi keys i) d
      (children.getD i dfltNode))

/-! ### Basic toolkit -/

theorem attach_flatMap_eq {α β : Type _} (l : List α) (f : α → List β) :
    l.attach.flatMap (fun c => f c.1) = (l.map f).flatten := by
  induction l with
  | nil => rfl
  | cons a t ih => simp_all [List.attach_cons, List.flatMap_cons, List.flatMap_map]

theorem attach_map_eq {α β : Type _} (l : List α) (f : α → β) :
    l.attach.map (fun c => f c.1) = l.map f := by
  induction l with
  | nil => rfl
  | cons a t ih => simp_all [List.attach_cons]

theorem attach_forall_eq {α : Type _} (l : List α) (P : α → Prop) :
    (∀ c ∈ l.attach, P c.1) ↔ ∀ c ∈ l, P c := by
  simp

theorem contents_leaf (entries : List (Int × V)) :
    contents (.leaf entries) = entries := by
  rw [contents]

theorem contents_internal (keys : List Int) (children : List (BNode V)) :
    contents (.internal keys children) = (children.map contents).flatten := by
  rw [contents]; exact attach_flatMap_eq children contents

theorem leavesList_leaf (entries : List (Int × V)) :
    leavesList (.leaf entries) = [entries] := by
  rw [leavesList]

theorem leavesList_internal (keys : List Int) (children : List (BNode V)) :
    leavesList (.internal keys children) = (children.map leavesList).flatten := by
  rw [leavesList]; exact attach_flatMap_eq children leavesList

theorem shapeOf_leaf (entries : List (Int × V)) :
    shapeOf (.leaf entries) = .leaf (entries.map (fun p => (p.1, ()))) := by
  rw [shapeOf]

theorem shapeOf_internal (keys : List Int) (children : List (BNode V)) :
    shapeOf (.internal keys children) = .internal keys (children.map shapeOf) := by
  rw [shapeOf]; rw [attach_map_eq children shapeOf]

theorem nodesSorted_leaf (entries : List (Int × V)) :
    nodesSorted (.leaf entries) ↔ List.Pairwise (· < ·) (entries.map Prod.fst) := by
  rw [nodesSorted]

theorem nodesSorted_internal (keys : List Int) (children : List (BNode V)) :
    nodesSorted (.internal keys children) ↔
      List.Pairwise (· < ·) keys ∧ ∀ c ∈ children, nodesSorted c := by
  rw [nodesSorted]; simp

theorem countsOK_leaf (maxK minK : Nat) (isRoot : Bool) (entries : List (Int × V)) :
    countsOK maxK minK isRoot (.leaf entries) ↔
      entries.length ≤ maxK ∧ (isRoot = true ∨ minK ≤ entries.length) := by
  rw [countsOK]

theorem countsOK_internal (maxK minK : Nat) (isRoot : Bool) (keys : List Int)
    (children : List (BNode V)) :
    countsOK maxK minK isRoot (.internal keys children) ↔
      keys.length ≤ maxK ∧ (isRoot = true ∨ minK ≤ keys.length) ∧
      children.length = keys.length + 1 ∧
      ∀ c ∈ children, countsOK maxK minK false c := by
  rw [countsOK]; simp

/-! #### findChildIndex and findKeyPosition -/

theorem findChildIndex_le (keys : List Int) (k : Int) :
    findChildIndex keys k ≤ keys.length := by
  induction keys with
  | nil => simp [findChildIndex]
  | cons x rest ih =>
      rw [findChildIndex]
      split <;> simp <;> omega

theorem findChildIndex_lt_length (keys : List Int) (children : List (BNode V)) (k : Int)
    (h : children.length = keys.length + 1) :
    findChildIndex keys k < children.length := by
  have := findChildIndex_le keys k
  omega

theorem findChildIndex_prefix_le (keys : List Int) (k : Int) :
    ∀ j < findChildIndex keys k, keys.getD j 0 ≤ k := by
  induction keys with
  | nil => simp [findChildIndex]
  | cons x rest ih =>
      rw [findChildIndex]
      split
      · intro j hj
        match j with
        | 0 => simpa using ‹k ≥ x›
        | j + 1 => exact ih j (by omega)
      · omega

theorem findChildIndex_self_gt (keys : List Int) (k : Int)
    (h : findChildIndex keys k < keys.length) :
    k < keys.getD (findChildIndex keys k) 0 := by
  induction keys with
  | nil => simp [findChildIndex] at h
  | cons x rest ih =>
      rw [findChildIndex] at h ⊢
      by_cases hx : k ≥ x
      · simp only [hx, if_pos] at h ⊢
        simpa using ih (by simpa using h)
      · simp only [hx, if_neg, not_false_iff] at h ⊢
        simpa using by omega

theorem findKeyPosition_eq (keys : List Int) (s : Int) (ci : Nat)
    (hle : ci ≤ keys.length)
    (hlt : ∀ j < ci, keys.getD j 0 < s)
    (hstop : ci < keys.length → ¬ keys.getD ci 0 < s) :
    findKeyPosition keys s = ci := by
  induction keys generalizing ci with
  | nil => simp only [List.length_nil, Nat.le_zero] at hle; simp [findKeyPosition, hle]
  | cons x rest ih =>
      rw [findKeyPosition]
      match ci with
      | 0 =>
          have : ¬ x < s := by simpa using hstop (by simp)
          simp [this]
      | ci + 1 =>
          have hx : x < s := by simpa using hlt 0 (by omega)
          simp only [hx, if_pos]
          have := ih ci (by simpa using hle)
            (fun j hj => by simpa using hlt (j + 1) (by omega))
            (fun h => by simpa using hstop (by simpa using h))
          omega

/-! #### Basic WFN lemmas -/

theorem wfn_count_bounds {maxK minK cmin : Nat} {lo hi : Option Int} {d : Nat}
    {n : BNode V} (h : WFN maxK minK cmin lo hi d n) :
    cmin ≤ nodeCount n ∧ nodeCount n ≤ maxK := by
  cases h with
  | leaf cmin lo hi entries h1 h2 => exact ⟨h1, h2⟩
  | internal cmin lo hi d keys children h1 h2 => exact ⟨h1, h2⟩

theorem wfn_relax_cmin {maxK minK cmin cmin' : Nat} {lo hi : Option Int} {d : Nat}
    {n : BNode V} (h : WFN maxK minK cmin lo hi d n) (hle : cmin' ≤ cmin) :
    WFN maxK minK cmin' lo hi d n := by
  cases h with
  | leaf cmin lo hi entries h1 h2 h3 h4 =>
      exact .leaf cmin' lo hi entries (le_trans hle h1) h2 h3 h4
  | internal cmin lo hi d keys children h1 h2 h3 h4 h5 h6 =>
      exact .internal cmin' lo hi d keys children (le_trans hle h1) h2 h3 h4 h5 h6

theorem wfn_raise_cmin {maxK minK cmin cmin' : Nat} {lo hi : Option Int} {d : Nat}
    {n : BNode V} (h : WFN maxK minK cmin lo hi d n) (hle : cmin' ≤ nodeCount n) :
    WFN maxK minK cmin' lo hi d n := by
  cases h with
  | leaf cmin lo hi entries h1 h2 h3 h4 =>
      exact .leaf cmin' lo hi entries (by simpa [nodeCount] using hle) h2 h3 h4
  | internal cmin lo hi d keys children h1 h2 h3 h4 h5 h6 =>
      exact .internal cmin' lo hi d keys children (by simpa [nodeCount] using hle) h2 h3 h4 h5 h6

theorem wfn_cons_split {maxK minK cmin : Nat} {lo hi : Option Int} {d : Nat}
    {s : Int} {ks : List Int} {c0 : BNode V} {cs : List (BNode V)}
    (h : WFN maxK minK cmin lo hi (d + 1) (.internal (s :: ks) (c0 :: cs))) :
    okLoS lo s ∧ okHi hi s ∧ WFN maxK minK minK lo (some s) d c0 ∧
      WFN maxK minK 0 (some s) hi (d + 1) (.internal ks cs) := by
  cases h with
  | internal cmin lo hi d keys children h1 h2 h3 h4 h5 h6 =>
      have hs := h4 s (by simp)
      have h0 := h6 0 (by simp)
      refine ⟨hs.1, hs.2, ?_, ?_⟩
      · simpa [childLo, childHi] using h0
      · refine .internal 0 (some s) hi d ks cs (by omega) (by simp at h2; omega)
          (by exact (List.pairwise_cons.mp h3).2) ?_ (by simpa using h5) ?_
        · intro x hx
          have hx' := h4 x (by simp [hx])
          have hsx : s < x := (List.pairwise_cons.mp h3).1 x hx
          exact ⟨fun a ha => by simp at ha; omega, hx'.2⟩
        · intro i hi'
          have := h6 (i + 1) (by simpa using by omega)
          have hlo : childLo (some s) ks i = childLo lo (s :: ks) (i + 1) := by
            match i with
            | 0 => simp [childLo]
            | j + 1 => simp [childLo]
          have hhi : childHi hi ks i = childHi hi (s :: ks) (i + 1) := by
            by_cases hik : i < ks.length <;> simp [childHi, hik]
          rw [hlo, hhi]
          simpa using this

theorem wfn_cons_glue {maxK minK : Nat} {lo hi : Option Int} {d : Nat}
    {s : Int} {ks : List Int} {c0 : BNode V} {cs : List (BNode V)}
    (hs1 : okLoS lo s) (hs2 : okHi hi s)
    (hc0 : WFN maxK minK minK lo (some s) d c0)
    (hrest : WFN maxK minK 0 (some s) hi (d + 1) (.internal ks cs))
    (hlen : ks.length + 1 ≤ maxK) :
    WFN maxK minK 0 lo hi (d + 1) (.internal (s :: ks) (c0 :: cs)) := by
  cases hrest with
  | internal cmin lo' hi' d' keys children h1 h2 h3 h4 h5 h6 =>
      refine .internal 0 lo hi d (s :: ks) (c0 :: cs) (by omega) (by simpa using hlen)
        ?_ ?_ (by simpa using h5) ?_
      · exact List.pairwise_cons.mpr ⟨fun x hx => (h4 x hx).1 s rfl, h3⟩
      · intro x hx
        simp only [List.mem_cons] at hx
        rcases hx with rfl | hx
        · exact ⟨hs1, hs2⟩
        · have := h4 x hx
          exact ⟨fun a ha => lt_trans (hs1 a ha) (this.1 s rfl), this.2⟩
      · intro i hi'
        match i with
        | 0 => simpa [childLo, childHi] using hc0
        | i + 1 =>
            have := h6 i (by simpa using by simp at hi'; omega)
            have hlo : childLo (some s) ks i = childLo lo (s :: ks) (i + 1) := by
              match i with
              | 0 => simp [childLo]
              | j + 1 => simp [childLo]
            have hhi : childHi hi ks i = childHi hi (s :: ks) (i + 1) := by
              by_cases hik : i < ks.length <;> simp [childHi, hik]
            rw [← hlo, ← hhi]
            simpa using this

theorem loWide_none (lo : Option Int) : loWide none lo := by simp [loWide]

theorem hiWide_none (hi : Option Int) : hiWide none hi := by simp [hiWide]

theorem loWide_refl (lo : Option Int) : loWide lo lo := by
  intro a ha; exact ⟨a, ha, le_refl a⟩

theorem hiWide_refl (hi : Option Int) : hiWide hi hi := by
  intro b hb; exact ⟨b, hb, le_refl b⟩

theorem okLo_wide {lo₂ lo : Option Int} {k : Int} (h : okLo lo k) (hw : loWide lo₂ lo) :
    okLo lo₂ k := by
  intro a₂ ha₂
  obtain ⟨a, ha, hle⟩ := hw a₂ ha₂
  exact le_trans hle (h a ha)

theorem okLoS_wide {lo₂ lo : Option Int} {k : Int} (h : okLoS lo k) (hw : loWide lo₂ lo) :
    okLoS lo₂ k := by
  intro a₂ ha₂
  obtain ⟨a, ha, hle⟩ := hw a₂ ha₂
  exact lt_of_le_of_lt hle (h a ha)

theorem okHi_wide {hi₂ hi : Option Int} {k : Int} (h : okHi hi k) (hw : hiWide hi₂ hi) :
    okHi hi₂ k := by
  intro b₂ hb₂
  obtain ⟨b, hb, hle⟩ := hw b₂ hb₂
  exact lt_of_lt_of_le (h b hb) hle

theorem wfn_widen {maxK minK cmin : Nat} {d : Nat}
    {n : BNode V} :
    ∀ {lo hi lo₂ hi₂ : Option Int}, WFN maxK minK cmin lo hi d n →
    loWide lo₂ lo → hiWide hi₂ hi →
    WFN maxK minK cmin lo₂ hi₂ d n := by
  induction d generalizing n cmin with
  | zero =>
      intro lo hi lo₂ hi₂ h hlo hhi
      cases h with
      | leaf cmin lo hi entries h1 h2 h3 h4 =>
          refine .leaf cmin lo₂ hi₂ entries h1 h2 h3 ?_
          intro p hp
          exact ⟨okLo_wide (h4 p hp).1 hlo, okHi_wide (h4 p hp).2 hhi⟩
  | succ d ih =>
      intro lo hi lo₂ hi₂ h hlo hhi
      cases h with
      | internal cmin lo hi d keys children h1 h2 h3 h4 h5 h6 =>
          refine .internal cmin lo₂ hi₂ d keys children h1 h2 h3 ?_ h5 ?_
          · intro s hs
            exact ⟨okLoS_wide (h4 s hs).1 hlo, okHi_wide (h4 s hs).2 hhi⟩
          · intro i hi'
            have hw := h6 i hi'
            refine ih hw ?_ ?_
            · match i with
              | 0 => simpa [childLo] using hlo
              | j + 1 => simp [childLo, loWide_refl]
            · by_cases hik : i < keys.length
              · simp [childHi, hik, hiWide_refl]
              · simpa [childHi, hik] using hhi

theorem childLo_cons (lo : Option Int) (s : Int) (ks : List Int) (j : Nat) :
    childLo lo (s :: ks) (j + 1) = childLo (some s) ks j := by
  match j with
  | 0 => simp [childLo]
  | j + 1 => simp [childLo]

theorem childHi_cons (hi : Option Int) (s : Int) (ks : List Int) (j : Nat) :
    childHi hi (s :: ks) (j + 1) = childHi hi ks j := by
  by_cases hik : j < ks.length <;> simp [childHi, hik]

/-! #### The stored entries of a well-formed subtree are sorted and bounded -/

theorem wfn_chain_aux {maxK minK : Nat} {d : Nat}
    (ih : ∀ {n : BNode V} {cmin : Nat} {lo hi : Option Int}, WFN maxK minK cmin lo hi d n →
      List.Pairwise (· < ·) ((contents n).map Prod.fst) ∧
      ∀ p ∈ contents n, okLo lo p.1 ∧ okHi hi p.1) :
    ∀ (keys : List Int) (children : List (BNode V)) (lo hi : Option Int),
    children.length = keys.length + 1 →
    List.Pairwise (· < ·) keys →
    (∀ s ∈ keys, okLoS lo s ∧ okHi hi s) →
    (∀ i, i < children.length →
      WFN maxK minK minK (childLo lo keys i) (childHi hi keys i) d
        (children.getD i dfltNode)) →
    List.Pairwise (· < ·) (((children.map contents).flatten).map Prod.fst) ∧
    ∀ p ∈ (children.map contents).flatten, okLo lo p.1 ∧ okHi hi p.1 := by
  intro keys
  induction keys with
  | nil =>
      intro children lo hi h5 h3 h4 h6
      match children, h5 with
      | [c], _ =>
          have := h6 0 (by simp)
          simpa [childLo, childHi] using ih this
  | cons s ks ihk =>
      intro children lo hi h5 h3 h4 h6
      match children, h5 with
      | c0 :: cs, h5 =>
          have hc0 := h6 0 (by simp)
          have hc0' : WFN maxK minK minK lo (some s) d c0 := by
            simpa [childLo, childHi, show (0:Nat) < (s :: ks).length by simp] using hc0
          have hrest := ihk cs (some s) hi (by simpa using h5)
            (List.pairwise_cons.mp h3).2
            (fun x hx =>
              ⟨fun a ha => by
                  simp only [Option.mem_def, Option.some.injEq] at ha
                  exact ha ▸ (List.pairwise_cons.mp h3).1 x hx,
               (h4 x (by simp [hx])).2⟩)
            (fun i hi' => by
              rw [← childLo_cons lo s ks i, ← childHi_cons hi s ks i]
              simpa using h6 (i + 1) (by simp; omega))
          have hcc := ih hc0'
          have hs := h4 s (by simp)
          constructor
          · simp only [List.map_cons, List.flatten_cons, List.map_append]
            rw [List.pairwise_append]
            refine ⟨hcc.1, hrest.1, ?_⟩
            intro a ha b hb
            simp only [List.mem_map] at ha hb
            obtain ⟨p, hp, rfl⟩ := ha
            obtain ⟨q, hq, rfl⟩ := hb
            have h1 := (hcc.2 p hp).2 s rfl
            have h2 := (hrest.2 q hq).1 s rfl
            omega
          · intro p hp
            simp only [List.map_cons, List.flatten_cons, List.mem_append] at hp
            rcases hp with hp | hp
            · refine ⟨(hcc.2 p hp).1, ?_⟩
              intro b hb
              exact lt_trans ((hcc.2 p hp).2 s rfl) (hs.2 b hb)
            · refine ⟨?_, (hrest.2 p hp).2⟩
              intro a ha
              exact le_of_lt (lt_of_lt_of_le (hs.1 a ha) ((hrest.2 p hp).1 s rfl))

theorem wfn_contents_bounds {maxK minK : Nat} {d : Nat} :
    ∀ {n : BNode V} {cmin : Nat} {lo hi : Option Int}, WFN maxK minK cmin lo hi d n →
    List.Pairwise (· < ·) ((contents n).map Prod.fst) ∧
    ∀ p ∈ contents n, okLo lo p.1 ∧ okHi hi p.1 := by
  induction d with
  | zero =>
      intro n cmin lo hi h
      cases h with
      | leaf cmin lo hi entries h1 h2 h3 h4 =>
          rw [contents_leaf]
          exact ⟨h3, h4⟩
  | succ d ih =>
      intro n cmin lo hi h
      cases h with
      | internal cmin lo hi d keys children h1 h2 h3 h4 h5 h6 =>
          rw [contents_internal]
          exact wfn_chain_aux (fun h => ih h) keys children lo hi h5 h3 h4 h6

theorem wfn_contents_ne_nil {maxK minK : Nat} {d : Nat} (hmin : 1 ≤ minK) :
    ∀ {n : BNode V} {cmin : Nat} {lo hi : Option Int}, 1 ≤ cmin →
    WFN maxK minK cmin lo hi d n → contents n ≠ [] := by
  induction d with
  | zero =>
      intro n cmin lo hi hc h
      cases h with
      | leaf cmin lo hi entries h1 h2 h3 h4 =>
          rw [contents_leaf]
          intro hnil
          subst hnil
          simp at h1
          omega
  | succ d ih =>
      intro n cmin lo hi hc h
      cases h with
      | internal cmin lo hi d keys children h1 h2 h3 h4 h5 h6 =>
          rw [contents_internal]
          match children, h5 with
          | c0 :: cs, _ =>
              have hc0 := h6 0 (by simp)
              have hc0' : WFN maxK minK minK (childLo lo keys 0) (childHi hi keys 0) d c0 := by
                simpa using hc0
              have := ih hmin hc0'
              simp only [List.map_cons, List.flatten_cons]
              intro hnil
              rcases List.append_eq_nil.mp hnil with ⟨h7, _⟩
              exact this h7

/-! #### Search returns the value stored in the contents -/

theorem list_get?_eq_getD {α : Type _} {l : List α} {i : Nat} (h : i < l.length) (d : α) :
    l.get? i = some (l.getD i d) := by
  rw [List.getD_eq_getElem?_getD, List.get?_eq_getElem?]
  rw [List.getElem?_eq_getElem h]
  simp

theorem findValue_append (l₁ l₂ : List (Int × V)) (k : Int) :
    findValue (l₁ ++ l₂) k =
      match findValue l₁ k with
      | some v => some v
      | none => findValue l₂ k := by
  induction l₁ with
  | nil => simp [findValue]
  | cons p t ih =>
      match p with
      | (k', v) =>
          rw [List.cons_append, findValue, findValue]
          by_cases hk : k' = k <;> simp [hk, ih]

theorem findValue_eq_none (l : List (Int × V)) (k : Int) (h : ∀ p ∈ l, p.1 ≠ k) :
    findValue l k = none := by
  induction l with
  | nil => rfl
  | cons p t ih =>
      match p with
      | (k', v) =>
          rw [findValue]
          have hne : ¬ (k' = k) := by simpa using h (k', v) (by simp)
          rw [if_neg hne]
          exact ih (fun q hq => h q (by simp [hq]))

theorem fci_okLo {lo : Option Int} {keys : List Int} {k : Int} (h : okLo lo k) :
    okLo (childLo lo keys (findChildIndex keys k)) k := by
  match hf : findChildIndex keys k with
  | 0 => simpa [childLo] using h
  | j + 1 =>
      simp only [childLo]
      intro a ha
      simp only [Option.mem_def, Option.some.injEq] at ha
      subst ha
      exact findChildIndex_prefix_le keys k j (by omega)

theorem fci_okHi {hi : Option Int} {keys : List Int} {k : Int} (h : okHi hi k) :
    okHi (childHi hi keys (findChildIndex keys k)) k := by
  by_cases hlt : findChildIndex keys k < keys.length
  · simp only [childHi, hlt, if_pos]
    intro b hb
    simp only [Option.mem_def, Option.some.injEq] at hb
    subst hb
    exact findChildIndex_self_gt keys k hlt
  · simpa [childHi, hlt] using h

theorem searchNode_internal_eq {keys : List Int} {children : List (BNode V)} {k : Int}
    {c : BNode V} (hget : children.get? (findChildIndex keys k) = some c) :
    searchNode k (.internal keys children) = searchNode k c := by
  rw [searchNode]
  split
  · rename_i c' heq
    rw [hget] at heq
    injection heq with h2
    rw [h2]
  · rename_i heq
    rw [hget] at heq
    exact absurd heq (by simp)

/-- Localization: under the separator invariant, scanning the whole contents
for `k` is the same as scanning the contents of the child on `k`'s search
path. -/
theorem wfn_fv_localize {maxK minK : Nat} {d : Nat} {k : Int} :
    ∀ (keys : List Int) (children : List (BNode V)) (lo hi : Option Int),
    children.length = keys.length + 1 →
    List.Pairwise (· < ·) keys →
    (∀ s ∈ keys, okLoS lo s ∧ okHi hi s) →
    (∀ i, i < children.length →
      WFN maxK minK minK (childLo lo keys i) (childHi hi keys i) d
        (children.getD i dfltNode)) →
    okLo lo k → okHi hi k →
    findValue ((children.map contents).flatten) k =
      findValue (contents (children.getD (findChildIndex keys k) dfltNode)) k := by
  intro keys
  induction keys with
  | nil =>
      intro children lo hi h5 h3 h4 h6 hk1 hk2
      match children, h5 with
      | [c], _ => simp [findChildIndex]
  | cons s ks ihk =>
      intro children lo hi h5 h3 h4 h6 hk1 hk2
      match children, h5 with
      | c0 :: cs, h5 =>
          have hc0 : WFN maxK minK minK lo (some s) d c0 := by
            simpa [childLo, childHi, show (0:Nat) < (s :: ks).length by simp] using
              h6 0 (by simp)
          have hrest6 : ∀ i, i < cs.length →
              WFN maxK minK minK (childLo (some s) ks i) (childHi hi ks i) d
                (cs.getD i dfltNode) := by
            intro i hi'
            rw [← childLo_cons lo s ks i, ← childHi_cons hi s ks i]
            simpa using h6 (i + 1) (by simp; omega)
          have hrest4 : ∀ x ∈ ks, okLoS (some s) x ∧ okHi hi x := by
            intro x hx
            exact ⟨fun a ha => by
                simp only [Option.mem_def, Option.some.injEq] at ha
                exact ha ▸ (List.pairwise_cons.mp h3).1 x hx,
              (h4 x (by simp [hx])).2⟩
          have hrestBounds := wfn_chain_aux (fun h => wfn_contents_bounds h)
            ks cs (some s) hi (by simpa using h5) (List.pairwise_cons.mp h3).2
            hrest4 hrest6
          have hc0Bounds := wfn_contents_bounds hc0
          simp only [findChildIndex, List.map_cons, List.flatten_cons]
          by_cases hks : k ≥ s
          · rw [if_pos hks]
            rw [findValue_append, findValue_eq_none (contents c0) k
              (fun p hp => by have := (hc0Bounds.2 p hp).2 s rfl; omega)]
            have := ihk cs (some s) hi (by simpa using h5)
              (List.pairwise_cons.mp h3).2 hrest4 hrest6
              (fun a ha => by
                simp only [Option.mem_def, Option.some.injEq] at ha
                omega)
              hk2
            simpa using this
          · rw [if_neg hks]
            rw [findValue_append]
            have hrnone : findValue ((cs.map contents).flatten) k = none := by
              apply findValue_eq_none
              intro p hp
              have := (hrestBounds.2 p hp).1 s rfl
              omega
            match hfv : findValue (contents c0) k with
            | some v => simp [List.getD_cons_zero, hfv]
            | none => simp [List.getD_cons_zero, hfv, hrnone]

theorem wfn_search {maxK minK : Nat} {d : Nat} {k : Int} :
    ∀ {n : BNode V} {cmin : Nat} {lo hi : Option Int}, WFN maxK minK cmin lo hi d n →
    okLo lo k → okHi hi k →
    searchNode k n = findValue (contents n) k := by
  induction d with
  | zero =>
      intro n cmin lo hi h hk1 hk2
      cases h with
      | leaf cmin lo hi entries h1 h2 h3 h4 =>
          rw [contents_leaf, searchNode]
  | succ d ih =>
      intro n cmin lo hi h hk1 hk2
      cases h with
      | internal cmin lo hi d keys children h1 h2 h3 h4 h5 h6 =>
          have hci : findChildIndex keys k < children.length :=
            findChildIndex_lt_length keys children k h5
          have hget := list_get?_eq_getD hci dfltNode
          rw [searchNode_internal_eq hget, contents_internal]
          rw [wfn_fv_localize keys children lo hi h5 h3 h4 h6 hk1 hk2]
          exact ih (h6 _ hci) (fci_okLo hk1) (fci_okHi hk2)

/-- Tree-level search characterization. -/
theorem treewf_search {maxK minK : Nat} {t : BTree V} {k : Int}
    (h : TreeWF maxK minK t) :
    searchTree t k = findValue (contentsTree t) k := by
  match t with
  | none => rfl
  | some n =>
      obtain ⟨d, hw⟩ := h
      rw [searchTree, contentsTree]
      exact wfn_search hw (by simp [okLo]) (by simp [okHi])

/-! #### getD index toolkit -/

theorem getD_eq_getElem {α : Type _} (l : List α) (i : Nat) (d : α) (h : i < l.length) :
    l.getD i d = l[i] := by
  rw [List.getD_eq_getElem?_getD, List.getElem?_eq_getElem h]
  rfl

theorem getD_set_self {α : Type _} {l : List α} {i : Nat} {a d : α} (h : i < l.length) :
    (l.set i a).getD i d = a := by
  rw [getD_eq_getElem _ _ _ (by simpa using h)]
  exact List.getElem_set_self (by simpa using h)

theorem getD_set_ne {α : Type _} {l : List α} {i j : Nat} {a d : α} (h : i ≠ j) :
    (l.set i a).getD j d = l.getD j d := by
  by_cases hj : j < l.length
  · rw [getD_eq_getElem _ _ _ (by simpa using hj), getD_eq_getElem _ _ _ hj]
    exact List.getElem_set_ne h _
  · rw [List.getD_eq_getElem?_getD, List.getD_eq_getElem?_getD]
    rw [List.getElem?_eq_none (by simpa using hj), List.getElem?_eq_none (by omega)]

theorem getD_take_lt {α : Type _} {l : List α} {m i : Nat} {d : α} (h : i < m) :
    (l.take m).getD i d = l.getD i d := by
  rw [List.getD_eq_getElem?_getD, List.getD_eq_getElem?_getD, List.getElem?_take, if_pos h]

theorem getD_drop {α : Type _} (l : List α) (m i : Nat) (d : α) :
    (l.drop m).getD i d = l.getD (m + i) d := by
  rw [List.getD_eq_getElem?_getD, List.getD_eq_getElem?_getD, List.getElem?_drop]

theorem insertIdx_eq_take_cons_drop {α : Type _} (l : List α) (n : Nat) (a : α)
    (h : n ≤ l.length) :
    l.insertIdx n a = l.take n ++ a :: l.drop n := by
  induction l generalizing n with
  | nil =>
      simp at h
      subst h
      rfl
  | cons x t ih =>
      match n with
      | 0 => rfl
      | n + 1 =>
          rw [List.insertIdx_succ_cons, ih n (by simpa using h)]
          simp

theorem getD_insertIdx_lt {α : Type _} {l : List α} {n i : Nat} {a d : α}
    (h : i < n) (hn : n ≤ l.length) :
    (l.insertIdx n a).getD i d = l.getD i d := by
  rw [insertIdx_eq_take_cons_drop l n a hn,
      List.getD_append _ _ _ _ (by simp only [List.length_take]; omega), getD_take_lt h]

theorem getD_insertIdx_self {α : Type _} {l : List α} {n : Nat} {a d : α}
    (hn : n ≤ l.length) :
    (l.insertIdx n a).getD n d = a := by
  rw [insertIdx_eq_take_cons_drop l n a hn,
      List.getD_append_right _ _ _ _ (by simp only [List.length_take]; omega)]
  have : n - (l.take n).length = 0 := by simp only [List.length_take]; omega
  rw [this]
  rfl

theorem getD_insertIdx_ge {α : Type _} {l : List α} {n i : Nat} {a d : α}
    (h : n < i) (hn : n ≤ l.length) :
    (l.insertIdx n a).getD i d = l.getD (i - 1) d := by
  rw [insertIdx_eq_take_cons_drop l n a hn,
      List.getD_append_right _ _ _ _ (by simp only [List.length_take]; omega)]
  have hlen : (l.take n).length = n := by simp; omega
  rw [hlen]
  have : i - n = (i - n - 1) + 1 := by omega
  rw [this, List.getD_cons_succ, getD_drop]
  congr 1
  omega

theorem getD_eraseIdx_lt {α : Type _} {l : List α} {n i : Nat} {d : α} (h : i < n) :
    (l.eraseIdx n).getD i d = l.getD i d := by
  rw [List.eraseIdx_eq_take_drop_succ]
  by_cases hi : i < l.length
  · rw [List.getD_append _ _ _ _ (by simp only [List.length_take]; omega), getD_take_lt h]
  · rw [List.getD_eq_getElem?_getD, List.getD_eq_getElem?_getD]
    rw [List.getElem?_eq_none (by simp only [List.length_append, List.length_take, List.length_drop, List.length_cons]; omega), List.getElem?_eq_none (by omega)]

theorem getD_eraseIdx_ge {α : Type _} {l : List α} {n i : Nat} {d : α}
    (h : n ≤ i) (hn : n < l.length) :
    (l.eraseIdx n).getD i d = l.getD (i + 1) d := by
  rw [List.eraseIdx_eq_take_drop_succ]
  rw [List.getD_append_right _ _ _ _ (by simp only [List.length_take]; omega)]
  have hlen : (l.take n).length = n := by simp; omega
  rw [hlen, getD_drop]
  congr 1
  omega

theorem length_eraseIdx' {α : Type _} (l : List α) (n : Nat) (h : n < l.length) :
    (l.eraseIdx n).length = l.length - 1 := by
  rw [List.eraseIdx_eq_take_drop_succ]
  simp
  omega

/-! #### upsertSorted properties -/

theorem upsertSorted_nil (k : Int) (v : V) : upsertSorted ([] : List (Int × V)) k v = [(k, v)] :=
  rfl

theorem upsertSorted_cons_lt {k k' : Int} (v v' : V) (t : List (Int × V)) (h : k < k') :
    upsertSorted ((k', v') :: t) k v = (k, v) :: (k', v') :: t := by
  rw [upsertSorted, if_pos h]

theorem upsertSorted_cons_eq {k k' : Int} (v v' : V) (t : List (Int × V)) (h : k = k') :
    upsertSorted ((k', v') :: t) k v = (k, v) :: t := by
  rw [upsertSorted, if_neg (by omega), if_pos h]

theorem upsertSorted_cons_gt {k k' : Int} (v v' : V) (t : List (Int × V)) (h : k' < k) :
    upsertSorted ((k', v') :: t) k v = (k', v') :: upsertSorted t k v := by
  rw [upsertSorted, if_neg (by omega), if_neg (by omega)]

theorem upsertSorted_findValue (l : List (Int × V)) (k : Int) (v : V) :
    findValue (upsertSorted l k v) k = some v := by
  induction l with
  | nil => simp [upsertSorted_nil, findValue]
  | cons p t ih =>
      match p with
      | (k', v') =>
          rcases lt_trichotomy k k' with h | h | h
          · rw [upsertSorted_cons_lt v v' t h, findValue, if_pos rfl]
          · rw [upsertSorted_cons_eq v v' t h, findValue, if_pos rfl]
          · rw [upsertSorted_cons_gt v v' t h, findValue, if_neg (by omega)]
            exact ih

theorem upsertSorted_keys_sub (l : List (Int × V)) (k : Int) (v : V) :
    ∀ x ∈ (upsertSorted l k v).map Prod.fst, x = k ∨ x ∈ l.map Prod.fst := by
  induction l with
  | nil => simp [upsertSorted_nil]
  | cons p t ih =>
      match p with
      | (k', v') =>
          rcases lt_trichotomy k k' with h | h | h
          · rw [upsertSorted_cons_lt v v' t h]
            intro x hx
            simpa using hx
          · rw [upsertSorted_cons_eq v v' t h]
            intro x hx
            simp only [List.map_cons, List.mem_cons] at hx ⊢
            tauto
          · rw [upsertSorted_cons_gt v v' t h]
            intro x hx
            simp only [List.map_cons, List.mem_cons] at hx ⊢
            rcases hx with rfl | hx
            · tauto
            · rcases ih x hx with h2 | h2 <;> tauto

theorem upsertSorted_pairwise (l : List (Int × V)) (k : Int) (v : V)
    (h : List.Pairwise (· < ·) (l.map Prod.fst)) :
    List.Pairwise (· < ·) ((upsertSorted l k v).map Prod.fst) := by
  induction l with
  | nil => simp [upsertSorted_nil]
  | cons p t ih =>
      match p with
      | (k', v') =>
          simp only [List.map_cons, List.pairwise_cons] at h
          rcases lt_trichotomy k k' with h1 | h1 | h1
          · rw [upsertSorted_cons_lt v v' t h1]
            simp only [List.map_cons, List.pairwise_cons]
            refine ⟨?_, h.1, h.2⟩
            intro x hx
            simp only [List.mem_cons] at hx
            rcases hx with rfl | hx
            · exact h1
            · exact lt_trans h1 (h.1 x hx)
          · rw [upsertSorted_cons_eq v v' t h1]
            simp only [List.map_cons, List.pairwise_cons]
            exact ⟨fun x hx => h1 ▸ h.1 x hx, h.2⟩
          · rw [upsertSorted_cons_gt v v' t h1]
            simp only [List.map_cons, List.pairwise_cons]
            refine ⟨?_, ih h.2⟩
            intro x hx
            rcases upsertSorted_keys_sub t k v x hx with rfl | hx
            · omega
            · exact h.1 x hx

theorem upsertSorted_bounds (l : List (Int × V)) (k : Int) (v : V) {lo hi : Option Int}
    (h : ∀ p ∈ l, okLo lo p.1 ∧ okHi hi p.1) (hk1 : okLo lo k) (hk2 : okHi hi k) :
    ∀ p ∈ upsertSorted l k v, okLo lo p.1 ∧ okHi hi p.1 := by
  induction l with
  | nil => simpa [upsertSorted_nil] using ⟨hk1, hk2⟩
  | cons p t ih =>
      match p with
      | (k', v') =>
          rcases lt_trichotomy k k' with h1 | h1 | h1
          · rw [upsertSorted_cons_lt v v' t h1]
            intro q hq
            simp only [List.mem_cons] at hq
            rcases hq with rfl | hq
            · exact ⟨hk1, hk2⟩
            · exact h q (by simpa using hq)
          · rw [upsertSorted_cons_eq v v' t h1]
            intro q hq
            simp only [List.mem_cons] at hq
            rcases hq with rfl | hq
            · exact ⟨hk1, hk2⟩
            · exact h q (by simp [hq])
          · rw [upsertSorted_cons_gt v v' t h1]
            intro q hq
            simp only [List.mem_cons] at hq
            rcases hq with rfl | hq
            · exact h (k', v') (by simp)
            · exact ih (fun r hr => h r (by simp [hr])) q hq

theorem upsertSorted_length_notmem (l : List (Int × V)) (k : Int) (v : V)
    (h : ¬ k ∈ l.map Prod.fst) :
    (upsertSorted l k v).length = l.length + 1 := by
  induction l with
  | nil => simp [upsertSorted_nil]
  | cons p t ih =>
      match p with
      | (k', v') =>
          simp only [List.map_cons, List.mem_cons] at h
          rcases lt_trichotomy k k' with h1 | h1 | h1
          · rw [upsertSorted_cons_lt v v' t h1]
            simp
          · exact absurd (Or.inl h1) h
          · rw [upsertSorted_cons_gt v v' t h1]
            simp only [List.length_cons]
            rw [ih (fun hm => h (Or.inr hm))]

theorem upsertSorted_length_mem (l : List (Int × V)) (k : Int) (v : V)
    (hsort : List.Pairwise (· < ·) (l.map Prod.fst)) (h : k ∈ l.map Prod.fst) :
    (upsertSorted l k v).length = l.length := by
  induction l with
  | nil => simp at h
  | cons p t ih =>
      match p with
      | (k', v') =>
          simp only [List.map_cons, List.mem_cons] at h
          simp only [List.map_cons, List.pairwise_cons] at hsort
          rcases lt_trichotomy k k' with h1 | h1 | h1
          · rcases h with rfl | h
            · omega
            · have := hsort.1 k h
              omega
          · rw [upsertSorted_cons_eq v v' t h1]
            simp
          · rw [upsertSorted_cons_gt v v' t h1]
            simp only [List.length_cons]
            have hk : k ∈ List.map Prod.fst t := by
              rcases h with rfl | h
              · omega
              · exact h
            rw [ih hsort.2 hk]

/-! #### Insert: code-level and list-level auxiliary lemmas -/

theorem getD_mem {α : Type _} {l : List α} {i : Nat} {d : α} (h : i < l.length) :
    l.getD i d ∈ l := by
  rw [getD_eq_getElem l i d h]
  exact List.getElem_mem h

theorem drop_eq_getD_cons {α : Type _} {l : List α} {i : Nat} {d : α} (h : i < l.length) :
    l.drop i = l.getD i d :: l.drop (i + 1) := by
  rw [getD_eq_getElem l i d h]
  exact (List.drop_eq_getElem_cons h)

theorem pairwise_cross {l : List Int} (h : List.Pairwise (· < ·) l) (sp : Nat) :
    ∀ a ∈ l.take sp, ∀ b ∈ l.drop sp, a < b := by
  have hsplit := List.take_append_drop sp l
  rw [← hsplit] at h
  exact (List.pairwise_append.mp h).2.2

theorem pairwise_take {l : List Int} (h : List.Pairwise (· < ·) l) (sp : Nat) :
    List.Pairwise (· < ·) (l.take sp) :=
  h.sublist (List.take_sublist sp l)

theorem pairwise_drop {l : List Int} (h : List.Pairwise (· < ·) l) (sp : Nat) :
    List.Pairwise (· < ·) (l.drop sp) :=
  h.sublist (List.drop_sublist sp l)

theorem splice_eq {α : Type _} (children : List α) (ci : Nat) (l r : α)
    (hci : ci < children.length) :
    (children.set ci l).insertIdx (ci + 1) r =
      children.take ci ++ l :: r :: children.drop (ci + 1) := by
  induction children generalizing ci with
  | nil => simp at hci
  | cons c cs ih =>
      match ci with
      | 0 => rfl
      | ci + 1 =>
          simp only [List.set_cons_succ, List.insertIdx_succ_cons, List.take_succ_cons,
            List.drop_succ_cons, List.cons_append]
          rw [ih ci (by simpa using hci)]

theorem list_decomp_getD {α : Type _} (l : List α) (ci : Nat) (d : α) (hci : ci < l.length) :
    l = l.take ci ++ l.getD ci d :: l.drop (ci + 1) := by
  conv_lhs => rw [← List.take_append_drop ci l]
  rw [drop_eq_getD_cons (d := d) hci]

theorem flatten_map_decomp (children : List (BNode V)) (ci : Nat)
    (hci : ci < children.length) :
    (children.map contents).flatten =
      ((children.take ci).map contents).flatten ++ contents (children.getD ci dfltNode) ++
        ((children.drop (ci + 1)).map contents).flatten := by
  conv_lhs => rw [list_decomp_getD children ci dfltNode hci]
  simp [List.append_assoc]

theorem flatten_map_set (children : List (BNode V)) (ci : Nat) (c' : BNode V)
    (hci : ci < children.length) :
    ((children.set ci c').map contents).flatten =
      ((children.take ci).map contents).flatten ++ contents c' ++
        ((children.drop (ci + 1)).map contents).flatten := by
  rw [List.set_eq_take_cons_drop _ hci]
  simp [List.append_assoc]

theorem flatten_map_splice (children : List (BNode V)) (ci : Nat) (l r : BNode V)
    (hci : ci < children.length) :
    (((children.set ci l).insertIdx (ci + 1) r).map contents).flatten =
      ((children.take ci).map contents).flatten ++ (contents l ++ contents r) ++
        ((children.drop (ci + 1)).map contents).flatten := by
  rw [splice_eq children ci l r hci]
  simp [List.append_assoc]

theorem upsertSorted_append_mid (A B C : List (Int × V)) (k : Int) (v : V)
    (hA : ∀ p ∈ A, p.1 < k) (hC : ∀ p ∈ C, k < p.1) :
    upsertSorted (A ++ B ++ C) k v = A ++ upsertSorted B k v ++ C := by
  induction A with
  | cons a A' ih =>
      match a with
      | (ka, va) =>
          simp only [List.cons_append]
          rw [upsertSorted_cons_gt _ _ _ (hA (ka, va) (by simp))]
          rw [ih (fun p hp => hA p (by simp [hp]))]
  | nil =>
      simp only [List.nil_append]
      induction B with
      | cons b B' ihb =>
          match b with
          | (kb, vb) =>
              rcases lt_trichotomy k kb with h1 | h1 | h1
              · rw [List.cons_append, upsertSorted_cons_lt _ _ _ h1,
                    upsertSorted_cons_lt _ _ _ h1]
                simp
              · rw [List.cons_append, upsertSorted_cons_eq _ _ _ h1,
                    upsertSorted_cons_eq _ _ _ h1]
                simp
              · rw [List.cons_append, upsertSorted_cons_gt _ _ _ h1,
                    upsertSorted_cons_gt _ _ _ h1]
                simpa using ihb
      | nil =>
          simp only [List.nil_append, upsertSorted_nil]
          match C with
          | [] => rfl
          | (kc, vc) :: C' =>
              rw [upsertSorted_cons_lt _ _ _ (hC (kc, vc) (by simp))]
              rfl

theorem upsertSorted_length_ge (l : List (Int × V)) (k : Int) (v : V) :
    l.length ≤ (upsertSorted l k v).length := by
  induction l with
  | nil => simp [upsertSorted_nil]
  | cons p t ih =>
      match p with
      | (k', v') =>
          rcases lt_trichotomy k k' with h1 | h1 | h1
          · rw [upsertSorted_cons_lt _ _ _ h1]; simp
          · rw [upsertSorted_cons_eq _ _ _ h1]; simp
          · rw [upsertSorted_cons_gt _ _ _ h1]; simpa using ih

theorem upsertSorted_length_le (l : List (Int × V)) (k : Int) (v : V) :
    (upsertSorted l k v).length ≤ l.length + 1 := by
  induction l with
  | nil => simp [upsertSorted_nil]
  | cons p t ih =>
      match p with
      | (k', v') =>
          rcases lt_trichotomy k k' with h1 | h1 | h1
          · rw [upsertSorted_cons_lt _ _ _ h1]; simp
          · rw [upsertSorted_cons_eq _ _ _ h1]; simp
          · rw [upsertSorted_cons_gt _ _ _ h1]; simpa using ih

/-- The C++ in-place overwrite branch computes the sorted-list upsert. -/
theorem upsertSorted_code_set (entries : List (Int × V)) (k k' : Int) (v v' : V)
    (hg : entries.get? (findKeyPosition (entries.map Prod.fst) k) = some (k', v'))
    (hk : k' = k) :
    entries.set (findKeyPosition (entries.map Prod.fst) k) (k, v) =
      upsertSorted entries k v := by
  induction entries with
  | nil => simp [findKeyPosition] at hg
  | cons p t ih =>
      match p with
      | (k1, v1) =>
          simp only [List.map_cons, findKeyPosition] at hg ⊢
          by_cases h1 : k1 < k
          · rw [if_pos h1] at hg ⊢
            simp only [List.get?_cons_succ] at hg
            rw [List.set_cons_succ, upsertSorted_cons_gt _ _ _ h1, ih hg]
          · rw [if_neg h1] at hg ⊢
            simp only [List.get?_cons_zero, Option.some.injEq, Prod.mk.injEq] at hg
            have : k1 = k := by omega
            rw [List.set_cons_zero, upsertSorted_cons_eq _ _ _ this.symm]

/-- The C++ shifted-insertion branch (key present at neither position)
computes the sorted-list upsert. -/
theorem upsertSorted_code_ins (entries : List (Int × V)) (k : Int) (v : V)
    (hne : ∀ k' v', entries.get? (findKeyPosition (entries.map Prod.fst) k) = some (k', v') →
      k' ≠ k) :
    entries.insertIdx (findKeyPosition (entries.map Prod.fst) k) (k, v) =
      upsertSorted entries k v := by
  induction entries with
  | nil => rfl
  | cons p t ih =>
      match p with
      | (k1, v1) =>
          simp only [List.map_cons, findKeyPosition]
          by_cases h1 : k1 < k
          · rw [if_pos h1]
            rw [List.insertIdx_succ_cons, upsertSorted_cons_gt _ _ _ h1]
            rw [ih ?_]
            intro k2 v2 hg2
            have := hne k2 v2
            simp only [findKeyPosition, if_pos h1, List.map_cons, List.get?_cons_succ] at this
            exact this hg2
          · rw [if_neg h1]
            have hne0 := hne k1 v1
            simp only [findKeyPosition, if_neg h1, List.map_cons, List.get?_cons_zero] at hne0
            have hk1 : k1 ≠ k := hne0 trivial
            rw [List.insertIdx_zero, upsertSorted_cons_lt _ _ _ (by omega)]

/-- Under the key-count invariant, `leafInsert` is the upsert followed by the
overflow check. -/
theorem leafInsert_eq (maxK : Nat) (entries : List (Int × V)) (k : Int) (v : V)
    (hlen : entries.length ≤ maxK) :
    leafInsert maxK entries k v =
      (if (upsertSorted entries k v).length > maxK
       then splitLeaf maxK (upsertSorted entries k v)
       else .one (.leaf (upsertSorted entries k v))) := by
  rw [leafInsert]
  match hg : entries.get? (findKeyPosition (entries.map Prod.fst) k) with
  | some (k', v') =>
      by_cases h2 : k' = k
      · have hcode := upsertSorted_code_set entries k k' v v' hg h2
        simp only []
        rw [if_pos h2, hcode]
        have hlen2 : (upsertSorted entries k v).length = entries.length := by
          rw [← hcode]
          simp
        rw [if_neg (by omega)]
      · have hcode := upsertSorted_code_ins entries k v
          (fun k2 v2 hg2 => by
            rw [hg] at hg2
            injection hg2 with hg3
            injection hg3 with hg4 hg5
            subst hg4
            exact h2)
        simp only []
        rw [if_neg h2, hcode]
  | none =>
      have hcode := upsertSorted_code_ins entries k v
        (fun k2 v2 hg2 => by rw [hg] at hg2; exact absurd hg2 (by simp))
      simp only []
      rw [hcode]

/-! #### Internal-node field manipulation -/

theorem wfn_internal_iff {maxK minK cmin : Nat} {lo hi : Option Int} {d : Nat}
    {keys : List Int} {children : List (BNode V)} :
    WFN maxK minK cmin lo hi (d + 1) (.internal keys children) ↔
      cmin ≤ keys.length ∧ keys.length ≤ maxK ∧
        InternalFields maxK minK lo hi d keys children := by
  constructor
  · intro h
    cases h with
    | internal cmin lo hi d keys children h1 h2 h3 h4 h5 h6 =>
        exact ⟨h1, h2, h3, h4, h5, h6⟩
  · intro ⟨h1, h2, h3, h4, h5, h6⟩
    exact .internal cmin lo hi d keys children h1 h2 h3 h4 h5 h6

theorem pairwise_getD_lt {keys : List Int} (h : List.Pairwise (· < ·) keys)
    {i j : Nat} {d : Int} (hij : i < j) (hj : j < keys.length) :
    keys.getD i d < keys.getD j d := by
  rw [getD_eq_getElem _ _ _ (by omega), getD_eq_getElem _ _ _ hj]
  exact List.pairwise_iff_getElem.mp h i j (by omega) hj hij

theorem forall_mem_take {α : Type _} {P : α → Prop} {l : List α} {m : Nat} {d : α}
    (h : ∀ j, j < m → j < l.length → P (l.getD j d)) : ∀ a ∈ l.take m, P a := by
  intro a ha
  obtain ⟨i, hi, rfl⟩ := List.mem_iff_getElem.mp ha
  have hi1 : i < m := by simp at hi; omega
  have hi2 : i < l.length := by simp at hi; omega
  have : (l.take m)[i] = l[i] := List.getElem_take l
  rw [this, ← getD_eq_getElem l i d hi2]
  exact h i hi1 hi2

theorem forall_mem_drop {α : Type _} {P : α → Prop} {l : List α} {m : Nat} {d : α}
    (h : ∀ j, m ≤ j → j < l.length → P (l.getD j d)) : ∀ a ∈ l.drop m, P a := by
  intro a ha
  obtain ⟨i, hi, rfl⟩ := List.mem_iff_getElem.mp ha
  have hi2 : m + i < l.length := by simp at hi; omega
  have : (l.drop m)[i] = l[m + i] := List.getElem_drop l
  rw [this, ← getD_eq_getElem l (m + i) d hi2]
  exact h (m + i) (by omega) hi2

theorem childLo_zero (lo : Option Int) (keys : List Int) : childLo lo keys 0 = lo := rfl

theorem childLo_succ (lo : Option Int) (keys : List Int) (j : Nat) :
    childLo lo keys (j + 1) = some (keys.getD j 0) := rfl

theorem childHi_lt (hi : Option Int) (keys : List Int) {i : Nat} (h : i < keys.length) :
    childHi hi keys i = some (keys.getD i 0) := by
  simp [childHi, h]

theorem childHi_ge (hi : Option Int) (keys : List Int) {i : Nat} (h : ¬ i < keys.length) :
    childHi hi keys i = hi := by
  simp [childHi, h]

/-- Replacing child `ci` by the two halves of its split, with the separator
inserted at key position `ci` (which is where `findKeyPosition` puts it),
preserves the internal-node fields. -/
theorem splice_fields {maxK minK : Nat} {lo hi : Option Int} {d : Nat}
    {keys : List Int} {children : List (BNode V)} {ci : Nat}
    (hF : InternalFields maxK minK lo hi d keys children)
    (hci : ci < children.length)
    {l r : BNode V} {s : Int}
    (hl : WFN maxK minK minK (childLo lo keys ci) (some s) d l)
    (hr : WFN maxK minK minK (some s) (childHi hi keys ci) d r)
    (hsLo : okLoS (childLo lo keys ci) s) (hsHi : okHi (childHi hi keys ci) s) :
    InternalFields maxK minK lo hi d (keys.insertIdx ci s)
      ((children.set ci l).insertIdx (ci + 1) r) ∧
    (keys.insertIdx ci s).length = keys.length + 1 ∧
    findKeyPosition keys s = ci := by
  obtain ⟨h3, h4, h5, h6⟩ := hF
  have hciN : ci ≤ keys.length := by omega
  -- prefix keys are below s
  have F1 : ∀ j, j < ci → keys.getD j 0 < s := by
    intro j hj
    match ci, hsLo with
    | ci' + 1, hsLo =>
        rw [childLo_succ] at hsLo
        have hlast : keys.getD ci' 0 < s := hsLo _ rfl
        rcases Nat.lt_or_ge j ci' with hj2 | hj2
        · exact lt_trans (pairwise_getD_lt h3 hj2 (by omega)) hlast
        · have : j = ci' := by omega
          exact this ▸ hlast
  -- the key at ci (when present) is above s
  have F2 : ci < keys.length → s < keys.getD ci 0 := by
    intro hciK
    rw [childHi_lt hi keys hciK] at hsHi
    exact hsHi _ rfl
  have F3 : findKeyPosition keys s = ci :=
    findKeyPosition_eq keys s ci hciN F1 (fun h => by have := F2 h; omega)
  have F4 : okLoS lo s := by
    match ci, hsLo with
    | 0, hsLo => exact hsLo
    | ci' + 1, hsLo =>
        rw [childLo_succ] at hsLo
        intro a ha
        have h1 : okLoS lo (keys.getD ci' 0) :=
          (h4 _ (getD_mem (by omega))).1
        exact lt_trans (h1 a ha) (hsLo _ rfl)
  have F5 : okHi hi s := by
    by_cases hciK : ci < keys.length
    · intro b hb
      have h1 : okHi hi (keys.getD ci 0) := (h4 _ (getD_mem hciK)).2
      exact lt_trans (F2 hciK) (h1 b hb)
    · rw [childHi_ge hi keys hciK] at hsHi
      exact hsHi
  have F6 : keys.insertIdx ci s = keys.take ci ++ s :: keys.drop ci :=
    insertIdx_eq_take_cons_drop keys ci s hciN
  have Fdrop : ∀ b ∈ keys.drop ci, s < b := by
    refine forall_mem_drop (d := 0) ?_
    intro j hj1 hj2
    rcases Nat.eq_or_lt_of_le hj1 with rfl | hj3
    · exact F2 hj2
    · exact lt_trans (F2 (by omega)) (pairwise_getD_lt h3 hj3 hj2)
  have Ftake : ∀ a ∈ keys.take ci, a < s :=
    forall_mem_take (d := 0) (fun j hj _ => F1 j hj)
  have F7 : List.Pairwise (· < ·) (keys.insertIdx ci s) := by
    rw [F6, List.pairwise_append]
    refine ⟨pairwise_take h3 ci, ?_, ?_⟩
    · exact List.pairwise_cons.mpr ⟨Fdrop, pairwise_drop h3 ci⟩
    · intro a ha b hb
      simp only [List.mem_cons] at hb
      rcases hb with rfl | hb
      · exact Ftake a ha
      · exact lt_trans (Ftake a ha) (Fdrop b hb)
  have F8 : ∀ x ∈ keys.insertIdx ci s, okLoS lo x ∧ okHi hi x := by
    intro x hx
    rw [F6] at hx
    simp only [List.mem_append, List.mem_cons] at hx
    rcases hx with hx | rfl | hx
    · exact h4 x ((List.take_sublist ci keys).subset hx)
    · exact ⟨F4, F5⟩
    · exact h4 x ((List.drop_sublist ci keys).subset hx)
  have F9k : (keys.insertIdx ci s).length = keys.length + 1 :=
    List.length_insertIdx ci keys hciN
  have hsetlen : (children.set ci l).length = children.length := by simp
  have F9c : ((children.set ci l).insertIdx (ci + 1) r).length = children.length + 1 := by
    rw [List.length_insertIdx (ci + 1) _ (by omega)]
    omega
  -- getD facts for the new key list
  have G1 : ∀ j, j < ci → (keys.insertIdx ci s).getD j 0 = keys.getD j 0 :=
    fun j hj => getD_insertIdx_lt hj hciN
  have G2 : (keys.insertIdx ci s).getD ci 0 = s := getD_insertIdx_self hciN
  have G3 : ∀ j, ci < j → (keys.insertIdx ci s).getD j 0 = keys.getD (j - 1) 0 :=
    fun j hj => getD_insertIdx_ge hj hciN
  -- getD facts for the new child list
  have H1 : ∀ i, i < ci →
      ((children.set ci l).insertIdx (ci + 1) r).getD i dfltNode =
        children.getD i dfltNode := by
    intro i hii
    rw [getD_insertIdx_lt (by omega) (by omega), getD_set_ne (by omega)]
  have H2 : ((children.set ci l).insertIdx (ci + 1) r).getD ci dfltNode = l := by
    rw [getD_insertIdx_lt (by omega) (by omega), getD_set_self hci]
  have H3 : ((children.set ci l).insertIdx (ci + 1) r).getD (ci + 1) dfltNode = r :=
    getD_insertIdx_self (by omega)
  have H4 : ∀ i, ci + 1 < i →
      ((children.set ci l).insertIdx (ci + 1) r).getD i dfltNode =
        children.getD (i - 1) dfltNode := by
    intro i hii
    rw [getD_insertIdx_ge (by omega) (by omega), getD_set_ne (by omega)]
  refine ⟨⟨F7, F8, by omega, ?_⟩, F9k, F3⟩
  intro i hilen
  rw [F9c] at hilen
  rcases Nat.lt_trichotomy i ci with hc | heq | hc
  · -- untouched child left of the split
    rw [H1 i hc]
    have hwin1 : childLo lo (keys.insertIdx ci s) i = childLo lo keys i := by
      match i with
      | 0 => rfl
      | j + 1 => rw [childLo_succ, childLo_succ, G1 j (by omega)]
    have hwin2 : childHi hi (keys.insertIdx ci s) i = childHi hi keys i := by
      rw [childHi_lt _ _ (by omega), childHi_lt _ _ (by omega), G1 i hc]
    rw [hwin1, hwin2]
    exact h6 i (by omega)
  · -- the left half of the split child
    subst heq
    rw [H2]
    have hwin1 : childLo lo (keys.insertIdx i s) i = childLo lo keys i := by
      match i with
      | 0 => rfl
      | j + 1 => rw [childLo_succ, childLo_succ, G1 j (by omega)]
    have hwin2 : childHi hi (keys.insertIdx i s) i = some s := by
      rw [childHi_lt _ _ (by omega), G2]
    rw [hwin1, hwin2]
    exact hl
  · rcases Nat.eq_or_lt_of_le hc with rfl | hc2
    · -- the right half of the split child
      rw [H3]
      have hwin1 : childLo lo (keys.insertIdx ci s) (ci + 1) = some s := by
        rw [childLo_succ, G2]
      have hwin2 : childHi hi (keys.insertIdx ci s) (ci + 1) = childHi hi keys ci := by
        by_cases hciK : ci < keys.length
        · rw [childHi_lt _ _ (by omega), childHi_lt _ _ hciK, G3 (ci + 1) (by omega)]
          simp
        · rw [childHi_ge _ _ (by omega), childHi_ge _ _ hciK]
      rw [hwin1, hwin2]
      exact hr
    · -- untouched child right of the split
      obtain ⟨j, rfl⟩ : ∃ j, i = j + 2 := ⟨i - 2, by omega⟩
      rw [H4 (j + 2) hc2]
      have hio : j + 1 < children.length := by omega
      have hwin1 : childLo lo (keys.insertIdx ci s) (j + 2) = childLo lo keys (j + 1) := by
        rw [childLo_succ, childLo_succ, G3 (j + 1) (by omega)]
        simp
      have hwin2 : childHi hi (keys.insertIdx ci s) (j + 2) = childHi hi keys (j + 1) := by
        by_cases hiK : j + 1 < keys.length
        · rw [childHi_lt _ _ (by omega), childHi_lt _ _ hiK, G3 (j + 2) (by omega)]
          simp
        · rw [childHi_ge _ _ (by omega), childHi_ge _ _ hiK]
      rw [hwin1, hwin2]
      have := h6 (j + 1) hio
      simpa using this

/-- Replacing one child by a node well-formed for the same window keeps the
internal-node fields. -/
theorem replace1_fields {maxK minK : Nat} {lo hi : Option Int} {d : Nat}
    {keys : List Int} {children : List (BNode V)} {ci : Nat}
    (hF : InternalFields maxK minK lo hi d keys children)
    (hci : ci < children.length) {c' : BNode V}
    (hc' : WFN maxK minK minK (childLo lo keys ci) (childHi hi keys ci) d c') :
    InternalFields maxK minK lo hi d keys (children.set ci c') := by
  obtain ⟨h3, h4, h5, h6⟩ := hF
  refine ⟨h3, h4, by simpa using h5, ?_⟩
  intro i hlen
  simp only [List.length_set] at hlen
  by_cases h : ci = i
  · subst h
    rw [getD_set_self hci]
    exact hc'
  · rw [getD_set_ne h]
    exact h6 i hlen

/-- Splitting an overflowed internal node at `(maxKeys + 1) / 2` produces two
well-formed internal nodes around the promoted middle key. -/
theorem internal_split_fields {maxK minK : Nat} (hm : minK = maxK / 2) (hmin : 1 ≤ minK)
    {lo hi : Option Int} {d : Nat} {keys1 : List Int} {children1 : List (BNode V)}
    (hF : InternalFields maxK minK lo hi d keys1 children1)
    (hlen : keys1.length = maxK + 1) :
    WFN maxK minK minK lo (some (keys1.getD ((maxK + 1) / 2) 0)) (d + 1)
      (.internal (keys1.take ((maxK + 1) / 2)) (children1.take ((maxK + 1) / 2 + 1))) ∧
    WFN maxK minK minK (some (keys1.getD ((maxK + 1) / 2) 0)) hi (d + 1)
      (.internal (keys1.drop ((maxK + 1) / 2 + 1)) (children1.drop ((maxK + 1) / 2 + 1))) ∧
    okLoS lo (keys1.getD ((maxK + 1) / 2) 0) ∧
    okHi hi (keys1.getD ((maxK + 1) / 2) 0) := by
  obtain ⟨h3, h4, h5, h6⟩ := hF
  have hK2 : 2 ≤ maxK := by omega
  have hsp : (maxK + 1) / 2 < keys1.length := by omega
  have hspg : 1 ≤ (maxK + 1) / 2 := by omega
  have hs := h4 _ (getD_mem (d := 0) hsp)
  have hlt : (keys1.take ((maxK + 1) / 2)).length = (maxK + 1) / 2 := by
    simp only [List.length_take]
    omega
  have hld : (keys1.drop ((maxK + 1) / 2 + 1)).length = maxK - (maxK + 1) / 2 := by
    simp only [List.length_drop]
    omega
  have hclt : (children1.take ((maxK + 1) / 2 + 1)).length = (maxK + 1) / 2 + 1 := by
    simp only [List.length_take]
    omega
  have hcld : (children1.drop ((maxK + 1) / 2 + 1)).length = maxK + 1 - (maxK + 1) / 2 := by
    simp only [List.length_drop]
    omega
  refine ⟨?_, ?_, hs.1, hs.2⟩
  · rw [wfn_internal_iff]
    refine ⟨by omega, by omega, ?_, ?_, by omega, ?_⟩
    · exact pairwise_take h3 _
    · refine forall_mem_take (d := 0) ?_
      intro j hj hj2
      refine ⟨(h4 _ (getD_mem hj2)).1, ?_⟩
      intro b hb
      simp only [Option.mem_def, Option.some.injEq] at hb
      subst hb
      exact pairwise_getD_lt h3 hj hsp
    · intro i hilen
      rw [hclt] at hilen
      have hchild : (children1.take ((maxK + 1) / 2 + 1)).getD i dfltNode =
          children1.getD i dfltNode := getD_take_lt hilen
      rw [hchild]
      have hwin1 : childLo lo (keys1.take ((maxK + 1) / 2)) i = childLo lo keys1 i := by
        match i with
        | 0 => rfl
        | j + 1 => rw [childLo_succ, childLo_succ, getD_take_lt (by omega)]
      have hwin2 : childHi (some (keys1.getD ((maxK + 1) / 2) 0))
          (keys1.take ((maxK + 1) / 2)) i = childHi hi keys1 i := by
        by_cases hisp : i < (maxK + 1) / 2
        · rw [childHi_lt _ _ (by omega), childHi_lt _ _ (by omega),
              getD_take_lt hisp]
        · have hieq : i = (maxK + 1) / 2 := by omega
          subst hieq
          rw [childHi_ge _ _ (by omega), childHi_lt _ _ hsp]
      rw [hwin1, hwin2]
      exact h6 i (by omega)
  · rw [wfn_internal_iff]
    refine ⟨by omega, by omega, ?_, ?_, by omega, ?_⟩
    · exact pairwise_drop h3 _
    · refine forall_mem_drop (d := 0) ?_
      intro j hj hj2
      refine ⟨?_, (h4 _ (getD_mem hj2)).2⟩
      intro a ha
      simp only [Option.mem_def, Option.some.injEq] at ha
      subst ha
      exact pairwise_getD_lt h3 (by omega) hj2
    · intro i hilen
      rw [hcld] at hilen
      have hchild : (children1.drop ((maxK + 1) / 2 + 1)).getD i dfltNode =
          children1.getD ((maxK + 1) / 2 + 1 + i) dfltNode := getD_drop _ _ _ _
      rw [hchild]
      have hwin1 : childLo (some (keys1.getD ((maxK + 1) / 2) 0))
          (keys1.drop ((maxK + 1) / 2 + 1)) i = childLo lo keys1 ((maxK + 1) / 2 + 1 + i) := by
        match i with
        | 0 =>
            rw [childLo_zero]
            have : (maxK + 1) / 2 + 1 + 0 = ((maxK + 1) / 2) + 1 := by omega
            rw [this, childLo_succ]
        | j + 1 =>
            rw [childLo_succ, getD_drop]
            have : (maxK + 1) / 2 + 1 + (j + 1) = ((maxK + 1) / 2 + 1 + j) + 1 := by omega
            rw [this, childLo_succ]
      have hwin2 : childHi hi (keys1.drop ((maxK + 1) / 2 + 1)) i =
          childHi hi keys1 ((maxK + 1) / 2 + 1 + i) := by
        by_cases hik : i < (keys1.drop ((maxK + 1) / 2 + 1)).length
        · rw [childHi_lt _ _ hik, childHi_lt _ _ (by rw [hld] at hik; omega), getD_drop]
        · rw [childHi_ge _ _ hik, childHi_ge _ _ (by rw [hld] at hik; omega)]
      rw [hwin1, hwin2]
      exact h6 _ (by omega)

theorem mem_flatten_take {children : List (BNode V)} {m : Nat} {p : Int × V}
    (h : p ∈ ((children.take m).map contents).flatten) :
    ∃ j, j < m ∧ j < children.length ∧ p ∈ contents (children.getD j dfltNode) := by
  rw [List.mem_flatten] at h
  obtain ⟨part, hpart, hp⟩ := h
  rw [List.mem_map] at hpart
  obtain ⟨c, hc, rfl⟩ := hpart
  obtain ⟨j, hj, rfl⟩ := List.mem_iff_getElem.mp hc
  have hj1 : j < m := by simp at hj; omega
  have hj2 : j < children.length := by simp at hj; omega
  refine ⟨j, hj1, hj2, ?_⟩
  have h1 : (children.take m)[j] = children[j] := List.getElem_take children
  rw [h1, ← getD_eq_getElem children j dfltNode hj2] at hp
  exact hp

theorem mem_flatten_drop {children : List (BNode V)} {m : Nat} {p : Int × V}
    (h : p ∈ ((children.drop m).map contents).flatten) :
    ∃ j, m ≤ j ∧ j < children.length ∧ p ∈ contents (children.getD j dfltNode) := by
  rw [List.mem_flatten] at h
  obtain ⟨part, hpart, hp⟩ := h
  rw [List.mem_map] at hpart
  obtain ⟨c, hc, rfl⟩ := hpart
  obtain ⟨j, hj, rfl⟩ := List.mem_iff_getElem.mp hc
  have hj2 : m + j < children.length := by simp at hj; omega
  refine ⟨m + j, by omega, hj2, ?_⟩
  have h1 : (children.drop m)[j] = children[m + j] := List.getElem_drop children
  rw [h1, ← getD_eq_getElem children (m + j) dfltNode hj2] at hp
  exact hp

/-- Entries left of the search child are strictly below the key. -/
theorem pre_keys_lt {maxK minK : Nat} {lo hi : Option Int} {d : Nat}
    {keys : List Int} {children : List (BNode V)} {k : Int}
    (hF : InternalFields maxK minK lo hi d keys children) :
    ∀ p ∈ ((children.take (findChildIndex keys k)).map contents).flatten,
      p.1 < k := by
  obtain ⟨h3, h4, h5, h6⟩ := hF
  intro p hp
  obtain ⟨j, hj1, hj2, hpj⟩ := mem_flatten_take hp
  have hjk : j < keys.length := by
    have := findChildIndex_le keys k
    omega
  have hw := wfn_contents_bounds (h6 j hj2)
  have hhi := (hw.2 p hpj).2
  rw [childHi_lt hi keys hjk] at hhi
  have h1 : p.1 < keys.getD j 0 := hhi _ rfl
  have h2 : keys.getD j 0 ≤ k := findChildIndex_prefix_le keys k j hj1
  omega

/-- Entries right of the search child are strictly above the key. -/
theorem post_keys_gt {maxK minK : Nat} {lo hi : Option Int} {d : Nat}
    {keys : List Int} {children : List (BNode V)} {k : Int}
    (hF : InternalFields maxK minK lo hi d keys children) :
    ∀ p ∈ ((children.drop (findChildIndex keys k + 1)).map contents).flatten,
      k < p.1 := by
  obtain ⟨h3, h4, h5, h6⟩ := hF
  intro p hp
  obtain ⟨j, hj1, hj2, hpj⟩ := mem_flatten_drop hp
  have hcik : findChildIndex keys k < keys.length := by omega
  have hw := wfn_contents_bounds (h6 j hj2)
  have hlo := (hw.2 p hpj).1
  have hj0 : ∃ j', j = j' + 1 := ⟨j - 1, by omega⟩
  obtain ⟨j', rfl⟩ := hj0
  rw [childLo_succ] at hlo
  have h1 : keys.getD j' 0 ≤ p.1 := hlo _ rfl
  have h2 : k < keys.getD (findChildIndex keys k) 0 := findChildIndex_self_gt keys k hcik
  have h3' : keys.getD (findChildIndex keys k) 0 ≤ keys.getD j' 0 := by
    rcases Nat.eq_or_lt_of_le (show findChildIndex keys k ≤ j' by omega) with rfl | hlt
    · exact le_refl _
    · exact le_of_lt (pairwise_getD_lt h3 hlt (by omega))
  omega

theorem headKey_drop (es : List (Int × V)) (sp : Nat) (h : sp < es.length) :
    (((es.drop sp).head?).map Prod.fst).getD 0 = (es.map Prod.fst).getD sp 0 := by
  rw [List.head?_drop, List.getD_eq_getElem?_getD, List.getElem?_map]

/-- Splitting an overflowed leaf at `(maxKeys + 1) / 2` produces two
well-formed leaves, promoting a copy of the right half's first key. -/
theorem leaf_split_fields {maxK minK : Nat} (hm : minK = maxK / 2) (hmin : 1 ≤ minK)
    {lo hi : Option Int} (es : List (Int × V))
    (hlen : es.length = maxK + 1)
    (hsort : List.Pairwise (· < ·) (es.map Prod.fst))
    (hbounds : ∀ p ∈ es, okLo lo p.1 ∧ okHi hi p.1) :
    splitLeaf maxK es = .two (.leaf (es.take ((maxK + 1) / 2)))
      ((es.map Prod.fst).getD ((maxK + 1) / 2) 0)
      (.leaf (es.drop ((maxK + 1) / 2))) ∧
    WFN maxK minK minK lo (some ((es.map Prod.fst).getD ((maxK + 1) / 2) 0)) 0
      (.leaf (es.take ((maxK + 1) / 2))) ∧
    WFN maxK minK minK (some ((es.map Prod.fst).getD ((maxK + 1) / 2) 0)) hi 0
      (.leaf (es.drop ((maxK + 1) / 2))) ∧
    okLoS lo ((es.map Prod.fst).getD ((maxK + 1) / 2) 0) ∧
    okHi hi ((es.map Prod.fst).getD ((maxK + 1) / 2) 0) := by
  have hK2 : 2 ≤ maxK := by omega
  have hsp1 : 1 ≤ (maxK + 1) / 2 := by omega
  have hsp : (maxK + 1) / 2 < es.length := by omega
  have hspm : (maxK + 1) / 2 < (es.map Prod.fst).length := by simpa using hsp
  have hkmem : (es.map Prod.fst).getD ((maxK + 1) / 2) 0 ∈ es.map Prod.fst :=
    getD_mem hspm
  obtain ⟨ps, hps, hpsk⟩ := List.mem_map.mp hkmem
  have hcross := pairwise_cross hsort ((maxK + 1) / 2)
  have hsmem : (es.map Prod.fst).getD ((maxK + 1) / 2) 0 ∈ (es.map Prod.fst).drop ((maxK + 1) / 2) := by
    rw [drop_eq_getD_cons (d := 0) hspm]
    simp
  have htake_lt : ∀ a ∈ (es.map Prod.fst).take ((maxK + 1) / 2),
      a < (es.map Prod.fst).getD ((maxK + 1) / 2) 0 :=
    fun a ha => hcross a ha _ hsmem
  have hdrop_ge : ∀ b ∈ (es.map Prod.fst).drop ((maxK + 1) / 2),
      (es.map Prod.fst).getD ((maxK + 1) / 2) 0 ≤ b := by
    refine forall_mem_drop (d := 0) ?_
    intro j hj1 hj2
    rcases Nat.eq_or_lt_of_le hj1 with rfl | hj3
    · exact le_refl _
    · exact le_of_lt (pairwise_getD_lt hsort hj3 hj2)
  have hsHi : okHi hi ((es.map Prod.fst).getD ((maxK + 1) / 2) 0) := by
    rw [← hpsk]
    exact (hbounds ps hps).2
  have hsLo : okLoS lo ((es.map Prod.fst).getD ((maxK + 1) / 2) 0) := by
    have hmem0 : (es.map Prod.fst).getD 0 0 ∈ (es.map Prod.fst).take ((maxK + 1) / 2) := by
      rw [← getD_take_lt (l := es.map Prod.fst) (d := 0) hsp1]
      exact getD_mem (by simp only [List.length_take]; omega)
    have h0lt : (es.map Prod.fst).getD 0 0 < (es.map Prod.fst).getD ((maxK + 1) / 2) 0 :=
      htake_lt _ hmem0
    have hmem0' : (es.map Prod.fst).getD 0 0 ∈ es.map Prod.fst := getD_mem (by omega)
    obtain ⟨q, hq, hqk⟩ := List.mem_map.mp hmem0'
    intro a ha
    have := (hbounds q hq).1 a ha
    omega
  refine ⟨?_, ?_, ?_, hsLo, hsHi⟩
  · rw [splitLeaf]
    congr 1
    rw [headKey_drop es _ hsp]
  · refine .leaf minK lo _ _ ?_ ?_ ?_ ?_
    · simp only [List.length_take]; omega
    · simp only [List.length_take]; omega
    · rw [List.map_take]
      exact pairwise_take hsort _
    · intro p hp
      refine ⟨(hbounds p ((List.take_sublist _ _).subset hp)).1, ?_⟩
      intro b hb
      simp only [Option.mem_def, Option.some.injEq] at hb
      subst hb
      refine htake_lt p.1 ?_
      rw [← List.map_take]
      exact List.mem_map.mpr ⟨p, hp, rfl⟩
  · refine .leaf minK _ hi _ ?_ ?_ ?_ ?_
    · simp only [List.length_drop]; omega
    · simp only [List.length_drop]; omega
    · rw [List.map_drop]
      exact pairwise_drop hsort _
    · intro p hp
      refine ⟨?_, (hbounds p ((List.drop_sublist _ _).subset hp)).2⟩
      intro a ha
      simp only [Option.mem_def, Option.some.injEq] at ha
      subst ha
      refine hdrop_ge p.1 ?_
      rw [← List.map_drop]
      exact List.mem_map.mpr ⟨p, hp, rfl⟩

theorem insertAux_leaf_eq {maxK : Nat} {k : Int} {v : V} {entries : List (Int × V)} :
    insertAux maxK k v (.leaf entries) = leafInsert maxK entries k v := by
  rw [insertAux]

theorem insertAux_internal_eq {maxK : Nat} {k : Int} {v : V} {keys : List Int}
    {children : List (BNode V)} {c : BNode V}
    (hget : children.get? (findChildIndex keys k) = some c) :
    insertAux maxK k v (.internal keys children) =
      match insertAux maxK k v c with
      | .one c' => .one (.internal keys (children.set (findChildIndex keys k) c'))
      | .two l s r =>
          let pos := findKeyPosition keys s
          let keys' := keys.insertIdx pos s
          let children' := ((children.set (findChildIndex keys k) l).insertIdx (pos + 1) r)
          if keys'.length > maxK then splitInternal maxK keys' children'
          else .one (.internal keys' children') := by
  rw [insertAux]
  split
  · rename_i heq
    rw [hget] at heq
    exact absurd heq (by simp)
  · rename_i c' heq
    rw [hget] at heq
    injection heq with h2
    rw [h2]

/-- The central insert lemma: inserting into a well-formed subtree preserves
well-formedness (splitting when the subtree overflows) and performs the
sorted-list upsert on the stored entries. -/
theorem insertAux_spec {maxK minK : Nat} (hm : minK = maxK / 2) (hmin : 1 ≤ minK)
    {k : Int} {v : V} {d : Nat} :
    ∀ {n : BNode V} {cmin : Nat} {lo hi : Option Int},
    WFN maxK minK cmin lo hi d n → okLo lo k → okHi hi k →
    (∀ {n' : BNode V}, insertAux maxK k v n = .one n' →
        WFN maxK minK cmin lo hi d n' ∧ contents n' = upsertSorted (contents n) k v) ∧
    (∀ {l : BNode V} {s : Int} {r : BNode V}, insertAux maxK k v n = .two l s r →
        WFN maxK minK minK lo (some s) d l ∧ WFN maxK minK minK (some s) hi d r ∧
        okLoS lo s ∧ okHi hi s ∧
        contents l ++ contents r = upsertSorted (contents n) k v) := by
  induction d with
  | zero =>
      intro n cmin lo hi h hk1 hk2
      cases h with
      | leaf cmin lo hi entries h1 h2 h3 h4 =>
          rw [insertAux_leaf_eq, leafInsert_eq maxK entries k v h2]
          have hge := upsertSorted_length_ge entries k v
          have hle := upsertSorted_length_le entries k v
          by_cases hover : (upsertSorted entries k v).length > maxK
          · rw [if_pos hover]
            have hlen1 : (upsertSorted entries k v).length = maxK + 1 := by omega
            have hsp := leaf_split_fields hm hmin (upsertSorted entries k v) hlen1
              (upsertSorted_pairwise entries k v h3)
              (upsertSorted_bounds entries k v h4 hk1 hk2)
            constructor
            · intro n' hn'
              rw [hsp.1] at hn'
              exact absurd hn' (by simp)
            · intro l s r hlsr
              rw [hsp.1] at hlsr
              injection hlsr with e1 e2 e3
              subst e1; subst e2; subst e3
              refine ⟨hsp.2.1, hsp.2.2.1, hsp.2.2.2.1, hsp.2.2.2.2, ?_⟩
              rw [contents_leaf, contents_leaf, contents_leaf, List.take_append_drop]
          · rw [if_neg hover]
            constructor
            · intro n' hn'
              injection hn' with e1
              subst e1
              refine ⟨.leaf cmin lo hi _ (by omega) (by omega)
                  (upsertSorted_pairwise entries k v h3)
                  (upsertSorted_bounds entries k v h4 hk1 hk2), ?_⟩
              rw [contents_leaf, contents_leaf]
            · intro l s r hlsr
              exact absurd hlsr (by simp)
  | succ d ih =>
      intro n cmin lo hi h hk1 hk2
      cases h with
      | internal cmin lo hi d keys children h1 h2 h3 h4 h5 h6 =>
          have hF : InternalFields maxK minK lo hi d keys children := ⟨h3, h4, h5, h6⟩
          have hci : findChildIndex keys k < children.length :=
            findChildIndex_lt_length keys children k h5
          have hget := list_get?_eq_getD hci dfltNode
          have hIH := ih (h6 _ hci) (fci_okLo hk1) (fci_okHi hk2)
          rw [insertAux_internal_eq hget]
          have hpre := pre_keys_lt (k := k) hF
          have hpost := post_keys_gt (k := k) hF
          have hupsert : upsertSorted (contents (BNode.internal keys children)) k v =
              ((children.take (findChildIndex keys k)).map contents).flatten ++
                upsertSorted (contents (children.getD (findChildIndex keys k) dfltNode)) k v ++
                ((children.drop (findChildIndex keys k + 1)).map contents).flatten := by
            rw [contents_internal, flatten_map_decomp children _ hci]
            exact upsertSorted_append_mid _ _ _ k v hpre hpost
          cases hres : insertAux maxK k v (children.getD (findChildIndex keys k) dfltNode) with
          | one c' =>
              simp only [hres]
              have hone := hIH.1 hres
              constructor
              · intro n' hn'
                injection hn' with e1
                subst e1
                constructor
                · rw [wfn_internal_iff]
                  exact ⟨h1, h2, replace1_fields hF hci hone.1⟩
                · rw [contents_internal, flatten_map_set children _ c' hci, hupsert, hone.2]
              · intro l s r hlsr
                exact absurd hlsr (by simp)
          | two l s r =>
              simp only [hres]
              have htwo := hIH.2 hres
              obtain ⟨hl, hr, hsLo, hsHi, hcont⟩ := htwo
              have hsp := splice_fields hF hci hl hr hsLo hsHi
              obtain ⟨hF', hklen, hpos⟩ := hsp
              simp only [hpos]
              rw [hklen]
              have hchlen : ((children.set (findChildIndex keys k) l).insertIdx
                  (findChildIndex keys k + 1) r).length = keys.length + 2 := by
                rw [List.length_insertIdx _ _ (by simp; omega)]
                simp
                omega
              have hcontents' : ((((children.set (findChildIndex keys k) l).insertIdx
                  (findChildIndex keys k + 1) r)).map contents).flatten =
                  upsertSorted (contents (BNode.internal keys children)) k v := by
                rw [flatten_map_splice children _ l r hci, hupsert, hcont]
              by_cases hover : keys.length + 1 > maxK
              · rw [if_pos hover]
                have hklen1 : (keys.insertIdx (findChildIndex keys k) s).length = maxK + 1 := by
                  omega
                have hspl := internal_split_fields hm hmin hF' hklen1
                rw [splitInternal]
                constructor
                · intro n' hn'
                  exact absurd hn' (by simp)
                · intro l' s' r' hlsr
                  injection hlsr with e1 e2 e3
                  subst e1; subst e2; subst e3
                  refine ⟨hspl.1, hspl.2.1, hspl.2.2.1, hspl.2.2.2, ?_⟩
                  rw [contents_internal, contents_internal]
                  rw [← hcontents']
                  rw [List.map_take, List.map_drop]
                  rw [← List.flatten_append]
                  rw [List.take_append_drop]
              · rw [if_neg hover]
                constructor
                · intro n' hn'
                  injection hn' with e1
                  subst e1
                  constructor
                  · rw [wfn_internal_iff]
                    refine ⟨by omega, by omega, hF'⟩
                  · rw [contents_internal, hcontents']
                · intro l' s' r' hlsr
                  exact absurd hlsr (by simp)

/-- Tree-level insert: well-formedness is preserved and the contents undergo
the sorted upsert. -/
theorem insertTree_spec {maxK minK : Nat} (hm : minK = maxK / 2) (hmin : 1 ≤ minK)
    {t : BTree V} {k : Int} {v : V} (h : TreeWF maxK minK t) :
    TreeWF maxK minK (insertTree maxK t k v) ∧
    contentsTree (insertTree maxK t k v) = upsertSorted (contentsTree t) k v := by
  have hK2 : 2 ≤ maxK := by omega
  match t with
  | none =>
      constructor
      · exact ⟨0, .leaf 1 none none [(k, v)] (by simp) (by simp; omega) (by simp)
          (by intro p hp; exact ⟨by simp [okLo], by simp [okHi]⟩)⟩
      · simp only [contentsTree, insertTree]
        rw [contents_leaf, upsertSorted_nil]
  | some n =>
      obtain ⟨d, hw⟩ := h
      have hspec := insertAux_spec (k := k) (v := v) hm hmin hw (by simp [okLo]) (by simp [okHi])
      rw [insertTree]
      cases hres : insertAux maxK k v n with
      | one n' =>
          have hone := hspec.1 hres
          exact ⟨⟨d, hone.1⟩, by simp only [contentsTree]; exact hone.2⟩
      | two l s r =>
          have htwo := hspec.2 hres
          obtain ⟨hl, hr, _, _, hcont⟩ := htwo
          constructor
          · refine ⟨d + 1, ?_⟩
            refine .internal 1 none none d [s] [l, r] (by simp) (by simp; omega)
              (by simp) (by simp [okLoS, okHi]) (by simp) ?_
            intro i hi
            match i with
            | 0 =>
                simp only [List.getD_cons_zero]
                have h1 : childLo none [s] 0 = none := rfl
                have h2 : childHi none [s] 0 = some s := by
                  rw [childHi_lt none [s] (by simp)]
                  simp
                rw [h1, h2]
                exact hl
            | 1 =>
                simp only [List.getD_cons_succ, List.getD_cons_zero]
                have h1 : childLo none [s] 1 = some s := by
                  rw [childLo_succ]
                  simp
                have h2 : childHi none [s] 1 = none := by
                  rw [childHi_ge none [s] (by simp)]
                rw [h1, h2]
                exact hr
          · simp only [contentsTree]
            rw [contents_internal]
            simp only [List.map_cons, List.map_nil, List.flatten_cons, List.flatten_nil,
              List.append_nil]
            exact hcont

/-- Round trip: after an insert, searching the key finds the inserted value. -/
theorem insert_then_search {maxK minK : Nat} (hm : minK = maxK / 2) (hmin : 1 ≤ minK)
    {t : BTree V} {k : Int} {v : V} (h : TreeWF maxK minK t) :
    searchTree (insertTree maxK t k v) k = some v := by
  have hspec := insertTree_spec hm hmin (t := t) (k := k) (v := v) h
  rw [treewf_search hspec.1, hspec.2]
  exact upsertSorted_findValue _ k v

/-! #### Remove: list-level auxiliary lemmas -/

theorem leafRemove_eq (entries : List (Int × V)) (k : Int) :
    leafRemove entries k = (eraseKey entries k, (findValue entries k).isSome) := by
  induction entries with
  | nil => rfl
  | cons p t ih =>
      match p with
      | (k', v') =>
          rw [leafRemove, eraseKey, findValue]
          by_cases h : k' = k
          · simp [h]
          · simp [h, ih]

theorem findValue_none_forall {l : List (Int × V)} {k : Int} (h : findValue l k = none) :
    ∀ p ∈ l, p.1 ≠ k := by
  induction l with
  | nil => simp
  | cons p t ih =>
      match p with
      | (k', v') =>
          rw [findValue] at h
          by_cases hk : k' = k
          · simp [hk] at h
          · intro q hq
            simp only [List.mem_cons] at hq
            rcases hq with rfl | hq
            · exact hk
            · exact ih (by simpa [hk] using h) q hq

theorem eraseKey_sublist (l : List (Int × V)) (k : Int) : (eraseKey l k).Sublist l := by
  induction l with
  | nil => simp [eraseKey]
  | cons p t ih =>
      match p with
      | (k', v') =>
          rw [eraseKey]
          by_cases h : k' = k
          · rw [if_pos h]
            exact List.sublist_cons_self _ _
          · rw [if_neg h]
            exact ih.cons₂ _

theorem eraseKey_notmem (l : List (Int × V)) (k : Int) (h : ∀ p ∈ l, p.1 ≠ k) :
    eraseKey l k = l := by
  induction l with
  | nil => rfl
  | cons p t ih =>
      match p with
      | (k', v') =>
          rw [eraseKey, if_neg (by simpa using h (k', v') (by simp))]
          rw [ih (fun q hq => h q (by simp [hq]))]

theorem eraseKey_length {l : List (Int × V)} {k : Int} (h : (findValue l k).isSome) :
    (eraseKey l k).length + 1 = l.length := by
  induction l with
  | nil => simp [findValue] at h
  | cons p t ih =>
      match p with
      | (k', v') =>
          rw [eraseKey]
          by_cases hk : k' = k
          · rw [if_pos hk]
            simp
          · rw [if_neg hk]
            rw [findValue, if_neg hk] at h
            simp only [List.length_cons]
            rw [← ih h]

theorem eraseKey_append_left (A B : List (Int × V)) (k : Int) (h : ∀ p ∈ A, p.1 ≠ k) :
    eraseKey (A ++ B) k = A ++ eraseKey B k := by
  induction A with
  | nil => rfl
  | cons p t ih =>
      match p with
      | (k', v') =>
          rw [List.cons_append, eraseKey, if_neg (by simpa using h (k', v') (by simp))]
          rw [ih (fun q hq => h q (by simp [hq]))]
          rfl

theorem eraseKey_append_right (B C : List (Int × V)) (k : Int) (h : ∀ p ∈ C, p.1 ≠ k) :
    eraseKey (B ++ C) k = eraseKey B k ++ C := by
  induction B with
  | nil =>
      simp only [List.nil_append, eraseKey]
      exact eraseKey_notmem C k h
  | cons p t ih =>
      match p with
      | (k', v') =>
          rw [List.cons_append, eraseKey, eraseKey]
          by_cases hk : k' = k
          · rw [if_pos hk, if_pos hk]
          · rw [if_neg hk, if_neg hk, ih]
            rfl

theorem findValue_isSome_mem {l : List (Int × V)} {k : Int} (h : (findValue l k).isSome) :
    k ∈ l.map Prod.fst := by
  induction l with
  | nil => simp [findValue] at h
  | cons p t ih =>
      match p with
      | (k', v') =>
          rw [findValue] at h
          by_cases hk : k' = k
          · simp [hk]
          · rw [if_neg hk] at h
            simp only [List.map_cons, List.mem_cons]
            exact Or.inr (ih h)

theorem flatten_map_decomp2 (children : List (BNode V)) (j : Nat)
    (hj : j + 1 < children.length) :
    (children.map contents).flatten =
      ((children.take j).map contents).flatten ++ contents (children.getD j dfltNode) ++
        contents (children.getD (j + 1) dfltNode) ++
        ((children.drop (j + 2)).map contents).flatten := by
  have h1 := flatten_map_decomp children j (by omega)
  rw [h1]
  have h2 : children.drop (j + 1) =
      children.getD (j + 1) dfltNode :: children.drop (j + 2) :=
    drop_eq_getD_cons hj
  rw [h2]
  simp [List.append_assoc]

theorem flatten_map_set2 (children : List (BNode V)) (j : Nat) (a b : BNode V)
    (hj : j + 1 < children.length) :
    (((children.set j a).set (j + 1) b).map contents).flatten =
      ((children.take j).map contents).flatten ++ contents a ++ contents b ++
        ((children.drop (j + 2)).map contents).flatten := by
  rw [List.set_eq_take_cons_drop _ (by simp; omega)]
  rw [List.set_eq_take_cons_drop _ (by omega)]
  have h1 : (children.take j ++ a :: children.drop (j + 1)).take (j + 1) =
      children.take j ++ [a] := by
    rw [List.take_append_eq_append_take]
    have : (children.take j).length = j := by simp; omega
    rw [List.take_of_length_le (by omega), this]
    simp
  have h2 : (children.take j ++ a :: children.drop (j + 1)).drop (j + 2) =
      children.drop (j + 2) := by
    rw [List.drop_append_eq_append_drop]
    have : (children.take j).length = j := by simp; omega
    rw [List.drop_of_length_le (by omega), this]
    have h3 : j + 2 - j = 2 := by omega
    rw [h3]
    simp
  rw [h1, h2]
  simp [List.append_assoc]

theorem flatten_map_set_erase (children : List (BNode V)) (j : Nat) (m : BNode V)
    (hj : j + 1 < children.length) :
    (((children.set j m).eraseIdx (j + 1)).map contents).flatten =
      ((children.take j).map contents).flatten ++ contents m ++
        ((children.drop (j + 2)).map contents).flatten := by
  rw [List.set_eq_take_cons_drop _ (by omega)]
  rw [List.eraseIdx_eq_take_drop_succ]
  have h1 : (children.take j ++ m :: children.drop (j + 1)).take (j + 1) =
      children.take j ++ [m] := by
    rw [List.take_append_eq_append_take]
    have : (children.take j).length = j := by simp; omega
    rw [List.take_of_length_le (by omega), this]
    simp
  have h2 : (children.take j ++ m :: children.drop (j + 1)).drop (j + 2) =
      children.drop (j + 2) := by
    rw [List.drop_append_eq_append_drop]
    have : (children.take j).length = j := by simp; omega
    rw [List.drop_of_length_le (by omega), this]
    have h3 : j + 2 - j = 2 := by omega
    rw [h3]
    simp
  rw [h1, h2]
  simp [List.append_assoc]

theorem pairwise_set_sorted {keys : List Int} (h : List.Pairwise (· < ·) keys) {j : Nat}
    {u : Int} (hj : j < keys.length)
    (hlo : ∀ i, i < j → keys.getD i 0 < u)
    (hhi : ∀ i, j < i → i < keys.length → u < keys.getD i 0) :
    List.Pairwise (· < ·) (keys.set j u) := by
  rw [List.pairwise_iff_getElem]
  intro a b ha hb hab
  simp only [List.length_set] at ha hb
  have hga : (keys.set j u)[a] = (keys.set j u).getD a 0 :=
    (getD_eq_getElem _ _ _ (by simpa using ha)).symm
  have hgb : (keys.set j u)[b] = (keys.set j u).getD b 0 :=
    (getD_eq_getElem _ _ _ (by simpa using hb)).symm
  rw [hga, hgb]
  by_cases haj : j = a
  · subst haj
    rw [getD_set_self hj, getD_set_ne (by omega)]
    exact hhi b (by omega) hb
  · rw [getD_set_ne haj]
    by_cases hbj : j = b
    · subst hbj
      rw [getD_set_self hj]
      exact hlo a (by omega)
    · rw [getD_set_ne hbj]
      exact pairwise_getD_lt h hab hb

theorem mem_set_sub {keys : List Int} {j : Nat} {u x : Int} (hj : j < keys.length)
    (h : x ∈ keys.set j u) : x = u ∨ x ∈ keys := by
  rw [List.set_eq_take_cons_drop _ hj] at h
  simp only [List.mem_append, List.mem_cons] at h
  rcases h with h | h | h
  · exact Or.inr ((List.take_sublist _ _).subset h)
  · exact Or.inl h
  · exact Or.inr ((List.drop_sublist _ _).subset h)

/-- Redistribution at the parent: the separator at `j` is replaced by `u` and
the two children around it by nodes well-formed for the windows split at `u`.
This is the parent update common to all four redistribute cases of
`deleteEntry`. -/
theorem replacePair_fields {maxK minK : Nat} {lo hi : Option Int} {d : Nat}
    {keys : List Int} {children : List (BNode V)} {j : Nat}
    (h3 : List.Pairwise (· < ·) keys)
    (h4 : ∀ s ∈ keys, okLoS lo s ∧ okHi hi s)
    (h5 : children.length = keys.length + 1)
    (h6 : ∀ i, i < children.length → i ≠ j → i ≠ j + 1 →
      WFN maxK minK minK (childLo lo keys i) (childHi hi keys i) d
        (children.getD i dfltNode))
    (hj : j < keys.length)
    {a b : BNode V} {u : Int}
    (ha : WFN maxK minK minK (childLo lo keys j) (some u) d a)
    (hb : WFN maxK minK minK (some u) (childHi hi keys (j + 1)) d b)
    (huLo : okLoS (childLo lo keys j) u) (huHi : okHi (childHi hi keys (j + 1)) u) :
    InternalFields maxK minK lo hi d (keys.set j u)
      ((children.set j a).set (j + 1) b) := by
  have hj1 : j + 1 < children.length := by omega
  -- keys left of j stay below u
  have F1 : ∀ i, i < j → keys.getD i 0 < u := by
    intro i hi
    match j, huLo with
    | j' + 1, huLo =>
        rw [childLo_succ] at huLo
        have hlast : keys.getD j' 0 < u := huLo _ rfl
        rcases Nat.lt_or_ge i j' with hi2 | hi2
        · exact lt_trans (pairwise_getD_lt h3 hi2 (by omega)) hlast
        · have : i = j' := by omega
          exact this ▸ hlast
  -- keys right of j stay above u
  have F2 : ∀ i, j < i → i < keys.length → u < keys.getD i 0 := by
    intro i hji hik
    have hjk1 : j + 1 < keys.length := by omega
    have hfirst : u < keys.getD (j + 1) 0 := by
      rw [childHi_lt hi keys hjk1] at huHi
      exact huHi _ rfl
    rcases Nat.lt_or_ge (j + 1) i with hi2 | hi2
    · exact lt_trans hfirst (pairwise_getD_lt h3 hi2 hik)
    · have : i = j + 1 := by omega
      exact this ▸ hfirst
  have F4 : okLoS lo u := by
    match j, huLo with
    | 0, huLo => exact huLo
    | j' + 1, huLo =>
        rw [childLo_succ] at huLo
        intro x hx
        have h1 : okLoS lo (keys.getD j' 0) := (h4 _ (getD_mem (by omega))).1
        exact lt_trans (h1 x hx) (huLo _ rfl)
  have F5 : okHi hi u := by
    by_cases hjk : j + 1 < keys.length
    · intro b hb
      have h1 : okHi hi (keys.getD (j + 1) 0) := (h4 _ (getD_mem hjk)).2
      rw [childHi_lt hi keys hjk] at huHi
      exact lt_trans (huHi _ rfl) (h1 b hb)
    · rw [childHi_ge hi keys hjk] at huHi
      exact huHi
  have F7 : List.Pairwise (· < ·) (keys.set j u) :=
    pairwise_set_sorted h3 hj F1 F2
  have F8 : ∀ x ∈ keys.set j u, okLoS lo x ∧ okHi hi x := by
    intro x hx
    rcases mem_set_sub hj hx with rfl | hx
    · exact ⟨F4, F5⟩
    · exact h4 x hx
  refine ⟨F7, F8, by simp; omega, ?_⟩
  intro i hilen
  simp only [List.length_set] at hilen
  rcases Nat.lt_trichotomy i j with hc | heq | hc
  · -- untouched child left of the pair
    rw [getD_set_ne (by omega), getD_set_ne (by omega)]
    have hwin1 : childLo lo (keys.set j u) i = childLo lo keys i := by
      match i with
      | 0 => rfl
      | i' + 1 => rw [childLo_succ, childLo_succ, getD_set_ne (by omega)]
    have hwin2 : childHi hi (keys.set j u) i = childHi hi keys i := by
      rw [childHi_lt _ _ (by simp; omega), childHi_lt _ _ (by omega),
          getD_set_ne (by omega)]
    rw [hwin1, hwin2]
    exact h6 i hilen (by omega) (by omega)
  · -- the node receiving from the left / giving to the right
    subst heq
    rw [getD_set_ne (by omega), getD_set_self (by omega)]
    have hwin1 : childLo lo (keys.set i u) i = childLo lo keys i := by
      match i with
      | 0 => rfl
      | i' + 1 => rw [childLo_succ, childLo_succ, getD_set_ne (by omega)]
    have hwin2 : childHi hi (keys.set i u) i = some u := by
      rw [childHi_lt _ _ (by simp; omega), getD_set_self hj]
    rw [hwin1, hwin2]
    exact ha
  · rcases Nat.eq_or_lt_of_le hc with heq2 | hc2
    · -- the partner child at j + 1
      have heq3 : i = j + 1 := heq2.symm
      subst heq3
      rw [getD_set_self (by simp; omega)]
      have hwin1 : childLo lo (keys.set j u) (j + 1) = some u := by
        rw [childLo_succ, getD_set_self hj]
      have hwin2 : childHi hi (keys.set j u) (j + 1) = childHi hi keys (j + 1) := by
        by_cases hjk : j + 1 < keys.length
        · rw [childHi_lt _ _ (by simp; omega), childHi_lt _ _ hjk, getD_set_ne (by omega)]
        · rw [childHi_ge _ _ (by simp; omega), childHi_ge _ _ hjk]
      rw [hwin1, hwin2]
      exact hb
    · -- untouched child right of the pair
      obtain ⟨i', rfl⟩ : ∃ i', i = i' + 2 := ⟨i - 2, by omega⟩
      rw [getD_set_ne (by omega), getD_set_ne (by omega)]
      have hwin1 : childLo lo (keys.set j u) (i' + 2) = childLo lo keys (i' + 2) := by
        rw [childLo_succ, childLo_succ, getD_set_ne (by omega)]
      have hwin2 : childHi hi (keys.set j u) (i' + 2) = childHi hi keys (i' + 2) := by
        by_cases hik : i' + 2 < keys.length
        · rw [childHi_lt _ _ (by simp; omega), childHi_lt _ _ hik, getD_set_ne (by omega)]
        · rw [childHi_ge _ _ (by simp; omega), childHi_ge _ _ hik]
      rw [hwin1, hwin2]
      exact h6 (i' + 2) hilen (by omega) (by omega)

/-- Merge at the parent: the separator at `j` disappears and the two children
around it are replaced by one node well-formed for the union of their windows.
This is the parent update of `mergeNodes` (`removeKeyAt` plus
`removeChildAt`). -/
theorem mergePair_fields {maxK minK : Nat} {lo hi : Option Int} {d : Nat}
    {keys : List Int} {children : List (BNode V)} {j : Nat}
    (h3 : List.Pairwise (· < ·) keys)
    (h4 : ∀ s ∈ keys, okLoS lo s ∧ okHi hi s)
    (h5 : children.length = keys.length + 1)
    (h6 : ∀ i, i < children.length → i ≠ j → i ≠ j + 1 →
      WFN maxK minK minK (childLo lo keys i) (childHi hi keys i) d
        (children.getD i dfltNode))
    (hj : j < keys.length)
    {m : BNode V}
    (hm : WFN maxK minK minK (childLo lo keys j) (childHi hi keys (j + 1)) d m) :
    InternalFields maxK minK lo hi d (keys.eraseIdx j)
      ((children.set j m).eraseIdx (j + 1)) ∧
    (keys.eraseIdx j).length + 1 = keys.length := by
  have hj1 : j + 1 < children.length := by omega
  have hkl : (keys.eraseIdx j).length = keys.length - 1 := length_eraseIdx' keys j hj
  have hcl : ((children.set j m).eraseIdx (j + 1)).length = children.length - 1 := by
    rw [length_eraseIdx' _ _ (by simp; omega)]
    simp
  refine ⟨⟨h3.sublist (List.eraseIdx_sublist keys j), ?_, by omega, ?_⟩, by omega⟩
  · intro s hs
    exact h4 s ((List.eraseIdx_sublist keys j).subset hs)
  · intro i hilen
    rw [hcl] at hilen
    rcases Nat.lt_trichotomy i j with hc | heq | hc
    · -- untouched child left of the merge
      rw [getD_eraseIdx_lt (by omega), getD_set_ne (by omega)]
      have hwin1 : childLo lo (keys.eraseIdx j) i = childLo lo keys i := by
        match i with
        | 0 => rfl
        | i' + 1 => rw [childLo_succ, childLo_succ, getD_eraseIdx_lt (by omega)]
      have hwin2 : childHi hi (keys.eraseIdx j) i = childHi hi keys i := by
        rw [childHi_lt _ _ (by omega), childHi_lt _ _ (by omega),
            getD_eraseIdx_lt (by omega)]
      rw [hwin1, hwin2]
      exact h6 i (by omega) (by omega) (by omega)
    · -- the merged node
      subst heq
      rw [getD_eraseIdx_lt (by omega), getD_set_self (by omega)]
      have hwin1 : childLo lo (keys.eraseIdx i) i = childLo lo keys i := by
        match i with
        | 0 => rfl
        | i' + 1 => rw [childLo_succ, childLo_succ, getD_eraseIdx_lt (by omega)]
      have hwin2 : childHi hi (keys.eraseIdx i) i = childHi hi keys (i + 1) := by
        by_cases hik : i + 1 < keys.length
        · rw [childHi_lt _ _ (by omega), childHi_lt _ _ hik,
              getD_eraseIdx_ge (by omega) hj]
        · rw [childHi_ge _ _ (by omega), childHi_ge _ _ hik]
      rw [hwin1, hwin2]
      exact hm
    · -- untouched child right of the merge, shifted down by one
      rw [getD_eraseIdx_ge (by omega) (by simp; omega), getD_set_ne (by omega)]
      obtain ⟨i', rfl⟩ : ∃ i', i = i' + 1 := ⟨i - 1, by omega⟩
      have hwin1 : childLo lo (keys.eraseIdx j) (i' + 1) = childLo lo keys (i' + 2) := by
        rw [childLo_succ, childLo_succ, getD_eraseIdx_ge (by omega) hj]
      have hwin2 : childHi hi (keys.eraseIdx j) (i' + 1) = childHi hi keys (i' + 2) := by
        by_cases hik : i' + 2 < keys.length
        · rw [childHi_lt _ _ (by omega), childHi_lt _ _ hik,
              getD_eraseIdx_ge (by omega) hj]
        · rw [childHi_ge _ _ (by omega), childHi_ge _ _ hik]
      rw [hwin1, hwin2]
      exact h6 (i' + 2) (by omega) (by omega) (by omega)

theorem getD_fst (es : List (Int × V)) (j : Nat) (dp : Int × V) (d0 : Int)
    (h : j < es.length) :
    (es.getD j dp).1 = (es.map Prod.fst).getD j d0 := by
  rw [getD_eq_getElem _ _ _ h, getD_eq_getElem _ _ _ (by simpa using h)]
  simp

theorem getLast?_eq_getD {α : Type _} {l : List α} {a : α} (d : α)
    (h : l.getLast? = some a) :
    0 < l.length ∧ a = l.getD (l.length - 1) d := by
  induction l with
  | nil => simp at h
  | cons x t ih =>
      match t with
      | [] =>
          simp at h
          subst h
          exact ⟨by simp, by simp⟩
      | y :: t' =>
          rw [List.getLast?_cons_cons] at h
          obtain ⟨h1, h2⟩ := ih h
          refine ⟨by simp, ?_⟩
          simpa using h2

theorem dropLast_eq_take' {α : Type _} (l : List α) : l.dropLast = l.take (l.length - 1) := by
  rw [List.dropLast_eq_take]

/-- The separator `keys[j]` lies strictly below the upper window bound of
child `j + 1`. -/
theorem sep_okHi_childHi {hi : Option Int} {keys : List Int}
    (h3 : List.Pairwise (· < ·) keys)
    {j : Nat} (hj : j < keys.length)
    (h4' : ∀ s ∈ keys, okHi hi s) :
    okHi (childHi hi keys (j + 1)) (keys.getD j 0) := by
  by_cases hk : j + 1 < keys.length
  · rw [childHi_lt hi keys hk]
    intro b hb
    simp only [Option.mem_def, Option.some.injEq] at hb
    subst hb
    exact pairwise_getD_lt h3 (by omega) hk
  · rw [childHi_ge hi keys hk]
    exact h4' _ (getD_mem hj)

/-- The separator `keys[j]` lies strictly above the lower window bound of
child `j`. -/
theorem sep_okLoS_childLo {lo : Option Int} {keys : List Int}
    (h3 : List.Pairwise (· < ·) keys)
    {j : Nat} (hj : j < keys.length)
    (h4 : ∀ s ∈ keys, okLoS lo s) :
    okLoS (childLo lo keys j) (keys.getD j 0) := by
  match j with
  | 0 => exact h4 _ (getD_mem hj)
  | j' + 1 =>
      rw [childLo_succ]
      intro a ha
      simp only [Option.mem_def, Option.some.injEq] at ha
      subst ha
      exact pairwise_getD_lt h3 (by omega) hj

/-- Detaching the last separator and last child of an internal node:
`redistributeNodes`' left-sibling update seen from the sibling's side. -/
theorem wfn_snoc_split {maxK minK cmin : Nat} {lo hi : Option Int} {d : Nat}
    {K : List Int} {C : List (BNode V)}
    (h : WFN maxK minK cmin lo hi (d + 1) (.internal K C)) (hne : 1 ≤ K.length) :
    WFN maxK minK (K.length - 1) lo (some (K.getD (K.length - 1) 0)) (d + 1)
      (.internal (K.take (K.length - 1)) (C.take K.length)) ∧
    WFN maxK minK minK (some (K.getD (K.length - 1) 0)) hi d
      (C.getD K.length dfltNode) ∧
    okLoS lo (K.getD (K.length - 1) 0) ∧ okHi hi (K.getD (K.length - 1) 0) := by
  rw [wfn_internal_iff] at h
  obtain ⟨h1, h2, h3, h4, h5, h6⟩ := h
  set m := K.length - 1 with hmdef
  have hKm : K.length = m + 1 := by omega
  have hlast := h4 _ (getD_mem (d := 0) (show m < K.length by omega))
  have hlastC := h6 (m + 1) (by omega)
  refine ⟨?_, ?_, hlast.1, hlast.2⟩
  · rw [wfn_internal_iff]
    refine ⟨by simp; omega, by simp; omega, ?_, ?_, by simp; omega, ?_⟩
    · exact pairwise_take h3 m
    · refine forall_mem_take (d := 0) ?_
      intro j hj hj2
      refine ⟨(h4 _ (getD_mem hj2)).1, ?_⟩
      intro b hb
      simp only [Option.mem_def, Option.some.injEq] at hb
      subst hb
      exact pairwise_getD_lt h3 hj (by omega)
    · intro i hilen
      have hilen2 : i < m + 1 := by
        simp only [List.length_take] at hilen
        omega
      rw [getD_take_lt (show i < K.length by omega)]
      have hwin1 : childLo lo (K.take m) i = childLo lo K i := by
        match i with
        | 0 => rfl
        | j + 1 => rw [childLo_succ, childLo_succ, getD_take_lt (by omega)]
      have hwin2 : childHi (some (K.getD m 0)) (K.take m) i = childHi hi K i := by
        by_cases him : i < m
        · rw [childHi_lt _ _ (by simp; omega), childHi_lt _ _ (by omega),
              getD_take_lt him]
        · have : i = m := by omega
          subst this
          rw [childHi_ge _ _ (by simp only [List.length_take]; omega),
              childHi_lt _ _ (by omega)]
      rw [hwin1, hwin2]
      exact h6 i (by omega)
  · have hwin1 : childLo lo K (m + 1) = some (K.getD m 0) := childLo_succ lo K m
    have hwin2 : childHi hi K (m + 1) = hi := childHi_ge hi K (by omega)
    rw [hwin1, hwin2] at hlastC
    rw [hKm]
    exact hlastC

/-- Appending a separator and one more child on the right of an internal node:
`redistributeNodes`' right-sibling update seen from the node's side. -/
theorem wfn_snoc_glue {maxK minK cmin : Nat} {lo hi : Option Int} {d : Nat}
    {K : List Int} {C : List (BNode V)} {s : Int} {c : BNode V}
    (hn : WFN maxK minK cmin lo (some s) (d + 1) (.internal K C))
    (hc : WFN maxK minK minK (some s) hi d c)
    (hs1 : okLoS lo s) (hs2 : okHi hi s)
    (hlen : K.length + 1 ≤ maxK) :
    WFN maxK minK (K.length + 1) lo hi (d + 1) (.internal (K ++ [s]) (C ++ [c])) := by
  rw [wfn_internal_iff] at hn
  obtain ⟨h1, h2, h3, h4, h5, h6⟩ := hn
  rw [wfn_internal_iff]
  refine ⟨by simp, by simp; omega, ?_, ?_, by simp; omega, ?_⟩
  · rw [List.pairwise_append]
    refine ⟨h3, by simp, ?_⟩
    intro a ha b hb
    simp only [List.mem_singleton] at hb
    rw [hb]
    exact (h4 a ha).2 s rfl
  · intro x hx
    simp only [List.mem_append, List.mem_singleton] at hx
    rcases hx with hx | rfl
    · refine ⟨(h4 x hx).1, ?_⟩
      intro b hb
      exact lt_trans ((h4 x hx).2 s rfl) (hs2 b hb)
    · exact ⟨hs1, hs2⟩
  · intro i hilen
    simp only [List.length_append, List.length_singleton] at hilen
    have hKlen : (K ++ [s]).length = K.length + 1 := by simp
    rcases Nat.lt_trichotomy i C.length with hc1 | heq | hc1
    · -- an original child
      rw [List.getD_append _ _ _ _ hc1]
      have hwin1 : childLo lo (K ++ [s]) i = childLo lo K i := by
        match i with
        | 0 => rfl
        | j + 1 => rw [childLo_succ, childLo_succ, List.getD_append _ _ _ _ (by omega)]
      have hwin2 : childHi hi (K ++ [s]) i = childHi (some s) K i := by
        by_cases hik : i < K.length
        · rw [childHi_lt _ _ (by simp; omega), childHi_lt _ _ hik,
              List.getD_append _ _ _ _ hik]
        · have : i = K.length := by omega
          subst this
          rw [childHi_lt _ _ (by simp), childHi_ge _ _ (by omega)]
          rw [List.getD_append_right _ _ _ _ (by omega)]
          simp
      rw [hwin1, hwin2]
      exact h6 i hc1
    · -- the appended child
      subst heq
      rw [List.getD_append_right _ _ _ _ (by omega)]
      simp only [Nat.sub_self, List.getD_cons_zero]
      have hwin1 : childLo lo (K ++ [s]) C.length = some s := by
        have : C.length = K.length + 1 := h5
        rw [this, childLo_succ, List.getD_append_right _ _ _ _ (by omega)]
        simp
      have hwin2 : childHi hi (K ++ [s]) C.length = hi := by
        rw [childHi_ge _ _ (by simp; omega)]
      rw [hwin1, hwin2]
      exact hc
    · omega

/-- Concatenating two sibling internal nodes around their parent separator:
`mergeNodes` on internal nodes. -/
theorem wfn_merge_glue {maxK minK cminL cminR : Nat} {lo hi : Option Int} {d : Nat}
    {K1 K2 : List Int} {C1 C2 : List (BNode V)} {sep : Int}
    (hL : WFN maxK minK cminL lo (some sep) (d + 1) (.internal K1 C1))
    (hR : WFN maxK minK cminR (some sep) hi (d + 1) (.internal K2 C2))
    (hs1 : okLoS lo sep) (hs2 : okHi hi sep)
    (hlen : K1.length + K2.length + 1 ≤ maxK) :
    WFN maxK minK (K1.length + K2.length + 1) lo hi (d + 1)
      (.internal (K1 ++ sep :: K2) (C1 ++ C2)) := by
  rw [wfn_internal_iff] at hL hR
  obtain ⟨hL1, hL2, hL3, hL4, hL5, hL6⟩ := hL
  obtain ⟨hR1, hR2, hR3, hR4, hR5, hR6⟩ := hR
  have hn1 : C1.length = K1.length + 1 := hL5
  have hn2 : C2.length = K2.length + 1 := hR5
  rw [wfn_internal_iff]
  refine ⟨by simp only [List.length_append, List.length_cons]; omega,
    by simp only [List.length_append, List.length_cons]; omega, ?_, ?_,
    by simp only [List.length_append, List.length_cons]; omega, ?_⟩
  · rw [List.pairwise_append]
    refine ⟨hL3, ?_, ?_⟩
    · exact List.pairwise_cons.mpr ⟨fun x hx => (hR4 x hx).1 sep rfl, hR3⟩
    · intro a ha b hb
      have haS : a < sep := (hL4 a ha).2 sep rfl
      simp only [List.mem_cons] at hb
      rcases hb with rfl | hb
      · exact haS
      · exact lt_trans haS ((hR4 b hb).1 sep rfl)
  · intro x hx
    simp only [List.mem_append, List.mem_cons] at hx
    rcases hx with hx | rfl | hx
    · exact ⟨(hL4 x hx).1, fun b hb => lt_trans ((hL4 x hx).2 sep rfl) (hs2 b hb)⟩
    · exact ⟨hs1, hs2⟩
    · exact ⟨fun a ha => lt_trans (hs1 a ha) ((hR4 x hx).1 sep rfl),
        (hR4 x hx).2⟩
  · intro i hilen
    simp only [List.length_append] at hilen
    have hKlen : (K1 ++ sep :: K2).length = K1.length + K2.length + 1 := by
      simp only [List.length_append, List.length_cons]
      omega
    rcases Nat.lt_trichotomy i K1.length with hc1 | heq | hc1
    · -- a child of the left node, not its last
      rw [List.getD_append _ _ _ _ (by omega)]
      have hwin1 : childLo lo (K1 ++ sep :: K2) i = childLo lo K1 i := by
        match i with
        | 0 => rfl
        | j + 1 => rw [childLo_succ, childLo_succ, List.getD_append _ _ _ _ (by omega)]
      have hwin2 : childHi hi (K1 ++ sep :: K2) i = childHi (some sep) K1 i := by
        rw [childHi_lt _ _ (by omega), childHi_lt _ _ hc1,
            List.getD_append _ _ _ _ hc1]
      rw [hwin1, hwin2]
      exact hL6 i (by omega)
    · -- the last child of the left node
      subst heq
      rw [List.getD_append _ _ _ _ (by omega)]
      have hwin1 : childLo lo (K1 ++ sep :: K2) K1.length = childLo lo K1 K1.length := by
        match h : K1.length with
        | 0 => rfl
        | j + 1 => rw [childLo_succ, childLo_succ, List.getD_append _ _ _ _ (by omega)]
      have hwin2 : childHi hi (K1 ++ sep :: K2) K1.length = some sep := by
        rw [childHi_lt _ _ (by omega), List.getD_append_right _ _ _ _ (by omega)]
        simp
      rw [hwin1, hwin2]
      have := hL6 K1.length (by omega)
      rwa [childHi_ge _ _ (by omega)] at this
    · -- a child of the right node
      obtain ⟨j, rfl⟩ : ∃ j, i = K1.length + 1 + j := ⟨i - K1.length - 1, by omega⟩
      rw [List.getD_append_right _ _ _ _ (by omega)]
      have hidx : K1.length + 1 + j - C1.length = j := by omega
      rw [hidx]
      have hwin1 : childLo lo (K1 ++ sep :: K2) (K1.length + 1 + j) =
          childLo (some sep) K2 j := by
        match j with
        | 0 =>
            have : K1.length + 1 + 0 = K1.length + 1 := by omega
            rw [this, childLo_succ, List.getD_append_right _ _ _ _ (by omega)]
            simp [childLo]
        | j' + 1 =>
            have : K1.length + 1 + (j' + 1) = (K1.length + 1 + j') + 1 := by omega
            rw [this, childLo_succ, childLo_succ,
                List.getD_append_right _ _ _ _ (by omega)]
            have : K1.length + 1 + j' - K1.length = j' + 1 := by omega
            rw [this]
            simp
      have hwin2 : childHi hi (K1 ++ sep :: K2) (K1.length + 1 + j) =
          childHi hi K2 j := by
        by_cases hjk : j < K2.length
        · rw [childHi_lt _ _ (by omega), childHi_lt _ _ hjk,
              List.getD_append_right _ _ _ _ (by omega)]
          have : K1.length + 1 + j - K1.length = j + 1 := by omega
          rw [this]
          simp
        · rw [childHi_ge _ _ (by omega), childHi_ge _ _ hjk]
      rw [hwin1, hwin2]
      exact hR6 j (by omega)

theorem wfn_leaf_iff {maxK minK cmin : Nat} {lo hi : Option Int}
    {entries : List (Int × V)} :
    WFN maxK minK cmin lo hi 0 (.leaf entries) ↔
      cmin ≤ entries.length ∧ entries.length ≤ maxK ∧
      List.Pairwise (· < ·) (entries.map Prod.fst) ∧
      (∀ p ∈ entries, okLo lo p.1 ∧ okHi hi p.1) := by
  constructor
  · intro h
    cases h with
    | leaf cmin lo hi entries h1 h2 h3 h4 => exact ⟨h1, h2, h3, h4⟩
  · intro ⟨h1, h2, h3, h4⟩
    exact .leaf cmin lo hi entries h1 h2 h3 h4

/-- `redistributeNodes` with a surplus left sibling: the node regains a
minimal key count, the sibling stays above the minimum, and the key moved
through the parent separates the two windows. -/
theorem redistribute_left_spec {maxK minK : Nat} (hmin : 1 ≤ minK)
    {L H : Option Int} {sep : Int} {d : Nat} {node sib : BNode V}
    (hsib : WFN maxK minK minK L (some sep) d sib)
    (hnode : WFN maxK minK (minK - 1) (some sep) H d node)
    (hnC : nodeCount node = minK - 1)
    (hsC : minK < nodeCount sib)
    (hsepH : okHi H sep) :
    ∃ nd sb u, redistribute node sib sep true = (nd, sb, u) ∧
      WFN maxK minK minK L (some u) d sb ∧
      WFN maxK minK minK (some u) H d nd ∧
      okLoS L u ∧ okHi H u ∧
      contents sb ++ contents nd = contents sib ++ contents node := by
  match d with
  | 0 =>
      obtain ⟨sE, rfl⟩ : ∃ sE, sib = .leaf sE := by cases hsib; exact ⟨_, rfl⟩
      obtain ⟨nE, rfl⟩ : ∃ nE, node = .leaf nE := by cases hnode; exact ⟨_, rfl⟩
      rw [wfn_leaf_iff] at hsib hnode
      obtain ⟨s1, s2, s3, s4⟩ := hsib
      obtain ⟨n1, n2, n3, n4⟩ := hnode
      simp only [nodeCount] at hnC hsC
      have hne : sE ≠ [] := by
        intro h
        subst h
        simp only [List.length_nil] at hsC
        omega
      obtain ⟨p, hgl⟩ := Option.isSome_iff_exists.mp (List.getLast?_isSome.mpr hne)
      obtain ⟨hpos, hpval⟩ := getLast?_eq_getD p hgl
      set m := sE.length - 1 with hmdef
      have hmlt : m < sE.length := by omega
      have hm1 : 1 ≤ m := by omega
      have hpmem : p ∈ sE := hpval ▸ getD_mem hmlt
      have hpfst : p.1 = (sE.map Prod.fst).getD m 0 := by
        rw [hpval]
        exact getD_fst sE m p 0 hmlt
      have hred : redistribute (BNode.leaf nE) (BNode.leaf sE) sep true =
          (.leaf (p :: nE), .leaf sE.dropLast, p.1) := by
        simp only [redistribute, if_true, hgl]
      refine ⟨_, _, _, hred, ?_, ?_, ?_, ?_, ?_⟩
      · -- the shrunken sibling
        rw [wfn_leaf_iff, dropLast_eq_take']
        refine ⟨by simp only [List.length_take]; omega,
          by simp only [List.length_take]; omega, ?_, ?_⟩
        · rw [List.map_take]
          exact pairwise_take s3 _
        · refine forall_mem_take (d := p) ?_
          intro j hj hj2
          refine ⟨(s4 _ (getD_mem hj2)).1, ?_⟩
          intro b hb
          simp only [Option.mem_def, Option.some.injEq] at hb
          subst hb
          rw [getD_fst sE j p 0 hj2, hpfst]
          exact pairwise_getD_lt s3 hj (by simpa using hmlt)
      · -- the replenished node
        rw [wfn_leaf_iff]
        have hpsep : p.1 < sep := (s4 p hpmem).2 sep rfl
        refine ⟨by simp; omega, by simp; omega, ?_, ?_⟩
        · rw [List.map_cons]
          refine List.pairwise_cons.mpr ⟨?_, n3⟩
          intro x hx
          obtain ⟨q, hq, rfl⟩ := List.mem_map.mp hx
          exact lt_of_lt_of_le hpsep ((n4 q hq).1 sep rfl)
        · intro q hq
          simp only [List.mem_cons] at hq
          rcases hq with rfl | hq
          · exact ⟨fun a ha => by simp at ha; omega,
              fun b hb => lt_trans hpsep (hsepH b hb)⟩
          · exact ⟨fun a ha => by
              simp only [Option.mem_def, Option.some.injEq] at ha
              subst ha
              exact le_of_lt (lt_of_lt_of_le hpsep ((n4 q hq).1 sep rfl)),
              (n4 q hq).2⟩
      · -- the moved key clears the sibling's old window from below
        intro a ha
        have hfirst : okLo L (sE.getD 0 p).1 := (s4 _ (getD_mem (by omega))).1
        have hlt : (sE.getD 0 p).1 < p.1 := by
          rw [getD_fst sE 0 p 0 (by omega), hpfst]
          exact pairwise_getD_lt s3 (by omega) (by simpa using hmlt)
        exact lt_of_le_of_lt (hfirst a ha) hlt
      · -- and from above
        intro b hb
        exact lt_trans ((s4 p hpmem).2 sep rfl) (hsepH b hb)
      · -- contents are preserved (as a pair)
        rw [contents_leaf, contents_leaf, contents_leaf, contents_leaf,
            dropLast_eq_take']
        have hsplit : sE.take m ++ [p] = sE := by
          conv_rhs => rw [← List.take_append_drop m sE]
          congr 1
          rw [drop_eq_getD_cons (d := p) hmlt]
          have : sE.drop (m + 1) = [] := by
            rw [List.drop_eq_nil_iff]
            omega
          rw [this, ← hpval]
        calc sE.take m ++ p :: nE = (sE.take m ++ [p]) ++ nE := by
              rw [List.append_assoc]
              rfl
          _ = sE ++ nE := by rw [hsplit]
  | d' + 1 =>
      obtain ⟨sK, sC, rfl⟩ : ∃ sK sC, sib = .internal sK sC := by
        cases hsib; exact ⟨_, _, rfl⟩
      obtain ⟨nK, nC, rfl⟩ : ∃ nK nC, node = .internal nK nC := by
        cases hnode; exact ⟨_, _, rfl⟩
      have hsC5 : sC.length = sK.length + 1 := by
        cases hsib with
        | internal cmin lo hi d keys children h1 h2 h3 h4 h5 h6 => exact h5
      have hsKmax : sK.length ≤ maxK := (wfn_count_bounds hsib).2
      simp only [nodeCount] at hnC hsC
      have hneK : sK ≠ [] := by
        intro h
        subst h
        simp only [List.length_nil] at hsC
        omega
      have hneC : sC ≠ [] := by
        intro h
        subst h
        simp at hsC5
      obtain ⟨sk, hglK⟩ := Option.isSome_iff_exists.mp (List.getLast?_isSome.mpr hneK)
      obtain ⟨sc, hglC⟩ := Option.isSome_iff_exists.mp (List.getLast?_isSome.mpr hneC)
      obtain ⟨hposK, hskval⟩ := getLast?_eq_getD 0 hglK
      obtain ⟨hposC, hscval⟩ := getLast?_eq_getD dfltNode hglC
      have hscval2 : sc = sC.getD sK.length dfltNode := by
        rw [hscval]
        congr 1
        omega
      have hred : redistribute (BNode.internal nK nC) (BNode.internal sK sC) sep true =
          (.internal (sep :: nK) (sc :: nC), .internal sK.dropLast sC.dropLast, sk) := by
        simp only [redistribute, if_true, hglK, hglC]
      obtain ⟨W1, W2, W3, W4⟩ := wfn_snoc_split hsib (by omega)
      rw [← hskval] at W1 W2 W3 W4
      rw [← hscval2] at W2
      refine ⟨_, _, _, hred, ?_, ?_, W3, ?_, ?_⟩
      · -- the shrunken sibling
        rw [dropLast_eq_take', dropLast_eq_take']
        have hCl : sC.length - 1 = sK.length := by omega
        rw [hCl]
        exact wfn_relax_cmin W1 (by omega)
      · -- the replenished node
        have hglue := @wfn_cons_glue _ _ _ (some sk) H d' sep nK sc nC
          (fun a ha => by
            simp only [Option.mem_def, Option.some.injEq] at ha
            subst ha
            exact W4 sep rfl)
          hsepH W2 (wfn_relax_cmin hnode (by omega)) (by omega)
        exact wfn_raise_cmin hglue (by simp [nodeCount]; omega)
      · -- the promoted key clears the node's window from above
        intro b hb
        exact lt_trans (W4 sep rfl) (hsepH b hb)
      · -- contents are preserved (as a pair)
        have hCd : sC.dropLast = sC.take sK.length := by
          rw [dropLast_eq_take', hsC5]
          simp
        have hdec := flatten_map_decomp sC sK.length (by omega)
        have hnil : sC.drop (sK.length + 1) = [] := by
          rw [List.drop_eq_nil_iff]
          omega
        rw [hnil] at hdec
        simp only [List.map_nil, List.flatten_nil, List.append_nil] at hdec
        rw [contents_internal, contents_internal, contents_internal, contents_internal,
            hCd, hdec, ← hscval2]
        simp [List.append_assoc]

/-- `redistributeNodes` with a surplus right sibling: symmetric to the left
case, with the sibling's new first key promoted into the parent. -/
theorem redistribute_right_spec {maxK minK : Nat} (hmin : 1 ≤ minK)
    {L H : Option Int} {sep : Int} {d : Nat} {node sib : BNode V}
    (hnode : WFN maxK minK (minK - 1) L (some sep) d node)
    (hsib : WFN maxK minK minK (some sep) H d sib)
    (hnC : nodeCount node = minK - 1)
    (hsC : minK < nodeCount sib)
    (hsepL : okLoS L sep) :
    ∃ nd sb u, redistribute node sib sep false = (nd, sb, u) ∧
      WFN maxK minK minK L (some u) d nd ∧
      WFN maxK minK minK (some u) H d sb ∧
      okLoS L u ∧ okHi H u ∧
      contents nd ++ contents sb = contents node ++ contents sib := by
  match d with
  | 0 =>
      obtain ⟨sE, rfl⟩ : ∃ sE, sib = .leaf sE := by cases hsib; exact ⟨_, rfl⟩
      obtain ⟨nE, rfl⟩ : ∃ nE, node = .leaf nE := by cases hnode; exact ⟨_, rfl⟩
      rw [wfn_leaf_iff] at hsib hnode
      obtain ⟨s1, s2, s3, s4⟩ := hsib
      obtain ⟨n1, n2, n3, n4⟩ := hnode
      simp only [nodeCount] at hnC hsC
      match sE, s1, s2, s3, s4, hsC with
      | [], _, _, _, _, hsC =>
          simp only [List.length_nil] at hsC
          omega
      | [p], _, _, _, _, hsC =>
          simp only [List.length_cons, List.length_nil] at hsC
          omega
      | p :: p2 :: rest', s1, s2, s3, s4, hsC =>
          have hp : p ∈ p :: p2 :: rest' := by simp
          have hp2 : p2 ∈ p :: p2 :: rest' := by simp
          have hpsep : sep ≤ p.1 := (s4 p hp).1 sep rfl
          have hp12 : p.1 < p2.1 := by
            have := (List.pairwise_cons.mp s3).1 p2.1 (by simp)
            exact this
          have hred : redistribute (BNode.leaf nE) (BNode.leaf (p :: p2 :: rest')) sep
              false = (.leaf (nE ++ [p]), .leaf (p2 :: rest'), p2.1) := rfl
          refine ⟨_, _, _, hred, ?_, ?_, ?_, ?_, ?_⟩
          · -- the replenished node
            rw [wfn_leaf_iff]
            refine ⟨by simp; omega, by simp at hsC ⊢; omega, ?_, ?_⟩
            · rw [List.map_append]
              rw [List.pairwise_append]
              refine ⟨n3, by simp, ?_⟩
              intro a ha b hb
              simp only [List.map_cons, List.map_nil, List.mem_singleton] at hb
              subst hb
              obtain ⟨q, hq, rfl⟩ := List.mem_map.mp ha
              exact lt_of_lt_of_le ((n4 q hq).2 sep rfl) hpsep
            · intro q hq
              simp only [List.mem_append, List.mem_singleton] at hq
              rcases hq with hq | rfl
              · refine ⟨(n4 q hq).1, ?_⟩
                intro b hb
                simp only [Option.mem_def, Option.some.injEq] at hb
                subst hb
                exact lt_of_lt_of_le ((n4 q hq).2 sep rfl) (le_of_lt (lt_of_le_of_lt hpsep hp12))
              · refine ⟨?_, ?_⟩
                · intro a ha
                  exact le_of_lt (lt_of_lt_of_le (hsepL a ha) hpsep)
                · intro b hb
                  simp only [Option.mem_def, Option.some.injEq] at hb
                  subst hb
                  exact hp12
          · -- the shrunken sibling
            rw [wfn_leaf_iff]
            refine ⟨by simp at hsC ⊢; omega, by simp at s2 ⊢; omega, ?_, ?_⟩
            · exact (List.pairwise_cons.mp (by simpa using s3)).2
            · intro q hq
              refine ⟨?_, (s4 q (by simp [List.mem_cons.mp hq])).2⟩
              intro a ha
              simp only [Option.mem_def, Option.some.injEq] at ha
              subst ha
              rcases List.mem_cons.mp hq with rfl | hq2
              · exact le_refl _
              · have hpw := List.pairwise_cons.mp (List.pairwise_cons.mp s3).2
                exact le_of_lt (hpw.1 q.1 (List.mem_map_of_mem Prod.fst hq2))
          · -- the promoted key clears the node's window from below
            intro a ha
            exact lt_trans (lt_of_lt_of_le (hsepL a ha) hpsep) hp12
          · -- and the sibling's old window from above
            exact (s4 p2 hp2).2
          · -- contents are preserved (as a pair)
            rw [contents_leaf, contents_leaf, contents_leaf, contents_leaf]
            rw [List.append_assoc]
            rfl
  | d' + 1 =>
      obtain ⟨sK, sC, rfl⟩ : ∃ sK sC, sib = .internal sK sC := by
        cases hsib; exact ⟨_, _, rfl⟩
      obtain ⟨nK, nC, rfl⟩ : ∃ nK nC, node = .internal nK nC := by
        cases hnode; exact ⟨_, _, rfl⟩
      have hsC5 : sC.length = sK.length + 1 := by
        cases hsib with
        | internal cmin lo hi d keys children h1 h2 h3 h4 h5 h6 => exact h5
      have hsKmax : sK.length ≤ maxK := (wfn_count_bounds hsib).2
      simp only [nodeCount] at hnC hsC
      match sK, sC, hsib, hsC, hsC5, hsKmax with
      | sk :: restK, sc :: restC, hsib, hsC, hsC5, hsKmax =>
          obtain ⟨X1, X2, X3, X4⟩ := wfn_cons_split hsib
          have hred : redistribute (BNode.internal nK nC)
              (BNode.internal (sk :: restK) (sc :: restC)) sep false =
              (.internal (nK ++ [sep]) (nC ++ [sc]), .internal restK restC, sk) := by
            simp only [redistribute, if_false, Bool.false_eq_true]
          refine ⟨_, _, _, hred, ?_, ?_, ?_, X2, ?_⟩
          · -- the replenished node
            have hglue := wfn_snoc_glue (s := sep) (c := sc)
              (wfn_relax_cmin hnode (Nat.zero_le _)) X3 hsepL
              (fun b hb => by
                simp only [Option.mem_def, Option.some.injEq] at hb
                subst hb
                exact X1 sep rfl)
              (by simp at hsC; omega)
            exact wfn_raise_cmin hglue (by simp [nodeCount]; omega)
          · -- the shrunken sibling
            have hcnt : minK ≤ restK.length := by simp at hsC; omega
            exact wfn_raise_cmin X4 (by simpa [nodeCount] using hcnt)
          · -- the promoted key clears the node's window from below
            intro a ha
            exact lt_trans (hsepL a ha) (X1 sep rfl)
          · -- contents are preserved (as a pair)
            rw [contents_internal, contents_internal, contents_internal,
              contents_internal]
            simp [List.append_assoc]

/-- `mergeNodes`: concatenating two siblings (around the parent separator for
internal nodes) yields one well-formed node covering both windows, holding the
concatenation of their contents. -/
theorem merge_spec {maxK minK cminL cminR : Nat}
    {L H : Option Int} {sep : Int} {d : Nat} {left right : BNode V}
    (hL : WFN maxK minK cminL L (some sep) d left)
    (hR : WFN maxK minK cminR (some sep) H d right)
    (hs1 : okLoS L sep) (hs2 : okHi H sep)
    (hcnt : nodeCount left + nodeCount right + 1 ≤ maxK)
    (hcnt2 : minK ≤ nodeCount left + nodeCount right) :
    WFN maxK minK minK L H d (mergeTwo left right sep) ∧
    contents (mergeTwo left right sep) = contents left ++ contents right := by
  match d with
  | 0 =>
      obtain ⟨lE, rfl⟩ : ∃ lE, left = .leaf lE := by cases hL; exact ⟨_, rfl⟩
      obtain ⟨rE, rfl⟩ : ∃ rE, right = .leaf rE := by cases hR; exact ⟨_, rfl⟩
      rw [wfn_leaf_iff] at hL hR
      obtain ⟨l1, l2, l3, l4⟩ := hL
      obtain ⟨r1, r2, r3, r4⟩ := hR
      simp only [nodeCount] at hcnt hcnt2
      have hmerge : mergeTwo (BNode.leaf lE) (BNode.leaf rE) sep = .leaf (lE ++ rE) := rfl
      rw [hmerge]
      refine ⟨?_, by rw [contents_leaf, contents_leaf, contents_leaf]⟩
      rw [wfn_leaf_iff]
      refine ⟨by simp; omega, by simp; omega, ?_, ?_⟩
      · rw [List.map_append, List.pairwise_append]
        refine ⟨l3, r3, ?_⟩
        intro a ha b hb
        obtain ⟨q, hq, rfl⟩ := List.mem_map.mp ha
        obtain ⟨q', hq', rfl⟩ := List.mem_map.mp hb
        exact lt_of_lt_of_le ((l4 q hq).2 sep rfl) ((r4 q' hq').1 sep rfl)
      · intro q hq
        rcases List.mem_append.mp hq with hq | hq
        · refine ⟨(l4 q hq).1, ?_⟩
          intro b hb
          exact lt_trans ((l4 q hq).2 sep rfl) (hs2 b hb)
        · refine ⟨?_, (r4 q hq).2⟩
          intro a ha
          exact le_of_lt (lt_of_lt_of_le (hs1 a ha) ((r4 q hq).1 sep rfl))
  | d' + 1 =>
      obtain ⟨lK, lC, rfl⟩ : ∃ lK lC, left = .internal lK lC := by
        cases hL; exact ⟨_, _, rfl⟩
      obtain ⟨rK, rC, rfl⟩ : ∃ rK rC, right = .internal rK rC := by
        cases hR; exact ⟨_, _, rfl⟩
      simp only [nodeCount] at hcnt hcnt2
      have hmerge : mergeTwo (BNode.internal lK lC) (BNode.internal rK rC) sep =
          .internal (lK ++ sep :: rK) (lC ++ rC) := rfl
      rw [hmerge]
      have hglue := wfn_merge_glue hL hR hs1 hs2 (by omega)
      refine ⟨wfn_relax_cmin hglue (by omega), ?_⟩
      rw [contents_internal, contents_internal, contents_internal]
      simp

theorem append_middle_congr {α : Type _} (A B : List α) {x y x' y' : List α}
    (h : x ++ y = x' ++ y') : A ++ x ++ y ++ B = A ++ x' ++ y' ++ B := by
  simp only [List.append_assoc]
  rw [← List.append_assoc x y B, ← List.append_assoc x' y' B, h]

/-- `deleteEntry` at the parent of an underflowed child: the sibling fix-up
(redistribute from a surplus sibling, else merge) restores every
internal-node field of the parent, removes at most one parent key, and
preserves the stored entries in order. -/
theorem fixChild_spec {maxK minK : Nat} (hm : minK = maxK / 2) (hmin : 1 ≤ minK)
    {lo hi : Option Int} {d : Nat} {keys : List Int} {children : List (BNode V)}
    {ci : Nat}
    (h3 : List.Pairwise (· < ·) keys)
    (h4 : ∀ s ∈ keys, okLoS lo s ∧ okHi hi s)
    (h5 : children.length = keys.length + 1)
    (h6 : ∀ i, i < children.length → i ≠ ci →
      WFN maxK minK minK (childLo lo keys i) (childHi hi keys i) d
        (children.getD i dfltNode))
    (hciW : WFN maxK minK (minK - 1) (childLo lo keys ci) (childHi hi keys ci) d
      (children.getD ci dfltNode))
    (hciC : nodeCount (children.getD ci dfltNode) = minK - 1)
    (hci : ci < children.length)
    (hk1 : 1 ≤ keys.length) :
    InternalFields maxK minK lo hi d (fixChild minK keys children ci).1
      (fixChild minK keys children ci).2 ∧
    keys.length - 1 ≤ (fixChild minK keys children ci).1.length ∧
    (fixChild minK keys children ci).1.length ≤ keys.length ∧
    ((fixChild minK keys children ci).2.map contents).flatten =
      (children.map contents).flatten := by
  by_cases hA : 0 < ci ∧ minK < countAt children (ci - 1)
  · -- redistribute from the left sibling
    obtain ⟨hA1, hA2⟩ := hA
    obtain ⟨j, rfl⟩ : ∃ j, ci = j + 1 := ⟨ci - 1, by omega⟩
    have hjk : j < keys.length := by omega
    have hHj : childHi hi keys j = some (keys.getD j 0) := childHi_lt hi keys hjk
    have hsib := h6 j (by omega) (by omega)
    rw [hHj] at hsib
    have hnode := hciW
    rw [childLo_succ] at hnode
    have hsC : minK < nodeCount (children.getD j dfltNode) := by
      simpa [countAt] using hA2
    have hsepH : okHi (childHi hi keys (j + 1)) (keys.getD j 0) :=
      sep_okHi_childHi h3 hjk (fun s hs => (h4 s hs).2)
    obtain ⟨nd, sb, u, hred, W1, W2, W3, W4, W5⟩ :=
      redistribute_left_spec hmin hsib hnode hciC hsC hsepH
    have hfix : fixChild minK keys children (j + 1) =
        (keys.set j u, (children.set j sb).set (j + 1) nd) := by
      unfold fixChild
      rw [if_pos ⟨hA1, hA2⟩]
      simp only [Nat.add_sub_cancel, hred]
    have hfix1 : (fixChild minK keys children (j + 1)).1 = keys.set j u := by
      rw [hfix]
    have hfix2 : (fixChild minK keys children (j + 1)).2 =
        (children.set j sb).set (j + 1) nd := by
      rw [hfix]
    rw [hfix1, hfix2]
    refine ⟨?_, by simp, by simp, ?_⟩
    · exact replacePair_fields h3 h4 h5 (fun i hL hij hij1 => h6 i hL hij1) hjk
        W1 W2 W3 W4
    · rw [flatten_map_set2 children j sb nd (by omega),
          flatten_map_decomp2 children j (by omega)]
      exact append_middle_congr _ _ W5
  · by_cases hB : ci < keys.length ∧ minK < countAt children (ci + 1)
    · -- redistribute from the right sibling
      obtain ⟨hB1, hB2⟩ := hB
      have hHci : childHi hi keys ci = some (keys.getD ci 0) := childHi_lt hi keys hB1
      have hnode := hciW
      rw [hHci] at hnode
      have hsib := h6 (ci + 1) (by omega) (by omega)
      rw [childLo_succ] at hsib
      have hsC : minK < nodeCount (children.getD (ci + 1) dfltNode) := by
        simpa [countAt] using hB2
      have hsepL : okLoS (childLo lo keys ci) (keys.getD ci 0) :=
        sep_okLoS_childLo h3 hB1 (fun s hs => (h4 s hs).1)
      obtain ⟨nd, sb, u, hred, W1, W2, W3, W4, W5⟩ :=
        redistribute_right_spec hmin hnode hsib hciC hsC hsepL
      have hfix : fixChild minK keys children ci =
          (keys.set ci u, (children.set ci nd).set (ci + 1) sb) := by
        unfold fixChild
        rw [if_neg hA, if_pos ⟨hB1, hB2⟩]
        simp only [hred]
      have hfix1 : (fixChild minK keys children ci).1 = keys.set ci u := by
        rw [hfix]
      have hfix2 : (fixChild minK keys children ci).2 =
          (children.set ci nd).set (ci + 1) sb := by
        rw [hfix]
      rw [hfix1, hfix2]
      refine ⟨?_, by simp, by simp, ?_⟩
      · exact replacePair_fields h3 h4 h5 (fun i hL hij hij1 => h6 i hL hij) hB1
          W1 W2 W3 W4
      · rw [flatten_map_set2 children ci nd sb (by omega),
            flatten_map_decomp2 children ci (by omega)]
        exact append_middle_congr _ _ W5
    · by_cases hC : 0 < ci
      · -- merge into the left sibling
        obtain ⟨j, rfl⟩ : ∃ j, ci = j + 1 := ⟨ci - 1, by omega⟩
        have hjk : j < keys.length := by omega
        have hHj : childHi hi keys j = some (keys.getD j 0) := childHi_lt hi keys hjk
        have hsib := h6 j (by omega) (by omega)
        rw [hHj] at hsib
        have hnode := hciW
        rw [childLo_succ] at hnode
        have hnsur : ¬ minK < countAt children (j + 1 - 1) := fun h => hA ⟨by omega, h⟩
        simp only [Nat.add_sub_cancel, countAt] at hnsur
        have hsibC : minK ≤ nodeCount (children.getD j dfltNode) :=
          (wfn_count_bounds hsib).1
        have hs1 : okLoS (childLo lo keys j) (keys.getD j 0) :=
          sep_okLoS_childLo h3 hjk (fun s hs => (h4 s hs).1)
        have hs2 : okHi (childHi hi keys (j + 1)) (keys.getD j 0) :=
          sep_okHi_childHi h3 hjk (fun s hs => (h4 s hs).2)
        obtain ⟨hmW, hmC⟩ := merge_spec hsib hnode hs1 hs2 (by omega) (by omega)
        have hfix : fixChild minK keys children (j + 1) =
            (keys.eraseIdx j,
             (children.set j (mergeTwo (children.getD j dfltNode)
               (children.getD (j + 1) dfltNode) (keys.getD j 0))).eraseIdx (j + 1)) := by
          unfold fixChild
          rw [if_neg hA, if_neg hB, if_pos hC]
          simp only [Nat.add_sub_cancel]
        have hfix1 : (fixChild minK keys children (j + 1)).1 = keys.eraseIdx j := by
          rw [hfix]
        have hfix2 : (fixChild minK keys children (j + 1)).2 =
            (children.set j (mergeTwo (children.getD j dfltNode)
              (children.getD (j + 1) dfltNode) (keys.getD j 0))).eraseIdx (j + 1) := by
          rw [hfix]
        rw [hfix1, hfix2]
        obtain ⟨hPF, hPlen⟩ :=
          mergePair_fields h3 h4 h5 (fun i hL hij hij1 => h6 i hL hij1) hjk hmW
        refine ⟨hPF, by omega, by omega, ?_⟩
        rw [flatten_map_set_erase children j _ (by omega),
            flatten_map_decomp2 children j (by omega), hmC]
        simp [List.append_assoc]
      · -- merge the right sibling into the node
        have hci0 : ci = 0 := by omega
        subst hci0
        have hc1 : 1 < children.length := by omega
        have hnsur : ¬ minK < countAt children 1 := fun h => hB ⟨by omega, h⟩
        simp only [countAt] at hnsur
        have hnode := hciW
        rw [childHi_lt hi keys (show 0 < keys.length by omega)] at hnode
        have hsib := h6 1 hc1 (by omega)
        rw [childLo_succ] at hsib
        have hsibC : minK ≤ nodeCount (children.getD 1 dfltNode) :=
          (wfn_count_bounds hsib).1
        have hs1 : okLoS (childLo lo keys 0) (keys.getD 0 0) :=
          sep_okLoS_childLo h3 (by omega) (fun s hs => (h4 s hs).1)
        have hs2 : okHi (childHi hi keys 1) (keys.getD 0 0) :=
          sep_okHi_childHi h3 (by omega) (fun s hs => (h4 s hs).2)
        obtain ⟨hmW, hmC⟩ := merge_spec hnode hsib hs1 hs2 (by omega) (by omega)
        have hfix : fixChild minK keys children 0 =
            (keys.eraseIdx 0,
             (children.set 0 (mergeTwo (children.getD 0 dfltNode)
               (children.getD 1 dfltNode) (keys.getD 0 0))).eraseIdx 1) := by
          unfold fixChild
          rw [if_neg hA, if_neg hB, if_neg hC]
        have hfix1 : (fixChild minK keys children 0).1 = keys.eraseIdx 0 := by
          rw [hfix]
        have hfix2 : (fixChild minK keys children 0).2 =
            (children.set 0 (mergeTwo (children.getD 0 dfltNode)
              (children.getD 1 dfltNode) (keys.getD 0 0))).eraseIdx 1 := by
          rw [hfix]
        rw [hfix1, hfix2]
        obtain ⟨hPF, hPlen⟩ :=
          mergePair_fields h3 h4 h5 (fun i hL hij hij1 => h6 i hL hij) (by omega) hmW
        refine ⟨hPF, by omega, by omega, ?_⟩
        rw [flatten_map_set_erase children 0 _ (by omega),
            flatten_map_decomp2 children 0 (by omega), hmC]
        simp [List.append_assoc]

theorem removeAux_leaf_eq {maxK minK : Nat} {k : Int} {entries : List (Int × V)} :
    removeAux maxK minK k (.leaf entries) =
      (.leaf (leafRemove entries k).1, (leafRemove entries k).2) := by
  rw [removeAux]

theorem removeAux_internal_eq {maxK minK : Nat} {k : Int} {keys : List Int}
    {children : List (BNode V)} {c : BNode V}
    (hget : children.get? (findChildIndex keys k) = some c) :
    removeAux maxK minK k (.internal keys children) =
      (if (removeAux maxK minK k c).2 then
        if nodeCount (removeAux maxK minK k c).1 < minK then
          (.internal
            (fixChild minK keys (children.set (findChildIndex keys k)
              (removeAux maxK minK k c).1) (findChildIndex keys k)).1
            (fixChild minK keys (children.set (findChildIndex keys k)
              (removeAux maxK minK k c).1) (findChildIndex keys k)).2, true)
        else (.internal keys
          (children.set (findChildIndex keys k) (removeAux maxK minK k c).1), true)
      else (.internal keys children, false)) := by
  rw [removeAux]
  split
  · rename_i heq
    rw [hget] at heq
    exact absurd heq (by simp)
  · rename_i c' heq
    rw [hget] at heq
    injection heq with h2
    rw [h2]

/-- The central delete lemma: removing a key from a well-formed subtree either
reports not-found and leaves the subtree untouched, or erases exactly that key
from the stored entries while keeping the subtree well-formed with a key-count
floor lowered by one. -/
theorem removeAux_spec {maxK minK : Nat} (hm : minK = maxK / 2) (hmin : 1 ≤ minK)
    {k : Int} {d : Nat} :
    ∀ {n : BNode V} {cmin : Nat} {lo hi : Option Int}, 1 ≤ cmin →
    WFN maxK minK cmin lo hi d n →
    ((removeAux maxK minK k n).2 = false →
        (removeAux maxK minK k n).1 = n ∧ findValue (contents n) k = none) ∧
    ((removeAux maxK minK k n).2 = true →
        WFN maxK minK (cmin - 1) lo hi d (removeAux maxK minK k n).1 ∧
        contents (removeAux maxK minK k n).1 = eraseKey (contents n) k ∧
        (findValue (contents n) k).isSome = true) := by
  induction d with
  | zero =>
      intro n cmin lo hi hcm hW
      obtain ⟨entries, rfl⟩ : ∃ es, n = .leaf es := by cases hW; exact ⟨_, rfl⟩
      rw [wfn_leaf_iff] at hW
      obtain ⟨h1, h2, h3, h4⟩ := hW
      have hLfst : (leafRemove entries k).1 = eraseKey entries k := by
        rw [leafRemove_eq]
      have hLsnd : (leafRemove entries k).2 = (findValue entries k).isSome := by
        rw [leafRemove_eq]
      have e1 : (removeAux maxK minK k (BNode.leaf entries) (V := V)).1 =
          .leaf (eraseKey entries k) := by
        rw [removeAux_leaf_eq, hLfst]
      have e2 : (removeAux maxK minK k (BNode.leaf entries) (V := V)).2 =
          (findValue entries k).isSome := by
        rw [removeAux_leaf_eq, hLsnd]
      rw [e1, e2]
      constructor
      · intro hfalse
        have hnone : findValue entries k = none := by
          cases hfv : findValue entries k with
          | none => rfl
          | some v => rw [hfv] at hfalse; simp at hfalse
        have herase : eraseKey entries k = entries :=
          eraseKey_notmem entries k (findValue_none_forall hnone)
        rw [contents_leaf]
        exact ⟨by rw [herase], hnone⟩
      · intro htrue
        rw [contents_leaf, contents_leaf]
        refine ⟨?_, rfl, htrue⟩
        have hlen := eraseKey_length (l := entries) (k := k) (by rw [htrue])
        rw [wfn_leaf_iff]
        have hsub := eraseKey_sublist entries k
        refine ⟨by omega, by have := hsub.length_le; omega, ?_, ?_⟩
        · exact h3.sublist (hsub.map Prod.fst)
        · exact fun p hp => h4 p (hsub.subset hp)
  | succ d' ih =>
      intro n cmin lo hi hcm hW
      obtain ⟨keys, children, rfl⟩ : ∃ K C, n = .internal K C := by
        cases hW; exact ⟨_, _, rfl⟩
      rw [wfn_internal_iff] at hW
      obtain ⟨h1, h2, h3, h4, h5, h6⟩ := hW
      have hfci : findChildIndex keys k < children.length :=
        findChildIndex_lt_length keys children k h5
      have hget : children.get? (findChildIndex keys k) =
          some (children.getD (findChildIndex keys k) dfltNode) :=
        list_get?_eq_getD hfci dfltNode
      have hc := h6 (findChildIndex keys k) hfci
      have hIH := ih (le_refl 1 |>.trans hmin) hc
      have hdecomp := flatten_map_decomp children (findChildIndex keys k) hfci
      have hpre : ∀ p ∈ ((children.take (findChildIndex keys k)).map contents).flatten,
          p.1 < k := pre_keys_lt ⟨h3, h4, h5, h6⟩
      have hpost : ∀ p ∈ ((children.drop (findChildIndex keys k + 1)).map
          contents).flatten, k < p.1 := post_keys_gt ⟨h3, h4, h5, h6⟩
      have hpreN : findValue ((children.take (findChildIndex keys k)).map
          contents).flatten k = none :=
        findValue_eq_none _ _ (fun p hp => ne_of_lt (hpre p hp))
      have hpostN : findValue ((children.drop (findChildIndex keys k + 1)).map
          contents).flatten k = none :=
        findValue_eq_none _ _ (fun p hp => ne_of_gt (hpost p hp))
      rw [removeAux_internal_eq hget]
      rcases Or.symm (Bool.eq_false_or_eq_true (removeAux maxK minK k
          (children.getD (findChildIndex keys k) dfltNode)).2) with hres2 | hres2
      · -- the key was not found below
        obtain ⟨hsame, hnone⟩ := hIH.1 hres2
        rw [hres2, if_neg (by simp)]
        constructor
        · intro _
          refine ⟨by simp, ?_⟩
          rw [contents_internal, hdecomp, List.append_assoc]
          simp only [findValue_append, hpreN, hnone, hpostN]
        · intro hT
          simp at hT
      · -- the key was found and removed below
        obtain ⟨hcW, hcC, hcS⟩ := hIH.2 hres2
        rw [hres2, if_pos rfl]
        have hfvS : (findValue (contents (BNode.internal keys children)) k).isSome
            = true := by
          obtain ⟨v, hv⟩ := Option.isSome_iff_exists.mp hcS
          rw [contents_internal, hdecomp, List.append_assoc]
          simp only [findValue_append, hpreN, hv]
          rfl
        have herase : eraseKey (contents (BNode.internal keys children)) k =
            ((children.take (findChildIndex keys k)).map contents).flatten ++
            eraseKey (contents (children.getD (findChildIndex keys k) dfltNode)) k ++
            ((children.drop (findChildIndex keys k + 1)).map contents).flatten := by
          rw [contents_internal, hdecomp, List.append_assoc,
              eraseKey_append_left _ _ _ (fun p hp => ne_of_lt (hpre p hp)),
              eraseKey_append_right _ _ _ (fun p hp => ne_of_gt (hpost p hp)),
              List.append_assoc]
        by_cases hu : nodeCount (removeAux maxK minK k
            (children.getD (findChildIndex keys k) dfltNode)).1 < minK
        · -- the updated child underflows: run the sibling fix-up
          rw [if_pos hu]
          have hcnt : nodeCount (removeAux maxK minK k
              (children.getD (findChildIndex keys k) dfltNode)).1 = minK - 1 := by
            have := (wfn_count_bounds hcW).1
            omega
          have h5' : (children.set (findChildIndex keys k)
              (removeAux maxK minK k (children.getD (findChildIndex keys k)
                dfltNode)).1).length = keys.length + 1 := by
            simp [h5]
          have h6' : ∀ i, i < (children.set (findChildIndex keys k)
              (removeAux maxK minK k (children.getD (findChildIndex keys k)
                dfltNode)).1).length → i ≠ findChildIndex keys k →
              WFN maxK minK minK (childLo lo keys i) (childHi hi keys i) d'
                ((children.set (findChildIndex keys k)
                  (removeAux maxK minK k (children.getD (findChildIndex keys k)
                    dfltNode)).1).getD i dfltNode) := by
            intro i hL hne
            rw [getD_set_ne (fun h => hne h.symm)]
            exact h6 i (by simpa using hL)
          have hciW' : WFN maxK minK (minK - 1)
              (childLo lo keys (findChildIndex keys k))
              (childHi hi keys (findChildIndex keys k)) d'
              ((children.set (findChildIndex keys k)
                (removeAux maxK minK k (children.getD (findChildIndex keys k)
                  dfltNode)).1).getD (findChildIndex keys k) dfltNode) := by
            rw [getD_set_self hfci]
            exact hcW
          obtain ⟨hPF, hPl1, hPl2, hPflat⟩ := fixChild_spec hm hmin h3 h4 h5' h6'
            hciW' (by rw [getD_set_self hfci]; exact hcnt) (by simpa using hfci)
            (by omega)
          constructor
          · intro hF
            simp at hF
          · intro _
            refine ⟨?_, ?_, hfvS⟩
            · rw [wfn_internal_iff]
              obtain ⟨hQ3, hQ4, hQ5, hQ6⟩ := hPF
              exact ⟨by omega, by omega, hQ3, hQ4, hQ5, hQ6⟩
            · rw [contents_internal, hPflat,
                flatten_map_set children _ _ hfci, herase, hcC]
        · -- the updated child still meets the minimum
          rw [if_neg hu]
          have hcW' : WFN maxK minK minK
              (childLo lo keys (findChildIndex keys k))
              (childHi hi keys (findChildIndex keys k)) d'
              (removeAux maxK minK k (children.getD (findChildIndex keys k)
                dfltNode)).1 :=
            wfn_raise_cmin hcW (by omega)
          have hRF := replace1_fields ⟨h3, h4, h5, h6⟩ hfci hcW'
          constructor
          · intro hF
            simp at hF
          · intro _
            refine ⟨?_, ?_, hfvS⟩
            · rw [wfn_internal_iff]
              obtain ⟨hQ3, hQ4, hQ5, hQ6⟩ := hRF
              exact ⟨by omega, by omega, hQ3, hQ4, hQ5, hQ6⟩
            · rw [contents_internal, flatten_map_set children _ _ hfci,
                herase, hcC]

/-- Tree-level remove: well-formedness is preserved (handling root deletion
and the root collapse), the stored entries lose exactly the removed key, and
the returned flag reports whether the key was present. -/
theorem removeTree_spec {maxK minK : Nat} (hm : minK = maxK / 2) (hmin : 1 ≤ minK)
    {t : BTree V} {k : Int} (h : TreeWF maxK minK t) :
    TreeWF maxK minK (removeTree maxK minK t k).1 ∧
    contentsTree (removeTree maxK minK t k).1 = eraseKey (contentsTree t) k ∧
    (removeTree maxK minK t k).2 = (findValue (contentsTree t) k).isSome := by
  match t with
  | none =>
      refine ⟨trivial, ?_, ?_⟩ <;> simp [removeTree, contentsTree, eraseKey, findValue]
  | some n =>
      obtain ⟨d, hw⟩ := h
      have hspec := removeAux_spec (k := k) hm hmin (le_refl 1) hw
      rcases Or.symm (Bool.eq_false_or_eq_true (removeAux maxK minK k n).2)
        with hres2 | hres2
      · -- not found: the tree is returned untouched
        obtain ⟨hsame, hnone⟩ := hspec.1 hres2
        have htree : removeTree maxK minK (some n) k = (some n, false) := by
          rw [removeTree, hres2, if_neg (by simp)]
        rw [htree]
        refine ⟨⟨d, hw⟩, ?_, ?_⟩
        · rw [contentsTree]
          rw [eraseKey_notmem _ _ (findValue_none_forall hnone)]
        · rw [contentsTree, hnone]
          rfl
      · -- found: the entry was erased below
        obtain ⟨hW', hC', hS'⟩ := hspec.2 hres2
        cases hsh : (removeAux maxK minK k n).1 with
        | leaf entries =>
            rw [hsh] at hW' hC'
            rw [contents_leaf] at hC'
            have htree : removeTree maxK minK (some n) k =
                (if entries.length = 0 then (none, true)
                 else (some (.leaf entries), true)) := by
              rw [removeTree, hres2, if_pos rfl, hsh]
            rw [htree]
            cases hW' with
            | leaf cm lo2 hi2 es q1 q2 q3 q4 =>
                by_cases hlen : entries.length = 0
                · rw [if_pos hlen]
                  have hnil : entries = [] := List.length_eq_zero.mp hlen
                  refine ⟨trivial, ?_, by rw [contentsTree, hS']⟩
                  rw [contentsTree, contentsTree, ← hC', hnil]
                · rw [if_neg hlen]
                  refine ⟨⟨0, ?_⟩, ?_, by rw [contentsTree, hS']⟩
                  · rw [wfn_leaf_iff]
                    exact ⟨by omega, q2, q3, q4⟩
                  · rw [contentsTree, contentsTree, contents_leaf, hC']
        | internal keys children =>
            rw [hsh] at hW' hC'
            cases hW' with
            | internal cm lo2 hi2 d2 ks cs q1 q2 q3 q4 q5 q6 =>
                by_cases hlen : keys.length = 0
                · have hc1 : children.length = 1 := by omega
                  have hget0 : children.get? 0 = some (children.getD 0 dfltNode) :=
                    list_get?_eq_getD (by omega) dfltNode
                  have htree : removeTree maxK minK (some n) k =
                      (some (children.getD 0 dfltNode), true) := by
                    rw [removeTree, hres2, if_pos rfl, hsh]
                    show (if keys.length = 0 then
                        match children.get? 0 with
                        | some c => (some c, true)
                        | none => (none, true)
                      else (some (BNode.internal keys children), true)) = _
                    rw [if_pos hlen, hget0]
                  rw [htree]
                  have hc0 := q6 0 (by omega)
                  have hlo0 : childLo none keys 0 = none := rfl
                  have hhi0 : childHi none keys 0 = none :=
                    childHi_ge none keys (by omega)
                  rw [hlo0, hhi0] at hc0
                  refine ⟨⟨d2, wfn_relax_cmin hc0 hmin⟩, ?_,
                    by rw [contentsTree, hS']⟩
                  rw [contentsTree, contentsTree, ← hC', contents_internal]
                  rw [list_decomp_getD children 0 dfltNode (by omega)]
                  have hnil : children.drop 1 = [] := by
                    rw [List.drop_eq_nil_iff]
                    omega
                  simp [hnil]
                · have htree : removeTree maxK minK (some n) k =
                      (some (.internal keys children), true) := by
                    rw [removeTree, hres2, if_pos rfl, hsh]
                    show (if keys.length = 0 then
                        match children.get? 0 with
                        | some c => (some c, true)
                        | none => (none, true)
                      else (some (BNode.internal keys children), true)) = _
                    rw [if_neg hlen]
                  rw [htree]
                  refine ⟨⟨d2 + 1, ?_⟩, ?_, by rw [contentsTree, hS']⟩
                  · rw [wfn_internal_iff]
                    exact ⟨by omega, q2, q3, q4, q5, q6⟩
                  · rw [contentsTree, contentsTree, hC']

/-- After erasing `k` from a strictly key-sorted list, `k` is gone. -/
theorem eraseKey_findValue {l : List (Int × V)} {k : Int}
    (h : List.Pairwise (· < ·) (l.map Prod.fst)) :
    findValue (eraseKey l k) k = none := by
  induction l with
  | nil => rfl
  | cons p t ih =>
      match p with
      | (k', v') =>
          rw [eraseKey]
          by_cases hk : k' = k
          · rw [if_pos hk]
            subst hk
            refine findValue_eq_none _ _ ?_
            intro q hq
            have hlt := (List.pairwise_cons.mp h).1 q.1
              (List.mem_map_of_mem Prod.fst hq)
            simp only [List.map_cons] at hlt
            omega
          · rw [if_neg hk, findValue, if_neg hk]
            exact ih (List.pairwise_cons.mp h).2

theorem treewf_contents_pairwise {maxK minK : Nat} {t : BTree V}
    (h : TreeWF maxK minK t) :
    List.Pairwise (· < ·) ((contentsTree t).map Prod.fst) := by
  match t with
  | none => simp [contentsTree]
  | some n =>
      obtain ⟨d, hw⟩ := h
      rw [contentsTree]
      exact (wfn_contents_bounds hw).1

/-- The delete half of the round-trip: after `remove(k)`, `search(k)` reports
not-found, whether or not `k` was present. -/
theorem remove_then_search {maxK minK : Nat} (hm : minK = maxK / 2) (hmin : 1 ≤ minK)
    {t : BTree V} {k : Int} (h : TreeWF maxK minK t) :
    searchTree (removeTree maxK minK t k).1 k = none := by
  have hspec := removeTree_spec hm hmin (k := k) h
  rw [treewf_search hspec.1, hspec.2.1]
  exact eraseKey_findValue (treewf_contents_pairwise h)

/-! #### The spec invariants follow from the maintained invariant `WFN` -/

theorem sortedKeysB_iff (l : List Int) :
    sortedKeysB l = true ↔ List.Pairwise (· < ·) l := by
  induction l with
  | nil => simp [sortedKeysB]
  | cons a t ih =>
      match t, ih with
      | [], _ => simp [sortedKeysB]
      | b :: t', ih =>
          rw [sortedKeysB]
          simp only [Bool.and_eq_true, decide_eq_true_eq, ih]
          constructor
          · rintro ⟨hab, hp⟩
            refine List.pairwise_cons.mpr ⟨?_, hp⟩
            intro x hx
            rcases List.mem_cons.mp hx with rfl | hx
            · exact hab
            · exact lt_trans hab ((List.pairwise_cons.mp hp).1 x hx)
          · intro hp
            obtain ⟨h1, h2⟩ := List.pairwise_cons.mp hp
            exact ⟨h1 b (by simp), h2⟩

theorem nodesSorted_of_wfn {maxK minK : Nat} {d : Nat} :
    ∀ {n : BNode V} {cmin : Nat} {lo hi : Option Int},
    WFN maxK minK cmin lo hi d n → nodesSorted n := by
  induction d with
  | zero =>
      intro n cmin lo hi h
      cases h with
      | leaf cmin lo hi entries h1 h2 h3 h4 => exact (nodesSorted_leaf entries).mpr h3
  | succ d ih =>
      intro n cmin lo hi h
      cases h with
      | internal cmin lo hi d keys children h1 h2 h3 h4 h5 h6 =>
          rw [nodesSorted_internal]
          refine ⟨h3, ?_⟩
          intro c hc
          obtain ⟨i, hi2, rfl⟩ := List.mem_iff_getElem.mp hc
          rw [← getD_eq_getElem children i dfltNode hi2]
          exact ih (h6 i hi2)

theorem countsOK_of_wfn {maxK minK : Nat} {d : Nat} :
    ∀ {n : BNode V} {cmin : Nat} {lo hi : Option Int} {isRoot : Bool},
    WFN maxK minK cmin lo hi d n → (isRoot = true ∨ minK ≤ cmin) →
    countsOK maxK minK isRoot n := by
  induction d with
  | zero =>
      intro n cmin lo hi isRoot h hroot
      cases h with
      | leaf cmin lo hi entries h1 h2 h3 h4 =>
          rw [countsOK_leaf]
          exact ⟨h2, hroot.imp id (fun hc => le_trans hc h1)⟩
  | succ d ih =>
      intro n cmin lo hi isRoot h hroot
      cases h with
      | internal cmin lo hi d keys children h1 h2 h3 h4 h5 h6 =>
          rw [countsOK_internal]
          refine ⟨h2, hroot.imp id (fun hc => le_trans hc h1), h5, ?_⟩
          intro c hc
          obtain ⟨i, hi2, rfl⟩ := List.mem_iff_getElem.mp hc
          rw [← getD_eq_getElem children i dfltNode hi2]
          exact ih (h6 i hi2) (Or.inr (le_refl minK))

theorem uniformDepth_foldl (cs : List (BNode V)) (b : Option (Option Nat)) :
    cs.attach.foldl
      (fun acc c =>
        match acc, uniformDepth c.1 with
        | some (some d), some d' => if d = d' then some (some d) else none
        | some none, some d' => some (some d')
        | _, _ => none) b =
    cs.foldl
      (fun acc c =>
        match acc, uniformDepth c with
        | some (some d), some d' => if d = d' then some (some d) else none
        | some none, some d' => some (some d')
        | _, _ => none) b := by
  induction cs generalizing b with
  | nil => rfl
  | cons a t ih =>
      rw [List.attach_cons, List.foldl_cons, List.foldl_map, List.foldl_cons]
      exact ih _

theorem foldl_depth_const {d0 : Nat} : ∀ (cs : List (BNode V)),
    (∀ c ∈ cs, uniformDepth c = some d0) →
    cs.foldl
      (fun acc c =>
        match acc, uniformDepth c with
        | some (some d), some d' => if d = d' then some (some d) else none
        | some none, some d' => some (some d')
        | _, _ => none) (some (some d0)) = some (some d0) := by
  intro cs
  induction cs with
  | nil => intro _; rfl
  | cons c t ih =>
      intro h
      have hc := h c (by simp)
      simp only [List.foldl_cons, hc]
      exact ih (fun x hx => h x (by simp [hx]))

theorem uniformDepth_of_wfn {maxK minK : Nat} {d : Nat} :
    ∀ {n : BNode V} {cmin : Nat} {lo hi : Option Int},
    WFN maxK minK cmin lo hi d n → uniformDepth n = some d := by
  induction d with
  | zero =>
      intro n cmin lo hi h
      cases h with
      | leaf cmin lo hi entries h1 h2 h3 h4 => rw [uniformDepth]
  | succ d ih =>
      intro n cmin lo hi h
      cases h with
      | internal cmin lo hi d keys children h1 h2 h3 h4 h5 h6 =>
          have hall : ∀ c ∈ children, uniformDepth c = some d := by
            intro c hc
            obtain ⟨i, hi2, rfl⟩ := List.mem_iff_getElem.mp hc
            rw [← getD_eq_getElem children i dfltNode hi2]
            exact ih (h6 i hi2)
          match children, h5, hall with
          | c0 :: cs, h5, hall =>
              rw [uniformDepth, uniformDepth_foldl]
              have hc0 := hall c0 (by simp)
              simp only [List.foldl_cons, hc0]
              rw [foldl_depth_const cs (fun x hx => hall x (by simp [hx]))]
              rfl

/-- Well-formedness gives the full §3 invariant bundle. -/
theorem invariants_of_treewf {maxK minK : Nat} (hmin : 1 ≤ minK) {t : BTree V}
    (h : TreeWF maxK minK t) : Invariants maxK minK t := by
  match t with
  | none => trivial
  | some n =>
      obtain ⟨d, hw⟩ := h
      refine ⟨nodesSorted_of_wfn hw, ?_, countsOK_of_wfn hw (Or.inl rfl),
        wfn_contents_ne_nil hmin (le_refl 1) hw, (wfn_contents_bounds hw).1⟩
      rw [uniformDepth_of_wfn hw]
      rfl

/-! #### `validate()` accepts every well-formed tree -/

theorem validateChildren_all {maxK minK : Nat} {level L : Nat} :
    ∀ (cs : List (BNode V)),
    (∀ c ∈ cs, ∀ ll : Option Nat, (ll = none ∨ ll = some L) →
      validateNode maxK minK false c (level + 1) ll = some (some L)) →
    validateChildren maxK minK cs level (some L) = some (some L) ∧
    (cs ≠ [] → validateChildren maxK minK cs level none = some (some L)) := by
  intro cs
  induction cs with
  | nil =>
      intro _
      exact ⟨by rw [validateChildren], fun hne => absurd rfl hne⟩
  | cons c t ih =>
      intro h
      have hrest := ih (fun x hx => h x (by simp [hx]))
      constructor
      · rw [validateChildren, h c (by simp) (some L) (Or.inr rfl)]
        show validateChildren maxK minK t level (some L) = some (some L)
        exact hrest.1
      · intro _
        rw [validateChildren, h c (by simp) none (Or.inl rfl)]
        show validateChildren maxK minK t level (some L) = some (some L)
        exact hrest.1

theorem validateNode_of_wfn {maxK minK : Nat} {d : Nat} :
    ∀ {n : BNode V} {cmin : Nat} {lo hi : Option Int} {isRoot : Bool},
    WFN maxK minK cmin lo hi d n → (isRoot = true ∨ minK ≤ cmin) →
    ∀ (level : Nat) (leafLevel : Option Nat),
    (leafLevel = none ∨ leafLevel = some (level + d)) →
    validateNode maxK minK isRoot n level leafLevel = some (some (level + d)) := by
  induction d with
  | zero =>
      intro n cmin lo hi isRoot h hroot level ll hll
      cases h with
      | leaf cmin lo hi entries h1 h2 h3 h4 =>
          rw [validateNode.eq_def]
          have hc1 : ¬ (¬ isRoot = true ∧
              (nodeCount (BNode.leaf entries (V := V)) < minK ∨
                maxK < nodeCount (BNode.leaf entries (V := V)))) := by
            rintro ⟨hr, hbad⟩
            rcases hroot with hr2 | hr2
            · exact hr hr2
            · simp only [nodeCount] at hbad
              omega
          have hc2 : sortedKeysB (nodeKeys (BNode.leaf entries (V := V))) = true :=
            (sortedKeysB_iff _).mpr (by simpa [nodeKeys] using h3)
          rw [if_neg hc1, if_neg (by simp [hc2])]
          rcases hll with rfl | rfl
          · rfl
          · show (if level + 0 = level then some (some (level + 0)) else none) =
              some (some (level + 0))
            rw [if_pos (by omega)]
  | succ d ih =>
      intro n cmin lo hi isRoot h hroot level ll hll
      cases h with
      | internal cmin lo hi d keys children h1 h2 h3 h4 h5 h6 =>
          rw [validateNode.eq_def]
          have hc1 : ¬ (¬ isRoot = true ∧
              (nodeCount (BNode.internal keys children) < minK ∨
                maxK < nodeCount (BNode.internal keys children))) := by
            rintro ⟨hr, hbad⟩
            rcases hroot with hr2 | hr2
            · exact hr hr2
            · simp only [nodeCount] at hbad
              omega
          have hc2 : sortedKeysB (nodeKeys (BNode.internal keys children)) = true :=
            (sortedKeysB_iff _).mpr (by simpa [nodeKeys] using h3)
          rw [if_neg hc1, if_neg (by simp [hc2])]
          show (if children.length ≠ keys.length + 1 then none
            else validateChildren maxK minK children level ll) = some (some (level + (d + 1)))
          rw [if_neg (by omega)]
          have hallc : ∀ c ∈ children, ∀ ll2 : Option Nat,
              (ll2 = none ∨ ll2 = some (level + (d + 1))) →
              validateNode maxK minK false c (level + 1) ll2 =
                some (some (level + (d + 1))) := by
            intro c hc ll2 hll2
            obtain ⟨i, hi2, rfl⟩ := List.mem_iff_getElem.mp hc
            rw [← getD_eq_getElem children i dfltNode hi2]
            have heq : level + 1 + d = level + (d + 1) := by omega
            have := @ih _ _ _ _ false (h6 i hi2) (Or.inr (le_refl minK)) (level + 1) ll2
              (by rw [heq]; exact hll2)
            rwa [heq] at this
          have hvc := validateChildren_all children hallc
          rcases hll with rfl | rfl
          · exact hvc.2 (by intro hnil; rw [hnil] at h5; simp at h5)
          · exact hvc.1

/-- `validate()` returns true on every well-formed tree. -/
theorem validateTree_of_treewf {maxK minK : Nat} {t : BTree V}
    (h : TreeWF maxK minK t) : validateTree maxK minK t = true := by
  match t with
  | none => rfl
  | some n =>
      obtain ⟨d, hw⟩ := h
      rw [validateTree, validateNode_of_wfn hw (Or.inl rfl) 0 none (Or.inl rfl)]
      rfl

/-! #### rangeQuery -/

theorem flatten_flatten_map {α β : Type _} (l : List α) (f : α → List (List β)) :
    ((l.map f).flatten).flatten = (l.map (fun x => (f x).flatten)).flatten := by
  induction l with
  | nil => rfl
  | cons a t ih =>
      simp only [List.map_cons, List.flatten_cons, List.flatten_append, ih]

theorem leavesList_flatten {maxK minK : Nat} {d : Nat} :
    ∀ {n : BNode V} {cmin : Nat} {lo hi : Option Int},
    WFN maxK minK cmin lo hi d n → (leavesList n).flatten = contents n := by
  induction d with
  | zero =>
      intro n cmin lo hi h
      cases h with
      | leaf cmin lo hi entries h1 h2 h3 h4 =>
          rw [leavesList_leaf, contents_leaf]
          simp
  | succ d ih =>
      intro n cmin lo hi h
      cases h with
      | internal cmin lo hi d keys children h1 h2 h3 h4 h5 h6 =>
          rw [leavesList_internal, contents_internal, flatten_flatten_map]
          congr 1
          apply List.map_congr_left
          intro c hc
          obtain ⟨i, hi2, rfl⟩ := List.mem_iff_getElem.mp hc
          rw [← getD_eq_getElem children i dfltNode hi2]
          exact ih (h6 i hi2)

theorem leavesFrom_internal_eq {a : Int} {keys : List Int}
    {children : List (BNode V)} {c : BNode V}
    (hget : children.get? (findChildIndex keys a) = some c) :
    leavesFrom a (.internal keys children) =
      leavesFrom a c ++
        ((children.drop (findChildIndex keys a + 1)).map leavesList).flatten := by
  rw [leavesFrom]
  split
  · rename_i c' heq
    rw [hget] at heq
    injection heq with h2
    rw [h2, attach_flatMap_eq]
  · rename_i heq
    rw [hget] at heq
    exact absurd heq (by simp)

/-- The leaf walk of `rangeQuery` misses only entries below the start key:
`findLeaf(start)` and the `next` chain cover a suffix of the contents whose
missing prefix is entirely below `start`. -/
theorem leavesFrom_spec {maxK minK : Nat} {a : Int} {d : Nat} :
    ∀ {n : BNode V} {cmin : Nat} {lo hi : Option Int},
    WFN maxK minK cmin lo hi d n →
    ∃ pre, pre ++ (leavesFrom a n).flatten = contents n ∧ ∀ p ∈ pre, p.1 < a := by
  induction d with
  | zero =>
      intro n cmin lo hi h
      cases h with
      | leaf cmin lo hi entries h1 h2 h3 h4 =>
          refine ⟨[], ?_, by simp⟩
          rw [leavesFrom, contents_leaf]
          simp
  | succ d ih =>
      intro n cmin lo hi h
      obtain ⟨keys, children, rfl⟩ : ∃ K C, n = .internal K C := by
        cases h; exact ⟨_, _, rfl⟩
      rw [wfn_internal_iff] at h
      obtain ⟨h1, h2, h3, h4, h5, h6⟩ := h
      have hfci : findChildIndex keys a < children.length :=
        findChildIndex_lt_length keys children a h5
      have hget : children.get? (findChildIndex keys a) =
          some (children.getD (findChildIndex keys a) dfltNode) :=
        list_get?_eq_getD hfci dfltNode
      obtain ⟨pre0, hpre0, hlt0⟩ := ih (h6 (findChildIndex keys a) hfci)
      have hpreC := pre_keys_lt (k := a) ⟨h3, h4, h5, h6⟩
      have hpost : ((children.drop (findChildIndex keys a + 1)).map leavesList).flatten.flatten =
          ((children.drop (findChildIndex keys a + 1)).map contents).flatten := by
        rw [flatten_flatten_map]
        congr 1
        apply List.map_congr_left
        intro c hc
        obtain ⟨j, hj, rfl⟩ := List.mem_iff_getElem.mp hc
        have hj2 : findChildIndex keys a + 1 + j < children.length := by
          simp at hj
          omega
        have h1d : (children.drop (findChildIndex keys a + 1))[j] =
            children[findChildIndex keys a + 1 + j] := List.getElem_drop children
        rw [h1d, ← getD_eq_getElem children _ dfltNode hj2]
        exact leavesList_flatten (h6 _ hj2)
      refine ⟨((children.take (findChildIndex keys a)).map contents).flatten ++ pre0,
        ?_, ?_⟩
      · rw [leavesFrom_internal_eq hget, List.flatten_append, hpost,
            contents_internal, flatten_map_decomp children _ hfci, ← hpre0]
        simp [List.append_assoc]
      · intro p hp
        rcases List.mem_append.mp hp with hp | hp
        · exact hpreC p hp
        · exact hlt0 p hp

/-- One leaf scan of `rangeQuery`: on a sorted leaf it emits exactly the
in-range entries, and the early return fires exactly when some key exceeds
the upper bound. -/
theorem scanEntries_spec {a b : Int} {es : List (Int × V)}
    (hs : List.Pairwise (· < ·) (es.map Prod.fst)) :
    (scanEntries a b es).1 = es.filter (fun p => decide (a ≤ p.1 ∧ p.1 ≤ b)) ∧
    ((scanEntries a b es).2 = true ↔ ∃ p ∈ es, b < p.1) := by
  induction es with
  | nil => simp [scanEntries]
  | cons p t ih =>
      match p with
      | (k, v) =>
          simp only [List.map_cons] at hs
          obtain ⟨hhead, htail⟩ := List.pairwise_cons.mp hs
          obtain ⟨ih1, ih2⟩ := ih htail
          rw [scanEntries]
          by_cases hin : a ≤ k ∧ k ≤ b
          · rw [if_pos hin]
            constructor
            · simp only [List.filter_cons, decide_eq_true_eq]
              rw [if_pos (by simpa using hin), ih1]
            · simp only [ih2]
              constructor
              · rintro ⟨q, hq, hqb⟩
                exact ⟨q, by simp [hq], hqb⟩
              · rintro ⟨q, hq, hqb⟩
                rcases List.mem_cons.mp hq with rfl | hq
                · omega
                · exact ⟨q, hq, hqb⟩
          · rw [if_neg hin]
            by_cases hb : b < k
            · rw [if_pos hb]
              constructor
              · have hnil : ∀ q ∈ (k, v) :: t, ¬ (a ≤ q.1 ∧ q.1 ≤ b) := by
                  intro q hq
                  rcases List.mem_cons.mp hq with rfl | hq
                  · omega
                  · have := hhead q.1 (List.mem_map_of_mem Prod.fst hq)
                    omega
                have hnil2 : List.filter (fun p => decide (a ≤ p.1 ∧ p.1 ≤ b))
                    ((k, v) :: t) = [] := by
                  rw [List.filter_eq_nil_iff]
                  intro q hq
                  simpa using hnil q hq
                rw [hnil2]
              · simp only [true_iff]
                exact ⟨(k, v), by simp, hb⟩
            · rw [if_neg hb]
              constructor
              · simp only [List.filter_cons, decide_eq_true_eq]
                rw [if_neg (by omega), ih1]
              · rw [ih2]
                constructor
                · rintro ⟨q, hq, hqb⟩
                  exact ⟨q, by simp [hq], hqb⟩
                · rintro ⟨q, hq, hqb⟩
                  rcases List.mem_cons.mp hq with rfl | hq
                  · omega
                  · exact ⟨q, hq, hqb⟩

/-- The whole chain walk of `rangeQuery` on a sorted leaf chain filters the
flattened contents. -/
theorem scanLeaves_spec {a b : Int} :
    ∀ {ls : List (List (Int × V))},
    List.Pairwise (· < ·) (ls.flatten.map Prod.fst) →
    scanLeaves a b ls = ls.flatten.filter (fun p => decide (a ≤ p.1 ∧ p.1 ≤ b)) := by
  intro ls
  induction ls with
  | nil => intro _; rfl
  | cons es rest ih =>
      intro hs
      have hsplit : (es :: rest).flatten = es ++ rest.flatten := rfl
      rw [hsplit] at hs ⊢
      rw [List.map_append, List.pairwise_append] at hs
      obtain ⟨hs1, hs2, hcross⟩ := hs
      obtain ⟨hE1, hE2⟩ := scanEntries_spec (a := a) (b := b) hs1
      rw [scanLeaves]
      rcases Or.symm (Bool.eq_false_or_eq_true (scanEntries a b es).2)
        with hfl | hfl
      · -- no early return: continue down the chain
        rw [hfl, if_neg (by simp), hE1, ih hs2, List.filter_append]
      · -- early return: everything further is above the upper bound
        rw [hfl, if_pos rfl, hE1, List.filter_append]
        obtain ⟨q, hq, hqb⟩ := hE2.mp hfl
        have hnil : rest.flatten.filter (fun p => decide (a ≤ p.1 ∧ p.1 ≤ b)) = [] := by
          rw [List.filter_eq_nil_iff]
          intro x hx
          have := hcross q.1 (List.mem_map_of_mem Prod.fst hq)
            x.1 (List.mem_map_of_mem Prod.fst hx)
          simp only [decide_eq_true_eq]
          omega
        rw [hnil, List.append_nil]

/-- `rangeQuery(start, end)` on a well-formed tree returns exactly the stored
entries with keys in the closed interval `[start, end]`, in storage
(ascending-key) order.  In this embedding the query is a pure function of the
tree, so it cannot mutate it; emptiness for an empty tree, an inverted range
or an uncovered range follows from the filter. -/
theorem rangeQuery_spec {maxK minK : Nat} {t : BTree V} {a b : Int}
    (h : TreeWF maxK minK t) :
    rangeQueryTree t a b =
      (contentsTree t).filter (fun p => decide (a ≤ p.1 ∧ p.1 ≤ b)) := by
  match t with
  | none => rfl
  | some n =>
      obtain ⟨d, hw⟩ := h
      obtain ⟨pre, hpre, hlt⟩ := leavesFrom_spec (a := a) hw
      have hsorted : List.Pairwise (· < ·) ((contents n).map Prod.fst) :=
        (wfn_contents_bounds hw).1
      rw [← hpre, List.map_append, List.pairwise_append] at hsorted
      rw [rangeQueryTree, contentsTree, ← hpre, List.filter_append]
      have hnil : pre.filter (fun p => decide (a ≤ p.1 ∧ p.1 ≤ b)) = [] := by
        rw [List.filter_eq_nil_iff]
        intro x hx
        have := hlt x hx
        simp only [decide_eq_true_eq]
        omega
      rw [hnil, List.nil_append]
      exact scanLeaves_spec hsorted.2.1

/-! #### Upsert of a present key: pure overwrite -/

theorem list_set_getD_self {α : Type _} (l : List α) (i : Nat) (d : α)
    (hi : i < l.length) : l.set i (l.getD i d) = l := by
  apply List.ext_getElem (by simp)
  intro j hj1 hj2
  rw [← getD_eq_getElem _ _ d hj1, ← getD_eq_getElem _ _ d hj2]
  by_cases hij : i = j
  · subst hij
    exact getD_set_self hi
  · exact getD_set_ne hij

/-- Upserting a key that is already present does not change the key skeleton
of the entry list. -/
theorem upsertSorted_present_shape {l : List (Int × V)} {k : Int} (v : V)
    (hs : List.Pairwise (· < ·) (l.map Prod.fst))
    (hmem : k ∈ l.map Prod.fst) :
    (upsertSorted l k v).map (fun p => (p.1, ())) = l.map (fun p => (p.1, ())) := by
  induction l with
  | nil => simp at hmem
  | cons p t ih =>
      match p with
      | (k1, v1) =>
          simp only [List.map_cons] at hs hmem
          obtain ⟨hhead, htail⟩ := List.pairwise_cons.mp hs
          rcases Int.lt_trichotomy k1 k with h1 | h1 | h1
          · rw [upsertSorted_cons_gt _ _ _ h1, List.map_cons, List.map_cons]
            have hmem2 : k ∈ t.map Prod.fst := by
              rcases List.mem_cons.mp hmem with rfl | hmem2
              · omega
              · exact hmem2
            rw [ih htail hmem2]
          · rw [upsertSorted_cons_eq _ _ _ h1.symm, List.map_cons, List.map_cons, h1]
          · exfalso
            rcases List.mem_cons.mp hmem with rfl | hmem2
            · omega
            · have := hhead k hmem2
              omega

/-- Inserting a key that is already present in a well-formed subtree
overwrites in place: the result is a single node (never a split) with the
same shape — same node structure and the same keys everywhere. -/
theorem insertAux_present {maxK minK : Nat} (hm : minK = maxK / 2) (hmin : 1 ≤ minK)
    {k : Int} {v : V} {d : Nat} :
    ∀ {n : BNode V} {cmin : Nat} {lo hi : Option Int},
    WFN maxK minK cmin lo hi d n → k ∈ (contents n).map Prod.fst →
    ∃ n', insertAux maxK k v n = .one n' ∧ shapeOf n' = shapeOf n := by
  induction d with
  | zero =>
      intro n cmin lo hi h hmem
      obtain ⟨entries, rfl⟩ : ∃ es, n = .leaf es := by cases h; exact ⟨_, rfl⟩
      rw [wfn_leaf_iff] at h
      obtain ⟨h1, h2, h3, h4⟩ := h
      rw [contents_leaf] at hmem
      have hlen : (upsertSorted entries k v).length = entries.length :=
        upsertSorted_length_mem entries k v h3 hmem
      refine ⟨.leaf (upsertSorted entries k v), ?_, ?_⟩
      · rw [insertAux_leaf_eq, leafInsert_eq maxK entries k v h2,
          if_neg (by omega)]
      · rw [shapeOf_leaf, shapeOf_leaf, upsertSorted_present_shape v h3 hmem]
  | succ d ih =>
      intro n cmin lo hi h hmem
      obtain ⟨keys, children, rfl⟩ : ∃ K C, n = .internal K C := by
        cases h; exact ⟨_, _, rfl⟩
      rw [wfn_internal_iff] at h
      obtain ⟨h1, h2, h3, h4, h5, h6⟩ := h
      have hfci : findChildIndex keys k < children.length :=
        findChildIndex_lt_length keys children k h5
      have hget : children.get? (findChildIndex keys k) =
          some (children.getD (findChildIndex keys k) dfltNode) :=
        list_get?_eq_getD hfci dfltNode
      have hdecomp := flatten_map_decomp children (findChildIndex keys k) hfci
      have hmem2 : k ∈ (contents (children.getD (findChildIndex keys k)
          dfltNode)).map Prod.fst := by
        rw [contents_internal, hdecomp] at hmem
        simp only [List.map_append, List.mem_append] at hmem
        rcases hmem with (hmem | hmem) | hmem
        · exfalso
          obtain ⟨q, hq, hqk⟩ := List.mem_map.mp hmem
          have := pre_keys_lt (k := k) ⟨h3, h4, h5, h6⟩ q hq
          omega
        · exact hmem
        · exfalso
          obtain ⟨q, hq, hqk⟩ := List.mem_map.mp hmem
          have := post_keys_gt (k := k) ⟨h3, h4, h5, h6⟩ q hq
          omega
      obtain ⟨c', hone, hshape⟩ := ih (h6 (findChildIndex keys k) hfci) hmem2
      refine ⟨.internal keys (children.set (findChildIndex keys k) c'), ?_, ?_⟩
      · rw [insertAux_internal_eq hget, hone]
      · rw [shapeOf_internal, shapeOf_internal, List.map_set, hshape]
        have hmap : shapeOf (children.getD (findChildIndex keys k) dfltNode) =
            (children.map shapeOf).getD (findChildIndex keys k)
              (shapeOf (dfltNode (V := V))) := by
          rw [getD_eq_getElem children _ dfltNode hfci,
              getD_eq_getElem _ _ _ (by simpa using hfci), List.getElem_map]
        rw [hmap, list_set_getD_self _ _ _ (by simpa using hfci)]

/-- Tree-level overwrite of a present key: the root stays a root and the
whole tree keeps its shape. -/
theorem insertTree_present {maxK minK : Nat} (hm : minK = maxK / 2) (hmin : 1 ≤ minK)
    {t : BTree V} {k : Int} {v : V} (h : TreeWF maxK minK t)
    (hmem : k ∈ (contentsTree t).map Prod.fst) :
    ∃ n n', t = some n ∧ insertTree maxK t k v = some n' ∧ shapeOf n' = shapeOf n := by
  match t with
  | none => simp [contentsTree] at hmem
  | some n =>
      obtain ⟨d, hw⟩ := h
      rw [contentsTree] at hmem
      obtain ⟨n', hone, hshape⟩ := insertAux_present hm hmin hw hmem
      refine ⟨n, n', rfl, ?_, hshape⟩
      rw [insertTree, hone]

/-! #### Bulk loader: packing -/

theorem packChunksGo_spec {α : Type _} {maxC minC : Nat} (h1 : 1 ≤ minC)
    (h2 : 2 * minC ≤ maxC + 1) :
    ∀ (fuel : Nat) (l : List α), l.length ≤ fuel →
    (packChunksGo fuel maxC minC l).flatten = l ∧
    (∀ c ∈ packChunksGo fuel maxC minC l, c ≠ [] ∧ c.length ≤ maxC) ∧
    (packChunksGo fuel maxC minC l = [] ∨
     packChunksGo fuel maxC minC l = [l] ∨
     ∀ c ∈ packChunksGo fuel maxC minC l, minC ≤ c.length) := by
  have hCle : minC ≤ maxC := by omega
  intro fuel
  induction fuel with
  | zero =>
      intro l hl
      have : l = [] := List.length_eq_zero.mp (by omega)
      subst this
      rw [packChunksGo]
      refine ⟨by simp, by simp, Or.inl (by simp)⟩
  | succ fuel ih =>
      intro l hl
      by_cases he : l.isEmpty
      · have : l = [] := List.isEmpty_iff.mp he
        subst this
        have ht : ([] : List α).isEmpty = true := rfl
        rw [packChunksGo, if_pos ht]
        refine ⟨by simp, by simp, Or.inl rfl⟩
      · have hne : l ≠ [] := fun h => he (by simp [h])
        by_cases hle : l.length ≤ maxC
        · rw [packChunksGo, if_neg (by simpa using hne), if_pos hle]
          refine ⟨by simp, ?_, Or.inr (Or.inl rfl)⟩
          intro c hc
          simp only [List.mem_singleton] at hc
          subst hc
          exact ⟨hne, hle⟩
        · have hlpos : 1 ≤ l.length := by
            cases l with
            | nil => exact absurd rfl hne
            | cons a t => simp
          by_cases hlt : l.length < maxC + minC
          · rw [packChunksGo, if_neg (by simpa using hne), if_neg hle, if_pos hlt]
            refine ⟨by simp, ?_, Or.inr (Or.inr ?_)⟩
            · intro c hc
              simp only [List.mem_cons, List.mem_singleton, List.not_mem_nil,
                or_false] at hc
              rcases hc with rfl | rfl
              · constructor
                · intro hnil
                  have := congrArg List.length hnil
                  simp only [List.length_take, List.length_nil] at this
                  omega
                · simp only [List.length_take]
                  omega
              · constructor
                · intro hnil
                  have := congrArg List.length hnil
                  simp only [List.length_drop, List.length_nil] at this
                  omega
                · simp only [List.length_drop]
                  omega
            · intro c hc
              simp only [List.mem_cons, List.mem_singleton, List.not_mem_nil,
                or_false] at hc
              rcases hc with rfl | rfl
              · simp only [List.length_take]
                omega
              · simp only [List.length_drop]
                omega
          · rw [packChunksGo, if_neg (by simpa using hne), if_neg hle, if_neg hlt]
            obtain ⟨r1, r2, r3⟩ := ih (l.drop maxC)
              (by simp only [List.length_drop]; omega)
            have hdlen : (l.drop maxC).length = l.length - maxC := by simp
            refine ⟨?_, ?_, Or.inr (Or.inr ?_)⟩
            · rw [List.flatten_cons, r1, List.take_append_drop]
            · intro c hc
              rcases List.mem_cons.mp hc with rfl | hc
              · constructor
                · intro hnil
                  have := congrArg List.length hnil
                  simp only [List.length_take, List.length_nil] at this
                  omega
                · simp only [List.length_take]
                  omega
              · exact r2 c hc
            · intro c hc
              rcases List.mem_cons.mp hc with rfl | hc
              · simp only [List.length_take]
                omega
              · rcases r3 with hr | hr | hr
                · rw [hr] at hc
                  simp at hc
                · rw [hr] at hc
                  simp only [List.mem_singleton] at hc
                  subst hc
                  simp only [List.length_drop]
                  omega
                · exact hr c hc

/-! #### Bulk loader: level chains -/

theorem chain_head {maxK minK d : Nat} {lo hi : Option Int} {m : Int} {n : BNode V}
    {rest : List (Int × BNode V)}
    (h : ChainWF maxK minK d lo hi ((m, n) :: rest)) : okLo lo m ∧ okHi hi m := by
  match rest, h with
  | [], ⟨h1, h2, _⟩ => exact ⟨h1, h2⟩
  | (m2, n2) :: r, ⟨h1, h2, _, _, _⟩ => exact ⟨h1, h2⟩

/-- One chunk of a level chain becomes one well-formed parent: its members
become the children, the members' minimal keys after the first become the
separator keys. -/
theorem chain_to_parent {maxK minK d : Nat} :
    ∀ {rest : List (Int × BNode V)} {lo hi : Option Int} {m : Int} {n : BNode V},
    ChainWF maxK minK d lo hi ((m, n) :: rest) → rest ≠ [] →
    rest.length ≤ maxK →
    WFN maxK minK rest.length lo hi (d + 1)
      (.internal (rest.map Prod.fst) (n :: rest.map Prod.snd)) := by
  intro rest
  induction rest with
  | nil => intro lo hi m n _ hne _; exact absurd rfl hne
  | cons p rest2 ih =>
      intro lo hi m n h _ hlen
      match p, h with
      | (m2, n2), ⟨hlo, hhi, hlt, hwn, htail⟩ =>
          match rest2, htail with
          | [], ⟨hlo2, hhi2, hwn2⟩ =>
              rw [wfn_internal_iff]
              refine ⟨by simp, by simpa using hlen, by simp, ?_, by simp, ?_⟩
              · intro s hs
                simp only [List.map_cons, List.map_nil, List.mem_singleton] at hs
                subst hs
                exact ⟨fun a ha => lt_of_le_of_lt (hlo a ha) hlt, hhi2⟩
              · intro i hi2
                simp only [List.map_cons, List.map_nil, List.length_cons,
                  List.length_nil] at hi2
                match i, hi2 with
                | 0, _ =>
                    simpa [childLo, childHi] using hwn
                | 1, _ =>
                    have hw1 : childLo lo [m2] 1 = some m2 := rfl
                    have hw2 : childHi hi [m2] 1 = hi := childHi_ge hi [m2] (by simp)
                    simpa [hw1, hw2] using hwn2
          | (m3, n3) :: rest3, htail =>
              have hrec := ih htail (by simp) (by simp at hlen ⊢; omega)
              have hgl2 := wfn_cons_glue
                (fun a ha => lt_of_le_of_lt (hlo a ha) hlt) (chain_head htail).2
                hwn (wfn_relax_cmin hrec (Nat.zero_le _))
                (by simp at hlen ⊢; omega)
              have hfin : WFN maxK minK (((m2, n2) :: (m3, n3) :: rest3).length) lo hi
                  (d + 1) (BNode.internal
                    (m2 :: List.map Prod.fst ((m3, n3) :: rest3))
                    (n :: n2 :: List.map Prod.snd ((m3, n3) :: rest3))) :=
                wfn_raise_cmin hgl2 (by simp [nodeCount])
              simpa using hfin

/-- Splitting a level chain at a chunk boundary. -/
theorem chain_split {maxK minK d : Nat} :
    ∀ (c : List (Int × BNode V)) {lo hi : Option Int} {my : Int} {ny : BNode V}
    {ys : List (Int × BNode V)},
    ChainWF maxK minK d lo hi (c ++ (my, ny) :: ys) → c ≠ [] →
    ChainWF maxK minK d lo (some my) c ∧
    ChainWF maxK minK d (some my) hi ((my, ny) :: ys) ∧
    (∀ p ∈ c, p.1 < my) := by
  intro c
  induction c with
  | nil => intro lo hi my ny ys _ hne; exact absurd rfl hne
  | cons p c2 ih =>
      intro lo hi my ny ys h _
      match p, c2, h with
      | (m, n), [], ⟨hlo, hhi, hlt, hwn, htail⟩ =>
          refine ⟨⟨hlo, ?_, hwn⟩, htail, ?_⟩
          · intro b hb
            simp only [Option.mem_def, Option.some.injEq] at hb
            subst hb
            exact hlt
          · intro q hq
            simp only [List.mem_singleton] at hq
            subst hq
            exact hlt
      | (m, n), (m2, n2) :: c3, ⟨hlo, hhi, hlt, hwn, htail⟩ =>
          obtain ⟨hc2, hys, hbelow⟩ := ih htail (by simp)
          have hm2my : m2 < my := by
            have := hbelow (m2, n2) (by simp)
            exact this
          refine ⟨⟨hlo, ?_, hlt, hwn, hc2⟩, hys, ?_⟩
          · intro b hb
            simp only [Option.mem_def, Option.some.injEq] at hb
            subst hb
            exact lt_trans hlt hm2my
          · intro q hq
            rcases List.mem_cons.mp hq with rfl | hq
            · exact lt_trans hlt hm2my
            · exact hbelow q hq

/-- `buildLevel`'s grouping step turns a level chain whose chunks all have
between `minKeys + 1` and `maxKeys + 1` members into the next level's chain. -/
theorem chunks_chain {maxK minK d : Nat} (hmin : 1 ≤ minK) :
    ∀ (chunks : List (List (Int × BNode V))) {lo hi : Option Int},
    (∀ c ∈ chunks, minK + 1 ≤ c.length ∧ c.length ≤ maxK + 1) →
    ChainWF maxK minK d lo hi chunks.flatten →
    ChainWF maxK minK (d + 1) lo hi
      (chunks.map (fun grp =>
        (((grp.head?.map Prod.fst).getD 0),
         .internal (grp.tail.map Prod.fst) (grp.map Prod.snd)))) := by
  intro chunks
  induction chunks with
  | nil => intro lo hi _ _; exact trivial
  | cons c rest ih =>
      intro lo hi hsz hchain
      have hc := hsz c (by simp)
      match c, hc with
      | (mc, nc) :: crest, hc =>
          have hcrest_ne : crest ≠ [] := by
            intro hnil
            rw [hnil] at hc
            simp at hc
            omega
          have hclen : crest.length ≤ maxK := by
            simp only [List.length_cons] at hc
            omega
          have hcmin : minK ≤ crest.length := by
            simp only [List.length_cons] at hc
            omega
          match rest with
          | [] =>
              simp only [List.flatten_cons, List.flatten_nil, List.append_nil]
                at hchain
              simp only [List.map_cons, List.map_nil]
              exact ⟨(chain_head hchain).1, (chain_head hchain).2,
                wfn_relax_cmin (chain_to_parent hchain hcrest_ne hclen) hcmin⟩
          | c2 :: rest2 =>
              have hc2 := hsz c2 (by simp)
              match c2, hc2 with
              | (my, ny) :: c2rest, hc2 =>
                  have hfl : (((mc, nc) :: crest) :: ((my, ny) :: c2rest) ::
                      rest2).flatten = ((mc, nc) :: crest) ++
                        ((my, ny) :: (c2rest ++ rest2.flatten)) := by
                    simp
                  rw [hfl] at hchain
                  obtain ⟨hcchain, hyschain, hbelow⟩ :=
                    chain_split _ hchain (by simp)
                  have hys2 : ChainWF maxK minK d (some my) hi
                      ((((my, ny) :: c2rest) :: rest2).flatten) := by
                    simpa using hyschain
                  have hIH := ih (fun x hx => hsz x (by simp [hx])) hys2
                  simp only [List.map_cons] at hIH ⊢
                  exact ⟨(chain_head hcchain).1,
                    (by
                      rw [show ((mc, nc) :: crest) ++
                          ((my, ny) :: (c2rest ++ rest2.flatten)) =
                          (mc, nc) :: (crest ++ ((my, ny) ::
                            (c2rest ++ rest2.flatten))) from rfl] at hchain
                      exact (chain_head hchain).2),
                    hbelow (mc, nc) (by simp),
                    wfn_relax_cmin (chain_to_parent hcchain hcrest_ne hclen) hcmin,
                    hIH⟩

/-- Grouping preserves the level contents. -/
theorem chunks_contents (chunks : List (List (Int × BNode V))) :
    (((chunks.map (fun grp =>
        (((grp.head?.map Prod.fst).getD 0),
         (.internal (grp.tail.map Prod.fst) (grp.map Prod.snd) : BNode V)))).map
      Prod.snd).map contents).flatten =
    (((chunks.flatten).map Prod.snd).map contents).flatten := by
  induction chunks with
  | nil => rfl
  | cons c rest ih =>
      simp only [List.map_cons, List.flatten_cons, List.map_append,
        List.flatten_append]
      rw [ih, contents_internal, List.map_map]

theorem buildUpGo_nil (fuel maxK minK : Nat) :
    buildUpGo fuel maxK minK ([] : List (Int × BNode V)) = none := by
  cases fuel <;> rfl

theorem buildUpGo_singleton (fuel maxK minK : Nat) (m : Int) (p : BNode V) :
    buildUpGo fuel maxK minK [(m, p)] = some p := by
  cases fuel <;> rfl

theorem two_mul_chunks_le {α : Type _} (chunks : List (List α))
    (h : ∀ c ∈ chunks, 2 ≤ c.length) :
    2 * chunks.length ≤ chunks.flatten.length := by
  induction chunks with
  | nil => simp
  | cons c rest ih =>
      simp only [List.length_cons, List.flatten_cons, List.length_append]
      have h1 := h c (by simp)
      have h2 := ih (fun x hx => h x (by simp [hx]))
      omega

/-- Repeated level building from a well-formed chain yields a well-formed
tree holding the chain's contents. -/
theorem buildUpGo_spec {maxK minK : Nat} (hm : minK = maxK / 2) (hmin : 1 ≤ minK) :
    ∀ (fuel : Nat) (ns : List (Int × BNode V)) (d : Nat), ns.length ≤ fuel →
    ChainWF maxK minK d none none ns →
    TreeWF maxK minK (buildUpGo fuel maxK minK ns) ∧
    contentsTree (buildUpGo fuel maxK minK ns) =
      ((ns.map Prod.snd).map contents).flatten := by
  intro fuel
  induction fuel with
  | zero =>
      intro ns d hl hc
      have : ns = [] := List.length_eq_zero.mp (by omega)
      subst this
      rw [buildUpGo_nil]
      exact ⟨trivial, rfl⟩
  | succ fuel ih =>
      intro ns d hl hc
      cases ns with
      | nil =>
          rw [buildUpGo_nil]
          exact ⟨trivial, rfl⟩
      | cons p1 ns1 =>
          cases ns1 with
          | nil =>
              obtain ⟨m, n⟩ := p1
              obtain ⟨_, _, hwn⟩ := hc
              rw [buildUpGo_singleton]
              refine ⟨⟨d, wfn_relax_cmin hwn hmin⟩, ?_⟩
              rw [contentsTree]
              simp
          | cons p2 ns2 =>
              have hlen2 : 2 ≤ (p1 :: p2 :: ns2).length := by simp
              obtain ⟨hflat, hbnds, hdisj⟩ :=
                @packChunksGo_spec _ (maxK + 1) (minK + 1) (by omega) (by omega)
                  (p1 :: p2 :: ns2).length (p1 :: p2 :: ns2) (le_refl _)
              have hstep : buildUpGo (fuel + 1) maxK minK (p1 :: p2 :: ns2) =
                  buildUpGo fuel maxK minK
                    (buildLevel maxK minK (p1 :: p2 :: ns2)) := rfl
              have hbuild : buildLevel maxK minK (p1 :: p2 :: ns2) =
                  (packChunksGo (p1 :: p2 :: ns2).length (maxK + 1) (minK + 1)
                    (p1 :: p2 :: ns2)).map (fun grp =>
                    (((grp.head?.map Prod.fst).getD 0),
                     .internal (grp.tail.map Prod.fst) (grp.map Prod.snd))) := rfl
              rcases hdisj with hone | hone | hone
              · rw [hone] at hflat
                simp at hflat
              · -- a single chunk: the new level is a lone root
                obtain ⟨m1, n1⟩ := p1
                have hmem : ((m1, n1) :: p2 :: ns2) ∈
                    packChunksGo ((m1, n1) :: p2 :: ns2).length (maxK + 1)
                      (minK + 1) ((m1, n1) :: p2 :: ns2) := by
                  rw [hone]; simp
                have hroot := chain_to_parent hc (by simp)
                  (by
                    have h9 := (hbnds _ hmem).2
                    simp only [List.length_cons] at h9 ⊢
                    omega)
                rw [hstep, hbuild, hone]
                simp only [List.map_cons, List.map_nil]
                rw [buildUpGo_singleton]
                refine ⟨⟨d + 1, wfn_relax_cmin hroot (by simp)⟩, ?_⟩
                rw [contentsTree, contents_internal]
                simp [List.map_map]
              · -- several chunks, each within the packing bounds
                have hsz : ∀ ch ∈ packChunksGo (p1 :: p2 :: ns2).length (maxK + 1)
                    (minK + 1) (p1 :: p2 :: ns2),
                    minK + 1 ≤ ch.length ∧ ch.length ≤ maxK + 1 :=
                  fun ch hch => ⟨hone ch hch, (hbnds ch hch).2⟩
                have hchain2 := chunks_chain hmin _ hsz
                  (by rw [hflat]; exact hc)
                have h2le := two_mul_chunks_le _
                  (fun ch hch => by have := (hsz ch hch).1; omega)
                rw [hflat] at h2le
                have hlt : (packChunksGo (p1 :: p2 :: ns2).length (maxK + 1)
                    (minK + 1) (p1 :: p2 :: ns2)).length ≤ fuel := by
                  simp only [List.length_cons] at h2le hl ⊢
                  omega
                obtain ⟨hT, hC⟩ := ih _ (d + 1) (by simpa using hlt) hchain2
                rw [hstep, hbuild]
                refine ⟨hT, ?_⟩
                rw [hC, chunks_contents, hflat]

/-! #### Bulk loader: leaves and the whole build -/

theorem headKey_cons {α : Type _} (p : Int × α) (l : List (Int × α)) :
    (((p :: l).head?.map Prod.fst).getD 0) = p.1 := rfl

theorem foldl_upsert_pairwise (data : List (Int × V)) :
    ∀ acc : List (Int × V), List.Pairwise (· < ·) (acc.map Prod.fst) →
    List.Pairwise (· < ·)
      ((data.foldl (fun a p => upsertSorted a p.1 p.2) acc).map Prod.fst) := by
  induction data with
  | nil => intro acc h; exact h
  | cons p t ih => intro acc h; exact ih _ (upsertSorted_pairwise acc p.1 p.2 h)

theorem bulkPrep_pairwise (data : List (Int × V)) :
    List.Pairwise (· < ·) ((bulkPrep data).map Prod.fst) :=
  foldl_upsert_pairwise data [] (by simp)

/-- The leaf level built from key-sorted chunks is a well-formed level
chain. -/
theorem leaves_chain {maxK minK : Nat} :
    ∀ (chunks : List (List (Int × V))) {lo : Option Int},
    (∀ c ∈ chunks, c ≠ [] ∧ minK ≤ c.length ∧ c.length ≤ maxK) →
    List.Pairwise (· < ·) ((chunks.flatten).map Prod.fst) →
    (∀ p ∈ chunks.flatten, okLo lo p.1) →
    ChainWF maxK minK 0 lo none
      (chunks.map (fun c =>
        (((c.head?.map Prod.fst).getD 0), (.leaf c : BNode V)))) := by
  intro chunks
  induction chunks with
  | nil => intro lo _ _ _; exact trivial
  | cons c rest ih =>
      intro lo hsz hpw hlo
      obtain ⟨hne, hcmin, hcmax⟩ := hsz c (by simp)
      match c, hne, hcmin, hcmax with
      | (k0, v0) :: crest, _, hcmin, hcmax =>
          simp only [List.flatten_cons, List.map_append, List.cons_append,
            List.map_cons] at hpw hlo
          cases rest with
          | nil =>
              simp only [List.map_cons, List.map_nil, headKey_cons]
              simp only [List.flatten_nil, List.append_nil] at hpw hlo
              refine ⟨hlo (k0, v0) (by simp), fun b hb => by simp at hb, ?_⟩
              refine wfn_leaf_iff.mpr ⟨hcmin, hcmax, by simpa using hpw, ?_⟩
              intro p hp
              exact ⟨hlo p hp, fun b hb => by simp at hb⟩
          | cons c2 rest2 =>
              obtain ⟨hne2, hcmin2, hcmax2⟩ := hsz c2 (by simp)
              match c2, hne2 with
              | (k1, v1) :: c2rest, _ =>
                  simp only [List.map_cons, headKey_cons]
                  have hsplit : List.Pairwise (· < ·)
                      (((k0, v0) :: crest).map Prod.fst ++
                        (((k1, v1) :: c2rest) :: rest2).flatten.map Prod.fst) := by
                    simpa using hpw
                  obtain ⟨hpwc, hpwrest, hcross⟩ :=
                    List.pairwise_append.mp hsplit
                  have hk1mem : k1 ∈ (((k1, v1) :: c2rest) :: rest2).flatten.map
                      Prod.fst := by simp
                  refine ⟨hlo (k0, v0) (by simp),
                    fun b hb => by simp at hb,
                    hcross k0 (by simp) k1 hk1mem, ?_, ?_⟩
                  · refine wfn_leaf_iff.mpr ⟨hcmin, hcmax, hpwc, ?_⟩
                    intro p hp
                    refine ⟨hlo p (by
                      rcases List.mem_cons.mp hp with rfl | h9
                      · simp
                      · simp [h9]), ?_⟩
                    intro b hb
                    simp only [Option.mem_def, Option.some.injEq] at hb
                    subst hb
                    exact hcross p.1 (List.mem_map_of_mem Prod.fst hp) k1 hk1mem
                  · have hrec := @ih (some k1)
                      (fun x hx => hsz x (by simp [hx]))
                      hpwrest
                      (by
                        intro p hp
                        intro a ha
                        simp only [Option.mem_def, Option.some.injEq] at ha
                        subst ha
                        rw [List.flatten_cons, List.cons_append] at hp
                        rcases List.mem_cons.mp hp with rfl | hp2
                        · exact le_refl _
                        · have hpwrest2 := hpwrest
                          rw [List.flatten_cons, List.cons_append,
                            List.map_cons] at hpwrest2
                          have hk1lt := (List.pairwise_cons.mp hpwrest2).1
                          exact le_of_lt (hk1lt p.1
                            (List.mem_map_of_mem Prod.fst hp2)))
                    simpa [headKey_cons] using hrec

/-- Building a tree from a key-sorted entry list: the leaves level then the
upward level passes yield a well-formed tree holding exactly those entries. -/
theorem buildFromSorted_spec {maxK minK : Nat} (hm : minK = maxK / 2)
    (hmin : 1 ≤ minK) (es : List (Int × V))
    (hpw : List.Pairwise (· < ·) (es.map Prod.fst)) :
    TreeWF maxK minK
      (buildUpGo (buildLeaves maxK minK es).length maxK minK
        (buildLeaves maxK minK es)) ∧
    contentsTree
      (buildUpGo (buildLeaves maxK minK es).length maxK minK
        (buildLeaves maxK minK es)) = es := by
  obtain ⟨hflat, hbnds, hdisj⟩ :=
    @packChunksGo_spec _ maxK minK hmin (by omega) es.length es (le_refl _)
  have hbl : buildLeaves maxK minK es =
      (packChunksGo es.length maxK minK es).map
        (fun c => (((c.head?.map Prod.fst).getD 0), (.leaf c : BNode V))) := rfl
  rcases hdisj with hone | hone | hone
  · rw [hone] at hflat
    simp only [List.flatten_nil] at hflat
    rw [hbl, hone]
    simp only [List.map_nil, List.length_nil]
    rw [buildUpGo_nil]
    exact ⟨trivial, hflat⟩
  · have hesne : es ≠ [] := (hbnds es (by rw [hone]; simp)).1
    have heslen : es.length ≤ maxK := (hbnds es (by rw [hone]; simp)).2
    rw [hbl, hone]
    simp only [List.map_cons, List.map_nil, List.length_cons, List.length_nil]
    rw [buildUpGo_singleton]
    refine ⟨⟨0, wfn_leaf_iff.mpr ⟨?_, heslen, hpw, ?_⟩⟩, ?_⟩
    · cases es with
      | nil => exact absurd rfl hesne
      | cons a t => simp
    · intro p _
      exact ⟨fun a ha => by simp at ha, fun b hb => by simp at hb⟩
    · rw [contentsTree, contents_leaf]
  · have hchain := @leaves_chain _ maxK minK
      (packChunksGo es.length maxK minK es) none
      (fun c hc => ⟨(hbnds c hc).1, hone c hc, (hbnds c hc).2⟩)
      (by rw [hflat]; exact hpw)
      (by intro p _; intro a ha; simp at ha)
    obtain ⟨hT, hC⟩ := buildUpGo_spec hm hmin
      (buildLeaves maxK minK es).length (buildLeaves maxK minK es) 0
      (le_refl _) (by rw [hbl]; exact hchain)
    refine ⟨hT, ?_⟩
    rw [hC, hbl]
    simp only [List.map_map, Function.comp_def, contents_leaf]
    simpa using hflat

/-- `bulkLoad` discards the old tree and builds a well-formed tree that holds
exactly the prepared (sorted, last-occurrence-deduplicated) entries. -/
theorem bulkLoad_spec {maxK minK : Nat} (hm : minK = maxK / 2) (hmin : 1 ≤ minK)
    (t : BTree V) (data : List (Int × V)) :
    TreeWF maxK minK (bulkLoadTree maxK minK t data) ∧
    contentsTree (bulkLoadTree maxK minK t data) = bulkPrep data :=
  buildFromSorted_spec hm hmin (bulkPrep data) (bulkPrep_pairwise data)

/-- Sequential insertion of a data list: the tree stays well-formed and its
contents are the fold of upserts over the starting contents. -/
theorem foldl_insert_spec {maxK minK : Nat} (hm : minK = maxK / 2)
    (hmin : 1 ≤ minK) (data : List (Int × V)) :
    ∀ (t : BTree V), TreeWF maxK minK t →
    TreeWF maxK minK (data.foldl (fun t p => insertTree maxK t p.1 p.2) t) ∧
    contentsTree (data.foldl (fun t p => insertTree maxK t p.1 p.2) t) =
      data.foldl (fun a p => upsertSorted a p.1 p.2) (contentsTree t) := by
  induction data with
  | nil => intro t h; exact ⟨h, rfl⟩
  | cons p rest ih =>
      intro t h
      obtain ⟨hW, hC⟩ := insertTree_spec (k := p.1) (v := p.2) hm hmin h
      obtain ⟨hW2, hC2⟩ := ih _ hW
      simp only [List.foldl_cons]
      exact ⟨hW2, by rw [hC2, hC]⟩

/-- The key-count parameters derived from an order `m ≥ 3` satisfy the
relation the mutators need. -/
theorem minKeysOf_eq (m : Nat) (h : 3 ≤ m) :
    minKeysOf m = maxKeysOf m / 2 ∧ 1 ≤ minKeysOf m := by
  rw [minKeysOf, maxKeysOf]
  omega

/-- Every reachable tree state is well-formed. -/
theorem reachable_treewf {m : Nat} (h3 : 3 ≤ m) :
    ∀ {t : BTree V}, Reachable m t → TreeWF (maxKeysOf m) (minKeysOf m) t := by
  obtain ⟨hm, hmin⟩ := minKeysOf_eq m h3
  intro t hr
  induction hr with
  | empty => exact trivial
  | insert k v _ ih => exact (insertTree_spec (k := k) (v := v) hm hmin ih).1
  | remove k _ ih => exact (removeTree_spec (k := k) hm hmin ih).1
  | bulk data _ ih => exact (bulkLoad_spec hm hmin _ data).1

/-! #### Remove on an absent key -/

/-- Removing an absent key returns the tree object unchanged with a false
flag: the code reports not-found before mutating anything. -/
theorem removeTree_absent {maxK minK : Nat} (hm : minK = maxK / 2)
    (hmin : 1 ≤ minK) {t : BTree V} {k : Int} (h : TreeWF maxK minK t)
    (habs : findValue (contentsTree t) k = none) :
    removeTree maxK minK t k = (t, false) := by
  match t with
  | none => rfl
  | some n =>
      obtain ⟨d, hw⟩ := h
      have hspec := removeAux_spec (k := k) hm hmin (le_refl 1) hw
      rcases Or.symm (Bool.eq_false_or_eq_true (removeAux maxK minK k n).2)
        with hf | ht
      · simp only [removeTree, hf]
        simp
      · exfalso
        have h2 := (hspec.2 ht).2.2
        rw [contentsTree] at habs
        rw [habs] at h2
        simp at h2

/-! ## Claim theorems -/

/-- C1: for every tree state and every key k and value v, after insert(k, v)
a search(k) returns v; and after remove(k) a search(k) returns not-found, for
any k whether or not it was present. -/
theorem c1_insert_remove_search {maxK minK : Nat} (hm : minK = maxK / 2)
    (hmin : 1 ≤ minK) {t : BTree V} (h : TreeWF maxK minK t) (k j : Int)
    (v : V) :
    searchTree (insertTree maxK t k v) k = some v ∧
    searchTree (removeTree maxK minK t j).1 j = none :=
  ⟨insert_then_search hm hmin h, remove_then_search hm hmin h⟩

theorem c1_witness :
    ((1 : Nat) = 2 / 2 ∧ 1 ≤ 1 ∧ TreeWF 2 1 (none : BTree Nat)) ∧
    searchTree (insertTree 2 (none : BTree Nat) 5 7) 5 = some 7 ∧
    searchTree (removeTree 2 1 (none : BTree Nat) 9).1 9 = none :=
  ⟨⟨rfl, le_refl 1, trivial⟩,
   @c1_insert_remove_search Nat 2 1 rfl (le_refl 1) none trivial 5 9 7⟩

/-- C2: every public operation (insert, remove, bulkLoad) preserves the
structural invariants on every reachable tree state of a tree of order m:
keys strictly increasing within each node, all leaves at identical depth,
minKeys ≤ count ≤ maxKeys for every non-root node with only the root exempt
from the lower bound, the tree empty iff the root is absent, and the leaf
chain (the left-to-right leaf sequence, which the next pointers realise)
visiting all stored entries in ascending key order with no gaps or
duplicates. -/
theorem c2_reachable_invariants {m : Nat} (h3 : 3 ≤ m) {t : BTree V}
    (hr : Reachable m t) : Invariants (maxKeysOf m) (minKeysOf m) t :=
  invariants_of_treewf (minKeysOf_eq m h3).2 (reachable_treewf h3 hr)

theorem c2_witness :
    (3 ≤ 3 ∧ Reachable 3 (insertTree (maxKeysOf 3) (none : BTree Nat) 4 0)) ∧
    Invariants (maxKeysOf 3) (minKeysOf 3)
      (insertTree (maxKeysOf 3) (none : BTree Nat) 4 0) :=
  ⟨⟨le_refl 3, Reachable.insert 4 0 Reachable.empty⟩,
   c2_reachable_invariants (le_refl 3) (Reachable.insert 4 0 Reachable.empty)⟩

/-- C6: for every tree state and every key k not present in the tree,
remove(k) returns false (not-found) and leaves the tree entirely unchanged:
the very same tree, hence the same height, the same entry count, the same
key/value content, and the same validate() result. -/
theorem c6_remove_absent {maxK minK : Nat} (hm : minK = maxK / 2)
    (hmin : 1 ≤ minK) {t : BTree V} {k : Int} (h : TreeWF maxK minK t)
    (habs : findValue (contentsTree t) k = none) :
    (removeTree maxK minK t k).2 = false ∧
    (removeTree maxK minK t k).1 = t ∧
    heightTree (removeTree maxK minK t k).1 = heightTree t ∧
    (contentsTree (removeTree maxK minK t k).1).length =
      (contentsTree t).length ∧
    contentsTree (removeTree maxK minK t k).1 = contentsTree t ∧
    validateTree maxK minK (removeTree maxK minK t k).1 =
      validateTree maxK minK t := by
  rw [removeTree_absent hm hmin h habs]
  exact ⟨rfl, rfl, rfl, rfl, rfl, rfl⟩

theorem c6_witness :
    ((1 : Nat) = 2 / 2 ∧ 1 ≤ 1 ∧ TreeWF 2 1 (some (.leaf [(1, 5)]) : BTree Nat) ∧
      findValue (contentsTree (some (.leaf [(1, 5)]) : BTree Nat)) 2 = none) ∧
    (removeTree 2 1 (some (.leaf [(1, 5)]) : BTree Nat) 2).2 = false ∧
    (removeTree 2 1 (some (.leaf [(1, 5)]) : BTree Nat) 2).1 =
      (some (.leaf [(1, 5)]) : BTree Nat) := by
  have hwf : TreeWF 2 1 (some (.leaf [(1, 5)]) : BTree Nat) :=
    ⟨0, wfn_leaf_iff.mpr ⟨by simp, by simp, by simp,
      fun p hp => ⟨fun a ha => by simp at ha, fun b hb => by simp at hb⟩⟩⟩
  have habs : findValue (contentsTree (some (.leaf [(1, 5)]) : BTree Nat)) 2 =
      none := by
    rw [contentsTree, contents_leaf]
    rfl
  have h := c6_remove_absent rfl (le_refl 1) hwf habs
  exact ⟨⟨rfl, le_refl 1, hwf, habs⟩, h.1, h.2.1⟩

/-- C7: for every tree state and bounds, rangeQuery(start, end) is a pure
read (a function of the tree) that returns exactly the stored pairs whose
keys lie in the closed interval [start, end], in ascending key order; it is
empty when the tree is empty, when start > end, and when no stored key falls
in the range. -/
theorem c7_range_query {maxK minK : Nat} {t : BTree V}
    (h : TreeWF maxK minK t) (a b : Int) :
    rangeQueryTree t a b =
      (contentsTree t).filter (fun p => decide (a ≤ p.1 ∧ p.1 ≤ b)) ∧
    List.Pairwise (· < ·) ((rangeQueryTree t a b).map Prod.fst) ∧
    (∀ p ∈ rangeQueryTree t a b, a ≤ p.1 ∧ p.1 ≤ b) ∧
    (t = none → rangeQueryTree t a b = []) ∧
    (b < a → rangeQueryTree t a b = []) ∧
    ((∀ p ∈ contentsTree t, ¬ (a ≤ p.1 ∧ p.1 ≤ b)) →
      rangeQueryTree t a b = []) := by
  have hq := rangeQuery_spec (a := a) (b := b) h
  have hpw := treewf_contents_pairwise h
  refine ⟨hq, ?_, ?_, ?_, ?_, ?_⟩
  · rw [hq]
    exact hpw.sublist (List.Sublist.map Prod.fst (List.filter_sublist _))
  · intro p hp
    rw [hq] at hp
    have := List.of_mem_filter hp
    simpa using this
  · intro ht
    subst ht
    rfl
  · intro hba
    rw [hq]
    refine List.filter_eq_nil_iff.mpr ?_
    intro p _
    simp only [decide_eq_true_eq, not_and]
    intro h1
    omega
  · intro hnone
    rw [hq]
    refine List.filter_eq_nil_iff.mpr ?_
    intro p hp
    simpa using hnone p hp

theorem c7_witness :
    TreeWF 2 1 (some (.leaf [(25, 0), (30, 0)]) : BTree Nat) ∧
    rangeQueryTree (some (.leaf [(25, 0), (30, 0)]) : BTree Nat) 25 35 =
      (contentsTree (some (.leaf [(25, 0), (30, 0)]) : BTree Nat)).filter
        (fun p => decide (25 ≤ p.1 ∧ p.1 ≤ 35)) ∧
    ∀ p ∈ rangeQueryTree (some (.leaf [(25, 0), (30, 0)]) : BTree Nat) 25 35,
      25 ≤ p.1 ∧ p.1 ≤ 35 := by
  have hwf : TreeWF 2 1 (some (.leaf [(25, 0), (30, 0)]) : BTree Nat) :=
    ⟨0, wfn_leaf_iff.mpr ⟨by simp, by simp, by simp,
      fun p hp => ⟨fun a ha => by simp at ha, fun b hb => by simp at hb⟩⟩⟩
  have h := c7_range_query hwf 25 35
  exact ⟨hwf, h.1, h.2.2.1⟩

/-- C8: when key k is already present, insert(k, v2) overwrites the stored
value in place with no structural change: after insert(k, v1) a second
insert(k, v2) makes search(k) yield v2, leaves the total entry count
unchanged, and keeps the tree's node structure (its key skeleton) identical. -/
theorem c8_upsert_in_place {maxK minK : Nat} (hm : minK = maxK / 2)
    (hmin : 1 ≤ minK) {t : BTree V} (h : TreeWF maxK minK t) (k : Int)
    (v1 v2 : V) :
    searchTree (insertTree maxK (insertTree maxK t k v1) k v2) k = some v2 ∧
    (contentsTree (insertTree maxK (insertTree maxK t k v1) k v2)).length =
      (contentsTree (insertTree maxK t k v1)).length ∧
    ∃ n n', insertTree maxK t k v1 = some n ∧
      insertTree maxK (insertTree maxK t k v1) k v2 = some n' ∧
      shapeOf n' = shapeOf n := by
  obtain ⟨hW1, hC1⟩ := insertTree_spec (k := k) (v := v1) hm hmin h
  obtain ⟨hW2, hC2⟩ := insertTree_spec (k := k) (v := v2) hm hmin hW1
  have hkmem : k ∈ (contentsTree (insertTree maxK t k v1)).map Prod.fst := by
    apply findValue_isSome_mem
    rw [← treewf_search hW1]
    rw [insert_then_search (k := k) (v := v1) hm hmin h]
    rfl
  refine ⟨insert_then_search hm hmin hW1, ?_,
    insertTree_present hm hmin hW1 hkmem⟩
  rw [hC2]
  exact upsertSorted_length_mem _ k v2 (treewf_contents_pairwise hW1) hkmem

theorem c8_witness :
    ((1 : Nat) = 2 / 2 ∧ 1 ≤ 1 ∧ TreeWF 2 1 (none : BTree Nat)) ∧
    searchTree (insertTree 2 (insertTree 2 (none : BTree Nat) 3 10) 3 20) 3 =
      some 20 ∧
    (contentsTree
        (insertTree 2 (insertTree 2 (none : BTree Nat) 3 10) 3 20)).length =
      (contentsTree (insertTree 2 (none : BTree Nat) 3 10)).length := by
  have h := @c8_upsert_in_place Nat 2 1 rfl (le_refl 1) none trivial 3 10 20
  exact ⟨⟨rfl, le_refl 1, trivial⟩, h.1, h.2.1⟩

/-- C9: bulkLoad discards all existing tree content (its result does not
depend on the old tree) and builds a tree whose logical content is the result
of repeated upsert of the input pairs in input order (stable-sorted,
deduplicated keeping the last occurrence per key); the result holds the same
key/value pairs as sequential insert of the data, both satisfy validate(),
and searching the built tree looks the keys up in the prepared list — in
particular bulkLoad [(1, a), (1, b)] then search(1) yields b. -/
theorem c9_bulk_load {maxK minK : Nat} (hm : minK = maxK / 2)
    (hmin : 1 ≤ minK) (t u : BTree V) (data : List (Int × V)) :
    bulkLoadTree maxK minK t data = bulkLoadTree maxK minK u data ∧
    contentsTree (bulkLoadTree maxK minK t data) =
      data.foldl (fun a p => upsertSorted a p.1 p.2) [] ∧
    contentsTree (bulkLoadTree maxK minK t data) =
      contentsTree (data.foldl (fun s p => insertTree maxK s p.1 p.2) none) ∧
    validateTree maxK minK (bulkLoadTree maxK minK t data) = true ∧
    validateTree maxK minK
      (data.foldl (fun s p => insertTree maxK s p.1 p.2) none) = true ∧
    ∀ k, searchTree (bulkLoadTree maxK minK t data) k =
      findValue (bulkPrep data) k := by
  obtain ⟨hT, hC⟩ := bulkLoad_spec hm hmin t data
  obtain ⟨hTf, hCf⟩ := foldl_insert_spec hm hmin data none trivial
  refine ⟨rfl, ?_, ?_, validateTree_of_treewf hT,
    validateTree_of_treewf hTf, ?_⟩
  · rw [hC]
    rfl
  · rw [hC, hCf]
    rfl
  · intro k
    rw [treewf_search hT, hC]

theorem c9_witness :
    ((1 : Nat) = 2 / 2 ∧ 1 ≤ 1) ∧
    contentsTree (bulkLoadTree 2 1 (none : BTree String) [(1, "a"), (1, "b")]) =
      contentsTree ([((1 : Int), "a"), (1, "b")].foldl
        (fun s p => insertTree 2 s p.1 p.2) none) ∧
    validateTree 2 1
      (bulkLoadTree 2 1 (none : BTree String) [(1, "a"), (1, "b")]) = true ∧
    searchTree (bulkLoadTree 2 1 (none : BTree String) [(1, "a"), (1, "b")]) 1 =
      some "b" := by
  have h := @c9_bulk_load String 2 1 rfl (le_refl 1) none none
    [(1, "a"), (1, "b")]
  refine ⟨⟨rfl, le_refl 1⟩, h.2.2.1, h.2.2.2.1, ?_⟩
  rw [h.2.2.2.2.2 1]
  rfl

/-- C3 counterexample: the claim's split point is the ceiling
⌈(maxKeys + 1) / 2⌉, which for naturals is (maxKeys + 2) / 2.  With
maxKeys = 2 an overflowing leaf of three entries would then keep
⌈3 / 2⌉ = 2 entries on the left, but splitLeaf (split point
(maxKeys + 1) / 2 in C++ integer division, i.e. the floor) keeps only 1. -/
theorem c3_counterexample :
    ¬ (∀ (entries : List (Int × Nat)), 2 < entries.length →
        splitLeaf 2 entries =
          .two (.leaf (entries.take ((2 + 1 + 1) / 2)))
            ((((entries.drop ((2 + 1 + 1) / 2)).head?.map Prod.fst).getD 0))
            (.leaf (entries.drop ((2 + 1 + 1) / 2)))) := by
  intro hclaim
  have h := hclaim [(1, 0), (2, 0), (3, 0)] (by simp)
  simp [splitLeaf] at h

/-- C3 (amended): whenever an insert makes a leaf's entry count exceed
maxKeys, the leaf is split at split point ⌊(maxKeys + 1) / 2⌋ (C++ integer
division, the floor, not the ceiling): the left node keeps entries
[0, splitPoint), the right node receives entries [splitPoint, count) with no
entry lost, and a copy of the right half's first key is promoted as the
separator while that key also remains in the right leaf. -/
theorem c3_leaf_split_floor {maxK : Nat} {entries : List (Int × V)}
    (h : maxK < entries.length) :
    ∃ p rest,
      entries.drop ((maxK + 1) / 2) = p :: rest ∧
      splitLeaf maxK entries =
        .two (.leaf (entries.take ((maxK + 1) / 2))) p.1 (.leaf (p :: rest)) ∧
      (entries.take ((maxK + 1) / 2)).length = (maxK + 1) / 2 ∧
      entries.take ((maxK + 1) / 2) ++ p :: rest = entries := by
  have hsp : (maxK + 1) / 2 < entries.length := by omega
  obtain ⟨p, rest, hd⟩ : ∃ p rest,
      entries.drop ((maxK + 1) / 2) = p :: rest := by
    cases hdd : entries.drop ((maxK + 1) / 2) with
    | nil =>
        exfalso
        have := congrArg List.length hdd
        simp only [List.length_drop, List.length_nil] at this
        omega
    | cons a l => exact ⟨a, l, rfl⟩
  refine ⟨p, rest, hd, ?_, ?_, ?_⟩
  · simp only [splitLeaf, hd]
    rfl
  · simp only [List.length_take]
    omega
  · rw [← hd, List.take_append_drop]

theorem c3_witness :
    (2 < ([((1 : Int), (10 : Nat)), (2, 20), (3, 30)]).length) ∧
    ∃ p rest,
      ([((1 : Int), (10 : Nat)), (2, 20), (3, 30)]).drop ((2 + 1) / 2) =
        p :: rest ∧
      splitLeaf 2 [((1 : Int), (10 : Nat)), (2, 20), (3, 30)] =
        .two (.leaf (([((1 : Int), (10 : Nat)), (2, 20), (3, 30)]).take
          ((2 + 1) / 2))) p.1 (.leaf (p :: rest)) ∧
      (([((1 : Int), (10 : Nat)), (2, 20), (3, 30)]).take ((2 + 1) / 2)).length =
        (2 + 1) / 2 ∧
      ([((1 : Int), (10 : Nat)), (2, 20), (3, 30)]).take ((2 + 1) / 2) ++
        p :: rest = [((1 : Int), (10 : Nat)), (2, 20), (3, 30)] :=
  ⟨by simp, c3_leaf_split_floor (by simp)⟩

/-- C4: when an internal node's key count exceeds maxKeys (as after a child
insertion — the overflow branch of insertAux calls splitInternal exactly
then), the node is split and the key at the split point is removed and
promoted: it is the separator handed to the parent, the left half keeps the
keys below the split point, the right half the keys above it, the three parts
reassemble the node's keys exactly, and the promoted key appears in neither
half. -/
theorem c4_internal_split_promotes {maxK : Nat} {keys : List Int}
    {children : List (BNode V)} (hpw : List.Pairwise (· < ·) keys)
    (hover : maxK < keys.length) :
    splitInternal maxK keys children =
      .two (.internal (keys.take ((maxK + 1) / 2))
              (children.take ((maxK + 1) / 2 + 1)))
        (keys.getD ((maxK + 1) / 2) 0)
        (.internal (keys.drop ((maxK + 1) / 2 + 1))
          (children.drop ((maxK + 1) / 2 + 1))) ∧
    keys.take ((maxK + 1) / 2) ++
      keys.getD ((maxK + 1) / 2) 0 :: keys.drop ((maxK + 1) / 2 + 1) = keys ∧
    keys.getD ((maxK + 1) / 2) 0 ∉ keys.take ((maxK + 1) / 2) ∧
    keys.getD ((maxK + 1) / 2) 0 ∉ keys.drop ((maxK + 1) / 2 + 1) := by
  have hsp : (maxK + 1) / 2 < keys.length := by omega
  have hdrop : keys.drop ((maxK + 1) / 2) =
      keys.getD ((maxK + 1) / 2) 0 :: keys.drop ((maxK + 1) / 2 + 1) := by
    rw [List.getD_eq_getElem _ _ hsp]
    exact List.drop_eq_getElem_cons hsp
  have hdec : keys.take ((maxK + 1) / 2) ++
      keys.getD ((maxK + 1) / 2) 0 :: keys.drop ((maxK + 1) / 2 + 1) = keys := by
    rw [← hdrop, List.take_append_drop]
  have hpw2 := hpw
  rw [← hdec] at hpw2
  obtain ⟨hA, hB, hcross⟩ := List.pairwise_append.mp hpw2
  refine ⟨rfl, hdec, ?_, ?_⟩
  · intro hmem
    exact absurd (hcross _ hmem _ (by simp)) (lt_irrefl _)
  · intro hmem
    exact absurd ((List.pairwise_cons.mp hB).1 _ hmem) (lt_irrefl _)

theorem c4_witness :
    (List.Pairwise (· < ·) [(1 : Int), 2, 3] ∧ 2 < [(1 : Int), 2, 3].length) ∧
    splitInternal 2 [(1 : Int), 2, 3]
        ([.leaf [], .leaf [], .leaf [], .leaf []] : List (BNode Nat)) =
      .two (.internal ([(1 : Int), 2, 3].take ((2 + 1) / 2))
              (([.leaf [], .leaf [], .leaf [], .leaf []] :
                List (BNode Nat)).take ((2 + 1) / 2 + 1)))
        ([(1 : Int), 2, 3].getD ((2 + 1) / 2) 0)
        (.internal ([(1 : Int), 2, 3].drop ((2 + 1) / 2 + 1))
          (([.leaf [], .leaf [], .leaf [], .leaf []] :
            List (BNode Nat)).drop ((2 + 1) / 2 + 1))) ∧
    [(1 : Int), 2, 3].getD ((2 + 1) / 2) 0 ∉
      [(1 : Int), 2, 3].take ((2 + 1) / 2) ∧
    [(1 : Int), 2, 3].getD ((2 + 1) / 2) 0 ∉
      [(1 : Int), 2, 3].drop ((2 + 1) / 2 + 1) := by
  have h := @c4_internal_split_promotes Nat 2 [(1 : Int), 2, 3]
    [.leaf [], .leaf [], .leaf [], .leaf []] (by simp) (by simp)
  exact ⟨⟨by simp, by simp⟩, h.1, h.2.2.1, h.2.2.2⟩

/-- C5: the deletion fix-up at the parent of an underflowed child always
attempts redistribution before merging: if the left sibling exists (ci > 0)
and has surplus (count > minKeys), fixChild redistributes from it; else if
the right sibling exists (ci < numKeys) and has surplus, fixChild
redistributes from it; and only when neither existing sibling has surplus
does fixChild merge — which removes one separator key from the parent. -/
theorem c5_redistribute_before_merge {minK : Nat} {keys : List Int}
    {children : List (BNode V)} {ci : Nat}
    (hlen : children.length = keys.length + 1) (hci : ci < children.length)
    (hk : 1 ≤ keys.length) :
    ((0 < ci ∧ minK < countAt children (ci - 1)) →
      fixChild minK keys children ci =
        (keys.set (ci - 1)
           (redistribute (children.getD ci dfltNode)
             (children.getD (ci - 1) dfltNode) (keys.getD (ci - 1) 0) true).2.2,
         (children.set (ci - 1)
             (redistribute (children.getD ci dfltNode)
               (children.getD (ci - 1) dfltNode)
               (keys.getD (ci - 1) 0) true).2.1).set ci
           (redistribute (children.getD ci dfltNode)
             (children.getD (ci - 1) dfltNode)
             (keys.getD (ci - 1) 0) true).1) ∧
      (fixChild minK keys children ci).1.length = keys.length) ∧
    (¬ (0 < ci ∧ minK < countAt children (ci - 1)) →
     (ci < keys.length ∧ minK < countAt children (ci + 1)) →
      fixChild minK keys children ci =
        (keys.set ci
           (redistribute (children.getD ci dfltNode)
             (children.getD (ci + 1) dfltNode) (keys.getD ci 0) false).2.2,
         (children.set ci
             (redistribute (children.getD ci dfltNode)
               (children.getD (ci + 1) dfltNode)
               (keys.getD ci 0) false).1).set (ci + 1)
           (redistribute (children.getD ci dfltNode)
             (children.getD (ci + 1) dfltNode) (keys.getD ci 0) false).2.1) ∧
      (fixChild minK keys children ci).1.length = keys.length) ∧
    (¬ (0 < ci ∧ minK < countAt children (ci - 1)) →
     ¬ (ci < keys.length ∧ minK < countAt children (ci + 1)) →
      (fixChild minK keys children ci).1.length = keys.length - 1) := by
  refine ⟨?_, ?_, ?_⟩
  · intro hcond
    have he : fixChild minK keys children ci =
        (keys.set (ci - 1)
           (redistribute (children.getD ci dfltNode)
             (children.getD (ci - 1) dfltNode) (keys.getD (ci - 1) 0) true).2.2,
         (children.set (ci - 1)
             (redistribute (children.getD ci dfltNode)
               (children.getD (ci - 1) dfltNode)
               (keys.getD (ci - 1) 0) true).2.1).set ci
           (redistribute (children.getD ci dfltNode)
             (children.getD (ci - 1) dfltNode)
             (keys.getD (ci - 1) 0) true).1) := by
      simp only [fixChild, if_pos hcond]
    refine ⟨he, ?_⟩
    rw [he]
    simp
  · intro hnc hcond
    have he : fixChild minK keys children ci =
        (keys.set ci
           (redistribute (children.getD ci dfltNode)
             (children.getD (ci + 1) dfltNode) (keys.getD ci 0) false).2.2,
         (children.set ci
             (redistribute (children.getD ci dfltNode)
               (children.getD (ci + 1) dfltNode)
               (keys.getD ci 0) false).1).set (ci + 1)
           (redistribute (children.getD ci dfltNode)
             (children.getD (ci + 1) dfltNode) (keys.getD ci 0) false).2.1) := by
      simp only [fixChild, if_neg hnc, if_pos hcond]
    refine ⟨he, ?_⟩
    rw [he]
    simp
  · intro hnc1 hnc2
    by_cases hpos : 0 < ci
    · have he : fixChild minK keys children ci =
          (keys.eraseIdx (ci - 1),
           (children.set (ci - 1)
             (mergeTwo (children.getD (ci - 1) dfltNode)
               (children.getD ci dfltNode)
               (keys.getD (ci - 1) 0))).eraseIdx ci) := by
        simp only [fixChild, if_neg hnc1, if_neg hnc2, if_pos hpos]
      rw [he]
      rw [List.length_eraseIdx]
      have : ci - 1 < keys.length := by omega
      simp only [if_pos this]
    · have he : fixChild minK keys children ci =
          (keys.eraseIdx ci,
           (children.set ci
             (mergeTwo (children.getD ci dfltNode)
               (children.getD (ci + 1) dfltNode)
               (keys.getD ci 0))).eraseIdx (ci + 1)) := by
        simp only [fixChild, if_neg hnc1, if_neg hnc2, if_neg hpos]
      rw [he]
      rw [List.length_eraseIdx]
      have : ci < keys.length := by omega
      simp only [if_pos this]

theorem c5_witness :
    (([.leaf [(1, 0)], .leaf [(6, 0), (7, 0)]] :
        List (BNode Nat)).length = [(5 : Int)].length + 1 ∧
     0 < ([.leaf [(1, 0)], .leaf [(6, 0), (7, 0)]] :
        List (BNode Nat)).length ∧
     1 ≤ [(5 : Int)].length ∧
     ¬ (0 < 0 ∧ 1 < countAt ([.leaf [(1, 0)], .leaf [(6, 0), (7, 0)]] :
        List (BNode Nat)) (0 - 1)) ∧
     (0 < [(5 : Int)].length ∧ 1 < countAt
        ([.leaf [(1, 0)], .leaf [(6, 0), (7, 0)]] :
          List (BNode Nat)) (0 + 1))) ∧
    (fixChild 1 [(5 : Int)]
      ([.leaf [(1, 0)], .leaf [(6, 0), (7, 0)]] :
        List (BNode Nat)) 0).1.length = [(5 : Int)].length := by
  have h := @c5_redistribute_before_merge Nat 1 [(5 : Int)]
    [.leaf [(1, 0)], .leaf [(6, 0), (7, 0)]] 0 (by simp) (by simp) (by simp)
  exact ⟨⟨by simp, by simp, by simp, by decide, by decide⟩,
    (h.2.1 (by decide) (by decide)).2⟩

/-- C10: validate() checks only per-node key-count bounds, strict in-node key
ordering, internal child count and uniform leaf depth, not the
separator/subtree ordering relation: there is a tree in which an internal
node has a key in the subtree of children[i] that is not below keys[i]
(here key 50 in children[0] against separator 10), yet validate() returns
true. -/
theorem c10_validate_ignores_separators :
    ∃ (keys : List Int) (children : List (BNode Nat)),
      validateTree 2 1 (some (.internal keys children)) = true ∧
      ∃ i, i < keys.length ∧ i < children.length ∧
        ∃ kk ∈ (contents (children.getD i dfltNode)).map Prod.fst,
          keys.getD i 0 ≤ kk := by
  refine ⟨[10], [.leaf [(50, 0)], .leaf [(60, 0)]], ?_, 0, by simp, by simp,
    50, ?_, by simp⟩
  · have hL1 : validateNode 2 1 false (.leaf [(50, 0)] : BNode Nat) 1 none =
        some (some 1) := by
      rw [validateNode.eq_def]
      decide
    have hL2 : validateNode 2 1 false (.leaf [(60, 0)] : BNode Nat) 1
        (some 1) = some (some 1) := by
      rw [validateNode.eq_def]
      decide
    have hC2 : validateChildren 2 1 ([.leaf [(60, 0)]] : List (BNode Nat)) 0
        (some 1) = some (some 1) := by
      rw [validateChildren.eq_def]
      show (match validateNode 2 1 false (.leaf [(60, 0)] : BNode Nat) 1
          (some 1) with
        | none => none
        | some u => validateChildren 2 1 ([] : List (BNode Nat)) 0 u) =
        some (some 1)
      rw [hL2]
      show validateChildren 2 1 ([] : List (BNode Nat)) 0 (some 1) =
        some (some 1)
      rw [validateChildren.eq_def]
    have hC1 : validateChildren 2 1
        ([.leaf [(50, 0)], .leaf [(60, 0)]] : List (BNode Nat)) 0 none =
        some (some 1) := by
      rw [validateChildren.eq_def]
      show (match validateNode 2 1 false (.leaf [(50, 0)] : BNode Nat) 1
          none with
        | none => none
        | some u => validateChildren 2 1
            ([.leaf [(60, 0)]] : List (BNode Nat)) 0 u) = some (some 1)
      rw [hL1]
      exact hC2
    have hroot : validateNode 2 1 true
        (.internal [10] [.leaf [(50, 0)], .leaf [(60, 0)]] : BNode Nat) 0
        none = some (some 1) := by
      rw [validateNode.eq_def]
      rw [if_neg (by decide), if_neg (by decide)]
      show (if ([.leaf [(50, 0)], .leaf [(60, 0)]] :
          List (BNode Nat)).length ≠ [(10 : Int)].length + 1 then none
        else validateChildren 2 1
          ([.leaf [(50, 0)], .leaf [(60, 0)]] : List (BNode Nat)) 0 none) =
        some (some 1)
      rw [if_neg (by decide)]
      exact hC1
    show (validateNode 2 1 true
      (.internal [10] [.leaf [(50, 0)], .leaf [(60, 0)]] : BNode Nat) 0
      none).isSome = true
    rw [hroot]
    rfl
  · show 50 ∈ (contents (.leaf [(50, 0)] : BNode Nat)).map Prod.fst
    rw [contents_leaf]
    simp

end BPT
